import Mathlib

/-!
# CSR sparse matrix product (cusp, OpenMP host path)

A shallow embedding of `cusp/system/omp/detail/multiply/csr_spgemm.h`:
the symbolic pass `spmm_csr_pass1`, the numeric pass `spmm_csr_pass2` and the
driver `multiply`.

Modelling conventions.

* Arrays are lists.  Every array read and write of the source is bounds-checked
  here: an access outside the array makes the function return `none`
  (undefined behaviour in the C++ source).
* Stored indices and offsets (arrays of `IndexType`) are natural numbers; the
  workspace array `next` and the cursor `head`, which also hold the sentinels
  `static_cast<IndexType>(-1)` and `static_cast<IndexType>(-2)`, are integers.
  The `mask` of pass 1 is an array of `size_t` initialised to
  `static_cast<size_t>(-1)`, the all-ones word, which no row index
  `i < num_rows` can equal; it is modelled by the integer `-1`.
* Integer widths are taken large enough for the counters not to wrap.
* The `omp for` loops are executed in row order with one workspace, which is
  the schedule of a single worker; the `ordered` section of pass 2 commits rows
  in this order under every schedule.
* `ValueType` is any type with `0`, `+`, `*` and decidable equality.
-/

namespace Cusp

/-- The fields of `cusp::csr_matrix` used by the product. -/
structure csr_matrix (R : Type) where
  num_rows : Nat
  num_cols : Nat
  num_entries : Nat
  row_offsets : List Nat
  column_indices : List Nat
  values : List R
deriving DecidableEq

/-- The loop `for (k = start; k < start + n; k++) body(k)` over a threaded
state; a failing body aborts the loop.  A source loop
`for (k = a; k < b; k++)` is `forLoop body (b - a) a`. -/
def forLoop {σ : Type} (body : Nat → σ → Option σ) : Nat → Nat → σ → Option σ
  | 0, _, s => some s
  | n + 1, k, s =>
    match body k s with
    | none => none
    | some s' => forLoop body n (k + 1) s'

/-- The assignment `xs[i] = v`, checked against the length of the array. -/
def store {α : Type} (xs : List α) (i : Nat) (v : α) : Option (List α) :=
  if i < xs.length then some (xs.set i v) else none

/-! ## Pass 1 (symbolic) -/

/-- The initial value of `mask`: `static_cast<size_t>(-1)`. -/
def mask_init : Int := -1

/-- Body of the `kk` loop of `spmm_csr_pass1` (source lines 60-66); the state is
`(mask, num_nonzeros)`. -/
def pass1_kk_body (B_column_indices : List Nat) (i : Nat) (kk : Nat)
    (st : List Int × Nat) : Option (List Int × Nat) :=
  match B_column_indices[kk]? with
  | none => none
  | some k =>
    match st.1[k]? with
    | none => none
    | some m =>
      if m ≠ (i : Int) then some (st.1.set k (i : Int), st.2 + 1)
      else some st

/-- Body of the `jj` loop of `spmm_csr_pass1` (source lines 56-67). -/
def pass1_jj_body (A_column_indices B_row_offsets B_column_indices : List Nat)
    (i : Nat) (jj : Nat) (st : List Int × Nat) : Option (List Int × Nat) :=
  match A_column_indices[jj]? with
  | none => none
  | some j =>
    match B_row_offsets[j]?, B_row_offsets[j + 1]? with
    | some kk_start, some kk_end =>
      forLoop (pass1_kk_body B_column_indices i) (kk_end - kk_start) kk_start st
    | _, _ => none

/-- Body of the row loop of `spmm_csr_pass1` (source lines 54-68). -/
def pass1_row (A_row_offsets A_column_indices B_row_offsets B_column_indices : List Nat)
    (i : Nat) (st : List Int × Nat) : Option (List Int × Nat) :=
  match A_row_offsets[i]?, A_row_offsets[i + 1]? with
  | some jj_start, some jj_end =>
    forLoop (pass1_jj_body A_column_indices B_row_offsets B_column_indices i)
      (jj_end - jj_start) jj_start st
  | _, _ => none

/-- The symbolic pass `spmm_csr_pass1`: the number of entries of `C`, explicit
zeros included. -/
def spmm_csr_pass1 (num_rows num_cols : Nat)
    (A_row_offsets A_column_indices B_row_offsets B_column_indices : List Nat) :
    Option Nat :=
  match forLoop (pass1_row A_row_offsets A_column_indices B_row_offsets B_column_indices)
      num_rows 0 (List.replicate num_cols mask_init, 0) with
  | none => none
  | some st => some st.2

/-! ## Pass 2 (numeric) -/

/-- The sentinel `unseen = static_cast<IndexType>(-1)`. -/
def unseen : Int := -1

/-- The sentinel `init = static_cast<IndexType>(-2)`, the end of the list. -/
def init : Int := -2

/-- The per-worker workspace of `spmm_csr_pass2` together with the row-local
variables `head` and `length`. -/
structure Workspace (R : Type) where
  next : List Int
  sums : List R
  head : Int
  length : Nat
deriving DecidableEq

/-- The output arrays of `spmm_csr_pass2` and its counter `num_nonzeros`. -/
structure Output (R : Type) where
  C_row_offsets : List Nat
  C_column_indices : List Nat
  C_values : List R
  num_nonzeros : Nat
deriving DecidableEq

section
variable {R : Type}

/-- Body of the `kk` loop of `spmm_csr_pass2` (source lines 121-131). -/
def pass2_kk_body [Add R] [Mul R] (B_column_indices : List Nat) (B_values : List R) (v : R)
    (kk : Nat) (w : Workspace R) : Option (Workspace R) :=
  match B_column_indices[kk]?, B_values[kk]? with
  | some k, some b =>
    match w.sums[k]? with
    | none => none
    | some s =>
      match w.next[k]? with
      | none => none
      | some nx =>
        if nx = unseen then
          some { next := w.next.set k w.head, sums := w.sums.set k (s + v * b),
                 head := (k : Int), length := w.length + 1 }
        else
          some { next := w.next, sums := w.sums.set k (s + v * b),
                 head := w.head, length := w.length }
  | _, _ => none

/-- Body of the `jj` loop of `spmm_csr_pass2` (source lines 113-132). -/
def pass2_jj_body [Add R] [Mul R] (A_column_indices : List Nat) (A_values : List R)
    (B_row_offsets B_column_indices : List Nat) (B_values : List R)
    (jj : Nat) (w : Workspace R) : Option (Workspace R) :=
  match A_column_indices[jj]?, A_values[jj]? with
  | some j, some v =>
    match B_row_offsets[j]?, B_row_offsets[j + 1]? with
    | some kk_start, some kk_end =>
      forLoop (pass2_kk_body B_column_indices B_values v) (kk_end - kk_start) kk_start w
    | _, _ => none
  | _, _ => none

/-- Body of the loop of the ordered section of `spmm_csr_pass2` (source lines
141-154): emit the head of the list unless its sum is zero, unlink it and
clear its workspace cells. -/
def pass2_emit_body [Zero R] [DecidableEq R] (_jj : Nat) (st : Workspace R × Output R) :
    Option (Workspace R × Output R) :=
  if st.1.head < 0 then none
  else
    match st.1.sums[st.1.head.toNat]? with
    | none => none
    | some shead =>
      match (if shead ≠ 0 then
              match store st.2.C_column_indices st.2.num_nonzeros st.1.head.toNat,
                    store st.2.C_values st.2.num_nonzeros shead with
              | some ci, some cv =>
                some { C_row_offsets := st.2.C_row_offsets, C_column_indices := ci,
                       C_values := cv, num_nonzeros := st.2.num_nonzeros + 1 }
              | _, _ => none
            else some st.2) with
      | none => none
      | some o =>
        match st.1.next[st.1.head.toNat]? with
        | none => none
        | some nx =>
          some ({ next := st.1.next.set st.1.head.toNat unseen,
                  sums := st.1.sums.set st.1.head.toNat 0,
                  head := nx, length := st.1.length }, o)

/-- Body of the row loop of `spmm_csr_pass2` (source lines 105-157). -/
def pass2_row [Zero R] [Add R] [Mul R] [DecidableEq R]
    (A_row_offsets A_column_indices : List Nat) (A_values : List R)
    (B_row_offsets B_column_indices : List Nat) (B_values : List R)
    (i : Nat) (st : Workspace R × Output R) : Option (Workspace R × Output R) :=
  match A_row_offsets[i]?, A_row_offsets[i + 1]? with
  | some jj_start, some jj_end =>
    match forLoop (pass2_jj_body A_column_indices A_values B_row_offsets B_column_indices
            B_values) (jj_end - jj_start) jj_start
            { next := st.1.next, sums := st.1.sums, head := init, length := 0 } with
    | none => none
    | some w =>
      match forLoop pass2_emit_body w.length 0 (w, st.2) with
      | none => none
      | some (w', o) =>
        match store o.C_row_offsets (i + 1) o.num_nonzeros with
        | none => none
        | some ro =>
          some (w', { C_row_offsets := ro, C_column_indices := o.C_column_indices,
                      C_values := o.C_values, num_nonzeros := o.num_nonzeros })
  | _, _ => none

/-- The numeric pass `spmm_csr_pass2`: fills the three arrays of `C` and
returns them with the number of entries written. -/
def spmm_csr_pass2 [Zero R] [Add R] [Mul R] [DecidableEq R] (num_rows num_cols : Nat)
    (A_row_offsets A_column_indices : List Nat) (A_values : List R)
    (B_row_offsets B_column_indices : List Nat) (B_values : List R)
    (C_row_offsets C_column_indices : List Nat) (C_values : List R) :
    Option (Output R) :=
  match store C_row_offsets 0 0 with
  | none => none
  | some ro =>
    match forLoop (pass2_row A_row_offsets A_column_indices A_values
            B_row_offsets B_column_indices B_values) num_rows 0
            ({ next := List.replicate num_cols unseen,
               sums := List.replicate num_cols (0 : R), head := init, length := 0 },
             { C_row_offsets := ro, C_column_indices := C_column_indices,
               C_values := C_values, num_nonzeros := 0 }) with
    | none => none
    | some st => some st.2

/-! ## Result assembly -/

/-- Modelled from the spec: `array1d::resize(n)`, whose definition is not among
the sources.  The first `n` elements are kept and new elements are
value-initialised. -/
def resize_array {α : Type} (d : α) (xs : List α) (n : Nat) : List α :=
  xs.take n ++ List.replicate (n - xs.length) d

/-- Modelled from the spec: `csr_matrix::resize(num_rows, num_cols,
num_entries)`, whose definition is not among the sources.  It sets the three
counts and resizes `row_offsets` to `num_rows + 1` and `column_indices` and
`values` to `num_entries`. -/
def csr_matrix.resize [Zero R] (C : csr_matrix R) (num_rows num_cols num_entries : Nat) :
    csr_matrix R :=
  { num_rows := num_rows, num_cols := num_cols, num_entries := num_entries,
    row_offsets := resize_array 0 C.row_offsets (num_rows + 1),
    column_indices := resize_array 0 C.column_indices num_entries,
    values := resize_array 0 C.values num_entries }

/-- The driver `multiply` for three CSR matrices; `C` is the matrix passed by
reference, the result is its final state. -/
def multiply [Zero R] [Add R] [Mul R] [DecidableEq R] (A B C : csr_matrix R) : Option (csr_matrix R) :=
  match spmm_csr_pass1 A.num_rows B.num_cols A.row_offsets A.column_indices
      B.row_offsets B.column_indices with
  | none => none
  | some num_nonzeros =>
    match spmm_csr_pass2 A.num_rows B.num_cols
        A.row_offsets A.column_indices A.values
        B.row_offsets B.column_indices B.values
        (C.resize A.num_rows B.num_cols num_nonzeros).row_offsets
        (C.resize A.num_rows B.num_cols num_nonzeros).column_indices
        (C.resize A.num_rows B.num_cols num_nonzeros).values with
    | none => none
    | some o =>
      some (csr_matrix.resize
        { num_rows := A.num_rows, num_cols := B.num_cols, num_entries := num_nonzeros,
          row_offsets := o.C_row_offsets, column_indices := o.C_column_indices,
          values := o.C_values } A.num_rows B.num_cols o.num_nonzeros)

end

/-! ## Specification vocabulary -/

section
variable {R : Type}

/-- The CSR invariant of the data model, with the bound on the column
indices. -/
structure WellFormed (M : csr_matrix R) : Prop where
  offsets_length : M.row_offsets.length = M.num_rows + 1
  offsets_first : M.row_offsets[0]? = some 0
  offsets_sorted : List.Pairwise (fun a b => a ≤ b) M.row_offsets
  offsets_last : M.row_offsets[M.num_rows]? = some M.num_entries
  columns_length : M.column_indices.length = M.num_entries
  values_length : M.values.length = M.num_entries
  columns_lt : ∀ c ∈ M.column_indices, c < M.num_cols

/-- The offset `row_offsets[i]` (0 outside the array). -/
def csr_matrix.offset (M : csr_matrix R) (i : Nat) : Nat := M.row_offsets.getD i 0

/-- The stored entry at position `p`: `(column_indices[p], values[p])`. -/
def csr_matrix.entry [Zero R] (M : csr_matrix R) (p : Nat) : Nat × R :=
  (M.column_indices.getD p 0, M.values.getD p 0)

/-- The accesses of the two passes to `M` stay inside its arrays: the offsets
`row_offsets[0..num_rows]` exist, and every position `p` of a row range
`row_offsets[i] ≤ p < row_offsets[i+1]` lies inside `column_indices` and
`values` and holds a column index below `k`.  Nothing is asked of the order
of the offsets, of their first or of their last element. -/
structure Readable [Zero R] (M : csr_matrix R) (k : Nat) : Prop where
  offsets_length : M.num_rows + 1 ≤ M.row_offsets.length
  positions : ∀ i, i < M.num_rows → ∀ p, p < M.offset (i + 1) → M.offset i ≤ p →
    p < M.column_indices.length ∧ p < M.values.length ∧ (M.entry p).1 < k

/-- The stored entries of row `i`, in storage order: the positions
`row_offsets[i] ≤ p < row_offsets[i+1]`. -/
def csr_matrix.row [Zero R] (M : csr_matrix R) (i : Nat) : List (Nat × R) :=
  (List.range' (M.offset i) (M.offset (i + 1) - M.offset i)).map M.entry

/-- All stored entries as `(row, column, value)` triples. -/
def csr_matrix.entries [Zero R] (M : csr_matrix R) : List (Nat × Nat × R) :=
  (List.range M.num_rows).flatMap (fun i => (M.row i).map (fun e => (i, e.1, e.2)))

/-- The sum of the values stored in row `i` at column `c`. -/
def csr_matrix.entry_sum [Zero R] [Add R] (M : csr_matrix R) (i c : Nat) : R :=
  ((M.entries.filter (fun e => e.1 = i ∧ e.2.1 = c)).map (fun e => e.2.2)).sum

/-- The entry `(i, c)` of the matrix product: the sum, over the stored entries
`(i, j, a)` of `A` and `(j, c, b)` of `B`, of `a * b`. -/
def product_sum [Zero R] [Add R] [Mul R] (A B : csr_matrix R) (i c : Nat) : R :=
  ((A.entries.filter (fun e => e.1 = i)).map (fun e =>
    ((B.entries.filter (fun f => f.1 = e.2.1 ∧ f.2.1 = c)).map
      (fun f => e.2.2 * f.2.2)).sum)).sum

/-- The number of distinct columns `c` such that a stored entry `(i, j)` of `A`
and a stored entry `(j, c)` of `B` exist. -/
def touched_count [Zero R] (A B : csr_matrix R) (i : Nat) : Nat :=
  ((List.range B.num_cols).filter (fun c =>
    A.entries.any (fun e => e.1 = i ∧
      B.entries.any (fun f => f.1 = e.2.1 ∧ f.2.1 = c)))).length

/-- The `k × k` identity matrix in CSR form. -/
def identity (R : Type) [One R] (k : Nat) : csr_matrix R :=
  { num_rows := k, num_cols := k, num_entries := k,
    row_offsets := List.range (k + 1), column_indices := List.range k,
    values := List.replicate k 1 }

/-! ## Row-level description of the two passes -/

/-- The contributions to row `i` of the product in the order the loops of both
passes visit them: `(k, v * b)` for each entry `(j, v)` of row `i` of `A` and
each entry `(k, b)` of row `j` of `B`. -/
def touches [Zero R] [Mul R] (A B : csr_matrix R) (i : Nat) : List (Nat × R) :=
  (A.row i).flatMap (fun e => (B.row e.1).map (fun f => (f.1, e.2 * f.2)))

/-- One accumulation step of pass 2 on in-range column `t.1`. -/
def touch_step [Zero R] [Add R] (w : Workspace R) (t : Nat × R) : Workspace R :=
  if w.next.getD t.1 0 = unseen then
    { next := w.next.set t.1 w.head, sums := w.sums.set t.1 (w.sums.getD t.1 0 + t.2),
      head := (t.1 : Int), length := w.length + 1 }
  else
    { next := w.next, sums := w.sums.set t.1 (w.sums.getD t.1 0 + t.2),
      head := w.head, length := w.length }

/-- One marking step of pass 1 on in-range column `k`. -/
def mask_step (i : Nat) (st : List Int × Nat) (k : Nat) : List Int × Nat :=
  if st.1.getD k 0 ≠ (i : Int) then (st.1.set k (i : Int), st.2 + 1) else st

/-- Linking a column in front of the list unless it is already a member. -/
def chain_step (ch : List Nat) (k : Nat) : List Nat :=
  if k ∈ ch then ch else k :: ch

/-- The list threaded through `next` after touching the columns `cols`: the
distinct columns, most recent first touch first. -/
def chain (cols : List Nat) : List Nat := cols.foldl chain_step []

/-- The value of `head` for a list: its first column, or `init`. -/
def head_of : List Nat → Int
  | [] => init
  | c :: _ => (c : Int)

/-- The array `next` threads the list `ch`. -/
def Linked (next : List Int) : List Nat → Prop
  | [] => True
  | c :: rest => next[c]? = some (head_of rest) ∧ Linked next rest

/-- The accumulated sum of column `k`. -/
def col_sum [Zero R] [Add R] (ts : List (Nat × R)) (k : Nat) : R :=
  ((ts.filter (fun t => t.1 = k)).map (fun t => t.2)).sum

/-- The entries emitted by the ordered section for the list `ch`. -/
def emitted [Zero R] [DecidableEq R] (f : Nat → R) (ch : List Nat) : List (Nat × R) :=
  ch.filterMap (fun c => if f c ≠ 0 then some (c, f c) else none)

/-- Row `i` of the product as pass 2 emits it. -/
def row_out [Zero R] [Add R] [Mul R] [DecidableEq R] (A B : csr_matrix R) (i : Nat) : List (Nat × R) :=
  emitted (col_sum (touches A B i)) (chain ((touches A B i).map Prod.fst))

/-- The entries emitted for the rows below `i`. -/
def out_upto [Zero R] [Add R] [Mul R] [DecidableEq R] (A B : csr_matrix R) (i : Nat) : List (Nat × R) :=
  (List.range i).flatMap (row_out A B)

/-- The matrix that `multiply` builds from the emitted rows. -/
def product_csr [Zero R] [Add R] [Mul R] [DecidableEq R] (A B : csr_matrix R) :
    csr_matrix R :=
  { num_rows := A.num_rows, num_cols := B.num_cols,
    num_entries := (out_upto A B A.num_rows).length,
    row_offsets := (List.range (A.num_rows + 1)).map (fun r => (out_upto A B r).length),
    column_indices := (out_upto A B A.num_rows).map Prod.fst,
    values := (out_upto A B A.num_rows).map Prod.snd }

/-- The number of list nodes created for the rows below `i`. -/
def links_upto [Zero R] [Mul R] (A B : csr_matrix R) (i : Nat) : Nat :=
  ((List.range i).map (fun r => (chain ((touches A B r).map Prod.fst)).length)).sum

/-! ## Invariants of the workspace -/

/-- The workspace arrays have the size of the column range. -/
def Sized (n : Nat) (w : Workspace R) : Prop := w.next.length = n ∧ w.sums.length = n

/-- The workspace after the accumulation loops have added the contributions
`ts` of a row to a clean workspace of size `n`. -/
structure RowInv [Zero R] [Add R] (n : Nat) (ts : List (Nat × R)) (w : Workspace R) :
    Prop where
  sized : Sized n w
  head_eq : w.head = head_of (chain (ts.map Prod.fst))
  length_eq : w.length = (chain (ts.map Prod.fst)).length
  linked : Linked w.next (chain (ts.map Prod.fst))
  untouched : ∀ k, k < n → k ∉ chain (ts.map Prod.fst) → w.next[k]? = some unseen
  sums_eq : ∀ k, k < n → w.sums[k]? = some (col_sum ts k)

/-- The workspace while the ordered section still has the list `ch` to walk;
`f` gives the accumulated sums of the listed columns. -/
structure WalkInv [Zero R] (n : Nat) (f : Nat → R) (ch : List Nat) (w : Workspace R) :
    Prop where
  sized : Sized n w
  head_eq : w.head = head_of ch
  linked : Linked w.next ch
  nodup : ch.Nodup
  lt : ∀ c ∈ ch, c < n
  next_out : ∀ k, k < n → k ∉ ch → w.next[k]? = some unseen
  sums_out : ∀ k, k < n → k ∉ ch → w.sums[k]? = some 0
  sums_in : ∀ c ∈ ch, w.sums[c]? = some (f c)

/-- The array `xs` with the block `ys` written at position `i`. -/
def splice {α : Type} (xs : List α) (i : Nat) (ys : List α) : List α :=
  xs.take i ++ ys ++ xs.drop (i + ys.length)

end

/-! ## Vocabulary for the list threaded through `next` -/

/-- Following the list for `n` steps of `head = next[head]`, starting from
`h`: the columns visited, in order, and the value of `head` reached. -/
def follow (next : List Int) : Nat → Int → Option (List Nat × Int)
  | 0, h => some ([], h)
  | n + 1, h =>
    if h < 0 then none
    else
      match next[h.toNat]? with
      | none => none
      | some nx =>
        match follow next n nx with
        | none => none
        | some r => some (h.toNat :: r.1, r.2)

/-- The distinct columns of `cols` in the order of their first occurrence. -/
def first_touch_order (cols : List Nat) : List Nat :=
  cols.foldl (fun acc c => if c ∈ acc then acc else acc ++ [c]) []

/-- The stored entries of `M`, row after row, each row sorted by column. -/
def csr_matrix.sorted_rows {R : Type} [Zero R] (M : csr_matrix R) : List (Nat × R) :=
  (List.range M.num_rows).flatMap
    (fun i => (M.row i).insertionSort (fun a b => a.1 ≤ b.1))

/-! ## Format utilities (`cusp/detail/format_utils.inl`)

The functions of this file are compositions of Thrust primitives.  The
primitives are embedded by their documented sequential meaning; an iterator
into an array is the function that reads the array, so that a read outside
the array yields `none`. -/

/-- The library primitive `thrust::fill(first, last, value)`: every element of
the range becomes `value`. -/
def fill {α : Type} (xs : List α) (v : α) : List α := List.replicate xs.length v

/-- Modelled from the spec: `not_equal_tuple_functor` of
`cusp/detail/functional.h`, which is not among the sources; by its name and
its use it tells whether the two components of a tuple differ. -/
def not_equal_tuple_functor (t : Nat × Nat) : Bool := t.1 != t.2

/-- Modelled from the spec: `equal_tuple_functor` of
`cusp/detail/functional.h`, which is not among the sources; by its name and
its use it tells whether the two components of a tuple are equal. -/
def equal_tuple_functor (t : Nat × Nat) : Bool := t.1 == t.2

/-- One element of `thrust::scatter_if`: when `stencil[i]` holds,
`output[map[i]] = first[i]`. -/
def scatter_if_step {α : Type} (first : Nat → Option α) (map : Nat → Option Nat)
    (stencil : Nat → Option Bool) (i : Nat) (output : List α) : Option (List α) :=
  match first i, map i, stencil i with
  | some v, some d, some true => store output d v
  | some _, some _, some false => some output
  | _, _, _ => none

/-- The library primitive
`thrust::scatter_if(first, last, map, stencil, output)` on a range of `n`
elements: for `i = 0, ..., n - 1`, when `stencil[i]` holds,
`output[map[i]] = first[i]`.  The elements are taken in increasing order; the
library leaves the order open, which matters only when two selected elements
share a destination. -/
def scatter_if {α : Type} (n : Nat) (first : Nat → Option α) (map : Nat → Option Nat)
    (stencil : Nat → Option Bool) (output : List α) : Option (List α) :=
  forLoop (scatter_if_step first map stencil) n 0 output

/-- The iterator that applies a functor to the zip of two arrays: element `i`
is `f (xs[i], ys[i])`. -/
def zip_transform (f : Nat × Nat → Bool) (xs ys : Nat → Option Nat) (i : Nat) :
    Option Bool :=
  match xs i, ys i with
  | some a, some b => some (f (a, b))
  | _, _ => none

/-- The running results of `inclusive_scan` after an accumulated value. -/
def scan_from {α : Type} (op : α → α → α) : α → List α → List α
  | _, [] => []
  | acc, x :: xs => op acc x :: scan_from op (op acc x) xs

/-- The library primitive `thrust::inclusive_scan(first, last, result, op)`
computed in place: element `p` becomes `x₀ op x₁ op ... op x_p`. -/
def inclusive_scan {α : Type} (op : α → α → α) : List α → List α
  | [] => []
  | x :: xs => x :: scan_from op x xs

/-- The library primitive `thrust::lower_bound(first, last, value)` as an
offset from `first`: the furthermost position `i` such that every element
before `i` is less than `value`. -/
def lower_bound (xs : List Nat) (value : Nat) : Nat :=
  (xs.takeWhile (fun x => x < value)).length

/-- The library primitive
`thrust::inner_product(first1, last1, first2, init, op1, op2)`: the value
`init op1 (x₀ op2 y₀) op1 (x₁ op2 y₁) ...` over the range of the first
sequence. -/
def inner_product {α β : Type} (xs ys : List α) (init : β) (op1 : β → β → β)
    (op2 : α → α → β) : β :=
  (xs.zip ys).foldl (fun acc p => op1 acc (op2 p.1 p.2)) init

/-- The function `offsets_to_indices(offsets, indices)`; the result is the
final content of `indices`.  With an empty `offsets` the bound
`offsets.size() - 1` of the source wraps around; the embedding returns
`none`. -/
def offsets_to_indices (offsets indices : List Nat) : Option (List Nat) :=
  match offsets with
  | [] => none
  | _ :: _ =>
    match scatter_if (offsets.length - 1) (fun i => some i) (fun i => offsets[i]?)
        (zip_transform not_equal_tuple_functor (fun i => offsets[i]?)
          (fun i => offsets[i + 1]?))
        (fill indices 0) with
    | none => none
    | some scattered => some (inclusive_scan max scattered)

/-- The function `indices_to_offsets(indices, offsets)`; the result is the
final content of `offsets`: element `v` is the lower bound of `v` in
`indices`, for every `v` below `offsets.size()`. -/
def indices_to_offsets (indices offsets : List Nat) : List Nat :=
  (List.range offsets.length).map (fun v => lower_bound indices v)

/-- The overload of `extract_diagonal` for the CSR format (source lines
88-110); the result is the final content of `output`. -/
def extract_diagonal_csr {R : Type} [Zero R] (A : csr_matrix R) (output : List R) :
    Option (List R) :=
  match offsets_to_indices A.row_offsets (List.replicate A.num_entries 0) with
  | none => none
  | some row_indices =>
    scatter_if A.values.length (fun p => A.values[p]?) (fun p => row_indices[p]?)
      (zip_transform equal_tuple_functor (fun p => row_indices[p]?)
        (fun p => A.column_indices[p]?))
      (fill output 0)

/-- The function `extract_diagonal(A, output)` (source lines 184-191) for a
CSR matrix: `output` is resized to `min(num_rows, num_cols)` and handed to the
CSR overload. -/
def extract_diagonal {R : Type} [Zero R] (A : csr_matrix R) (output : List R) :
    Option (List R) :=
  extract_diagonal_csr A (resize_array 0 output (min A.num_rows A.num_cols))

/-- The function `compute_max_entries_per_row(row_offsets)`.  With an empty
array the range `[begin() + 1, end())` of the source is not a range; the
embedding returns `none`.  The differences are those of the index type; as
the running maximum starts at 0, a negative difference of a signed type
counts like the difference 0 of the natural numbers. -/
def compute_max_entries_per_row (row_offsets : List Nat) : Option Nat :=
  match row_offsets with
  | [] => none
  | _ :: rest => some (inner_product rest row_offsets 0 max (fun a b => a - b))

/-- The maximum of the row lengths `row_offsets[i+1] - row_offsets[i]` over
the rows `i < num_rows`, 0 without rows. -/
def max_row_length (row_offsets : List Nat) (num_rows : Nat) : Nat :=
  ((List.range num_rows).map
    (fun i => row_offsets.getD (i + 1) 0 - row_offsets.getD i 0)).foldl max 0

/-! ## A floating-point value type -/

/-- The value type `double` as an instance of `ValueType`, as far as the
examples need it: the finite values that are integers (exact in binary64 below
`2^53` in magnitude), the two infinities and NaN.  The sign of a zero is not
tracked, both zeros of IEEE 754 compare equal to `0`.  The only comparison of
the source, `sums[head] != 0`, agrees with structural equality on this type:
NaN and the infinities are unequal to `0`. -/
inductive double where
  | finite (x : Int)
  | infinity (negative : Bool)
  | nan
  deriving DecidableEq

/-- Addition of `double`: NaN propagates, and the sum of the two opposite
infinities is NaN. -/
def double.add : double → double → double
  | .nan, _ => .nan
  | _, .nan => .nan
  | .finite x, .finite y => .finite (x + y)
  | .finite _, .infinity s => .infinity s
  | .infinity s, .finite _ => .infinity s
  | .infinity s, .infinity t => if s = t then .infinity s else .nan

/-- Multiplication of `double`: NaN propagates, the product of zero and an
infinity is NaN, and otherwise the sign of an infinite product is the product
of the signs. -/
def double.mul : double → double → double
  | .nan, _ => .nan
  | _, .nan => .nan
  | .finite x, .finite y => .finite (x * y)
  | .finite x, .infinity s => if x = 0 then .nan else .infinity (xor s (decide (x < 0)))
  | .infinity s, .finite y => if y = 0 then .nan else .infinity (xor s (decide (y < 0)))
  | .infinity s, .infinity t => .infinity (xor s t)

instance double.instZero : Zero double := ⟨.finite 0⟩

instance double.instAdd : Add double := ⟨double.add⟩

instance double.instMul : Mul double := ⟨double.mul⟩

/-! ## Concrete matrices -/

/-- The prior state of `C` used in the examples: an empty matrix. -/
def ex_empty : csr_matrix Int :=
  { num_rows := 0, num_cols := 0, num_entries := 0, row_offsets := [0],
    column_indices := [], values := [] }

/-- The `1 × 2` matrix `[[1, -1]]`. -/
def ex_cancel_A : csr_matrix Int :=
  { num_rows := 1, num_cols := 2, num_entries := 2, row_offsets := [0, 2],
    column_indices := [0, 1], values := [1, -1] }

/-- The `2 × 1` matrix `[[1], [1]]`. -/
def ex_cancel_B : csr_matrix Int :=
  { num_rows := 2, num_cols := 1, num_entries := 2, row_offsets := [0, 1, 2],
    column_indices := [0, 0], values := [1, 1] }

/-- The `2 × 2` matrix `[[1, 2], [0, 1]]`. -/
def ex_A : csr_matrix Int :=
  { num_rows := 2, num_cols := 2, num_entries := 3, row_offsets := [0, 2, 3],
    column_indices := [0, 1, 1], values := [1, 2, 1] }

/-- The `2 × 2` matrix `[[1, 0], [2, 1]]`. -/
def ex_B : csr_matrix Int :=
  { num_rows := 2, num_cols := 2, num_entries := 3, row_offsets := [0, 1, 3],
    column_indices := [0, 0, 1], values := [1, 2, 1] }

/-- A `1 × 1` matrix whose only stored entry is an explicit zero. -/
def ex_stored_zero : csr_matrix Int :=
  { num_rows := 1, num_cols := 1, num_entries := 1, row_offsets := [0, 1],
    column_indices := [0], values := [0] }

/-- A `1 × 1` matrix that stores column 0 twice, with values 1 and 2. -/
def ex_duplicate : csr_matrix Int :=
  { num_rows := 1, num_cols := 1, num_entries := 2, row_offsets := [0, 2],
    column_indices := [0, 0], values := [1, 2] }

/-- A `1 × 2` matrix with the single entry `(0, 0) = 1`. -/
def ex_wide : csr_matrix Int :=
  { num_rows := 1, num_cols := 2, num_entries := 1, row_offsets := [0, 1],
    column_indices := [0], values := [1] }

/-- The `1 × 1` matrix `[[1]]`. -/
def ex_one : csr_matrix Int :=
  { num_rows := 1, num_cols := 1, num_entries := 1, row_offsets := [0, 1],
    column_indices := [0], values := [1] }

/-- The `2 × 2` zero matrix stored with two explicit zeros. -/
def ex_zero_B : csr_matrix Int :=
  { num_rows := 2, num_cols := 2, num_entries := 2, row_offsets := [0, 1, 2],
    column_indices := [0, 1], values := [0, 0] }

/-- A `1 × 1` matrix whose `row_offsets` start at 1 instead of 0. -/
def ex_offsets_shifted : csr_matrix Int :=
  { num_rows := 1, num_cols := 1, num_entries := 2, row_offsets := [1, 2],
    column_indices := [0, 0], values := [5, 7] }

/-- A `2 × 1` matrix whose `row_offsets` decrease and do not end at the entry
count. -/
def ex_offsets_decreasing : csr_matrix Int :=
  { num_rows := 2, num_cols := 1, num_entries := 2, row_offsets := [0, 2, 1],
    column_indices := [0, 0], values := [5, 7] }

/-- The `2 × 2` matrix with the entries `(0, 0) = 2` and `(1, 1) = 3`. -/
def ex_diagonal : csr_matrix Int :=
  { num_rows := 2, num_cols := 2, num_entries := 2, row_offsets := [0, 1, 2],
    column_indices := [0, 1], values := [2, 3] }

/-- A `2 × 1` matrix whose row 0 is empty and whose row 1 holds `(1, 0) = 1`. -/
def ex_empty_row : csr_matrix Int :=
  { num_rows := 2, num_cols := 1, num_entries := 1, row_offsets := [0, 0, 1],
    column_indices := [0], values := [1] }

/-- A `3 × 3` matrix with entries `(0,1) = 4`, `(0,0) = 5`, `(2,2) = 6`; row 1
is empty. -/
def ex_diag3 : csr_matrix Int :=
  { num_rows := 3, num_cols := 3, num_entries := 3, row_offsets := [0, 2, 2, 3],
    column_indices := [1, 0, 2], values := [4, 5, 6] }

/-- The prior state of `C` used in the example over `double`: an empty
matrix. -/
def ex_empty_double : csr_matrix double :=
  { num_rows := 0, num_cols := 0, num_entries := 0, row_offsets := [0],
    column_indices := [], values := [] }

/-- The `1 × 1` matrix over `double` whose entry is positive infinity. -/
def ex_infinity : csr_matrix double :=
  { num_rows := 1, num_cols := 1, num_entries := 1, row_offsets := [0, 1],
    column_indices := [0], values := [.infinity false] }

/-- The `1 × 1` zero matrix over `double`, stored with one explicit zero. -/
def ex_zero_double : csr_matrix double :=
  { num_rows := 1, num_cols := 1, num_entries := 1, row_offsets := [0, 1],
    column_indices := [0], values := [0] }

/-! # Proofs -/

set_option linter.unusedSectionVars false

/-! ## Loops -/

theorem forLoop_inv {σ : Type} (body : Nat → σ → Option σ) (Inv : Nat → σ → Prop) :
    ∀ (n a : Nat) (s : σ), Inv a s →
      (∀ k s, a ≤ k → k < a + n → Inv k s → ∃ s', body k s = some s' ∧ Inv (k + 1) s') →
      ∃ s', forLoop body n a s = some s' ∧ Inv (a + n) s' := by
  intro n
  induction n with
  | zero => intro a s h0 _; exact ⟨s, rfl, by simpa using h0⟩
  | succ n ih =>
    intro a s h0 hstep
    obtain ⟨s1, hb, h1⟩ := hstep a s (Nat.le_refl a) (by omega) h0
    obtain ⟨s2, hl, h2⟩ := ih (a + 1) s1 h1 (fun k s hk hk2 hI => hstep k s (by omega) (by omega) hI)
    refine ⟨s2, ?_, ?_⟩
    · simp only [forLoop, hb, hl]
    · have : a + (n + 1) = a + 1 + n := by omega
      rw [this]; exact h2

theorem forLoop_foldl {σ α : Type} (body : Nat → σ → Option σ) (f : σ → α → σ)
    (g : Nat → α) (P : σ → Prop) :
    ∀ (n a : Nat) (s : σ), P s →
      (∀ k s, a ≤ k → k < a + n → P s → body k s = some (f s (g k)) ∧ P (f s (g k))) →
      forLoop body n a s = some (((List.range' a n).map g).foldl f s) ∧
        P (((List.range' a n).map g).foldl f s) := by
  intro n
  induction n with
  | zero => intro a s h0 _; exact ⟨rfl, h0⟩
  | succ n ih =>
    intro a s h0 hstep
    obtain ⟨hb, h1⟩ := hstep a s (Nat.le_refl a) (by omega) h0
    obtain ⟨hl, h2⟩ := ih (a + 1) (f s (g a)) h1
      (fun k s hk hk2 hI => hstep k s (by omega) (by omega) hI)
    refine ⟨?_, ?_⟩
    · simp only [forLoop, hb, hl, List.range'_succ, List.map_cons, List.foldl_cons]
    · simpa only [List.range'_succ, List.map_cons, List.foldl_cons] using h2

section
variable {R : Type} [Ring R] [DecidableEq R]

/-! ## Well-formed matrices -/

theorem getElem?_of_getD {α : Type} (xs : List α) (i : Nat) (d : α) (h : i < xs.length) :
    xs[i]? = some (xs.getD i d) := by
  simp [List.getD_eq_getElem?_getD, List.getElem?_eq_getElem h]

theorem WellFormed.offset_get {M : csr_matrix R} (h : WellFormed M) {i : Nat}
    (hi : i ≤ M.num_rows) : M.row_offsets[i]? = some (M.offset i) := by
  apply getElem?_of_getD
  rw [h.offsets_length]; omega

theorem WellFormed.offset_zero {M : csr_matrix R} (h : WellFormed M) : M.offset 0 = 0 := by
  have := h.offset_get (Nat.zero_le _)
  rw [h.offsets_first] at this
  exact (Option.some.inj this).symm

theorem WellFormed.offset_last {M : csr_matrix R} (h : WellFormed M) :
    M.offset M.num_rows = M.num_entries := by
  have := h.offset_get (Nat.le_refl _)
  rw [h.offsets_last] at this
  exact (Option.some.inj this).symm

theorem WellFormed.offset_mono {M : csr_matrix R} (h : WellFormed M) {i j : Nat}
    (hij : i ≤ j) (hj : j ≤ M.num_rows) : M.offset i ≤ M.offset j := by
  rcases Nat.eq_or_lt_of_le hij with rfl | hlt
  · exact Nat.le_refl _
  · have hl := h.offsets_length
    have hi' : i < M.row_offsets.length := by omega
    have hj' : j < M.row_offsets.length := by omega
    have := (List.pairwise_iff_getElem.mp h.offsets_sorted) i j hi' hj' hlt
    simpa [csr_matrix.offset, List.getD_eq_getElem?_getD, List.getElem?_eq_getElem hi',
      List.getElem?_eq_getElem hj'] using this

theorem WellFormed.offset_le_entries {M : csr_matrix R} (h : WellFormed M) {i : Nat}
    (hi : i ≤ M.num_rows) : M.offset i ≤ M.num_entries := by
  rw [← h.offset_last]; exact h.offset_mono hi (Nat.le_refl _)

theorem WellFormed.column_get {M : csr_matrix R} (h : WellFormed M) {p : Nat}
    (hp : p < M.num_entries) : M.column_indices[p]? = some (M.entry p).1 := by
  apply getElem?_of_getD
  rw [h.columns_length]; exact hp

theorem WellFormed.value_get {M : csr_matrix R} (h : WellFormed M) {p : Nat}
    (hp : p < M.num_entries) : M.values[p]? = some (M.entry p).2 := by
  apply getElem?_of_getD
  rw [h.values_length]; exact hp

theorem WellFormed.column_mem {M : csr_matrix R} (h : WellFormed M) {p : Nat}
    (hp : p < M.num_entries) : (M.entry p).1 ∈ M.column_indices := by
  have hp' : p < M.column_indices.length := by rw [h.columns_length]; exact hp
  simp only [csr_matrix.entry, List.getD_eq_getElem?_getD, List.getElem?_eq_getElem hp',
    Option.getD_some]
  exact List.getElem_mem _

theorem WellFormed.column_lt {M : csr_matrix R} (h : WellFormed M) {p : Nat}
    (hp : p < M.num_entries) : (M.entry p).1 < M.num_cols :=
  h.columns_lt _ (h.column_mem hp)

theorem WellFormed.row_column_mem {M : csr_matrix R} (h : WellFormed M) {i : Nat}
    (hi : i < M.num_rows) : ∀ e ∈ M.row i, e.1 ∈ M.column_indices := by
  intro e he
  simp only [csr_matrix.row, List.mem_map, List.mem_range'_1] at he
  obtain ⟨p, ⟨hp1, hp2⟩, rfl⟩ := he
  have := h.offset_le_entries (i := i + 1) (by omega)
  exact h.column_mem (by omega)

theorem WellFormed.compatible {A B : csr_matrix R} (hA : WellFormed A)
    (hdim : A.num_cols = B.num_rows) : ∀ c ∈ A.column_indices, c < B.num_rows :=
  fun c hc => hdim ▸ hA.columns_lt c hc

theorem WellFormed.row_column_lt {M : csr_matrix R} (h : WellFormed M) {i : Nat}
    (hi : i < M.num_rows) : ∀ e ∈ M.row i, e.1 < M.num_cols := by
  intro e he
  simp only [csr_matrix.row, List.mem_map, List.mem_range'_1] at he
  obtain ⟨p, ⟨hp1, hp2⟩, rfl⟩ := he
  have := h.offset_le_entries (i := i + 1) (by omega)
  exact h.column_lt (by omega)

/-! ## Readable matrices -/

theorem Readable.read_offset {M : csr_matrix R} {k : Nat} (h : Readable M k) {i : Nat}
    (hi : i ≤ M.num_rows) : M.row_offsets[i]? = some (M.offset i) := by
  apply getElem?_of_getD
  have := h.offsets_length
  omega

theorem Readable.read_column {M : csr_matrix R} {k : Nat} (h : Readable M k) {i p : Nat}
    (hi : i < M.num_rows) (hp1 : M.offset i ≤ p) (hp2 : p < M.offset (i + 1)) :
    M.column_indices[p]? = some (M.entry p).1 :=
  getElem?_of_getD _ _ _ (h.positions i hi p hp2 hp1).1

theorem Readable.read_value {M : csr_matrix R} {k : Nat} (h : Readable M k) {i p : Nat}
    (hi : i < M.num_rows) (hp1 : M.offset i ≤ p) (hp2 : p < M.offset (i + 1)) :
    M.values[p]? = some (M.entry p).2 :=
  getElem?_of_getD _ _ _ (h.positions i hi p hp2 hp1).2.1

theorem Readable.read_column_lt {M : csr_matrix R} {k : Nat} (h : Readable M k) {i p : Nat}
    (hi : i < M.num_rows) (hp1 : M.offset i ≤ p) (hp2 : p < M.offset (i + 1)) :
    (M.entry p).1 < k :=
  (h.positions i hi p hp2 hp1).2.2

theorem Readable.row_read_column_lt {M : csr_matrix R} {k : Nat} (h : Readable M k) {i : Nat}
    (hi : i < M.num_rows) : ∀ e ∈ M.row i, e.1 < k := by
  intro e he
  simp only [csr_matrix.row, List.mem_map, List.mem_range'_1] at he
  obtain ⟨p, ⟨hp1, hp2⟩, rfl⟩ := he
  exact h.read_column_lt hi hp1 (by omega)

theorem WellFormed.readable_of_compatible {M : csr_matrix R} (h : WellFormed M) {k : Nat}
    (hk : ∀ c ∈ M.column_indices, c < k) : Readable M k := by
  refine ⟨by rw [h.offsets_length], ?_⟩
  intro i hi p hp2 _
  have hle := h.offset_le_entries (show i + 1 ≤ M.num_rows from hi)
  have hp : p < M.num_entries := by omega
  exact ⟨by rw [h.columns_length]; exact hp, by rw [h.values_length]; exact hp,
    hk _ (h.column_mem hp)⟩

theorem WellFormed.readable {M : csr_matrix R} (h : WellFormed M) : Readable M M.num_cols :=
  h.readable_of_compatible h.columns_lt

end

section
variable {R : Type} [Ring R] [DecidableEq R]

/-! ## The accumulation loops as folds -/

theorem foldl_flatMap {α β σ : Type} (f : σ → β → σ) (g : α → List β) (xs : List α) (s : σ) :
    (xs.flatMap g).foldl f s = xs.foldl (fun s a => (g a).foldl f s) s := by
  induction xs generalizing s with
  | nil => rfl
  | cons x xs ih => simp [List.flatMap_cons, List.foldl_append, ih]

theorem touch_step_sized {n : Nat} {w : Workspace R} (h : Sized n w) (t : Nat × R) :
    Sized n (touch_step w t) := by
  unfold touch_step
  split <;> simp [Sized, h.1, h.2]

theorem pass2_kk_body_eq {M : csr_matrix R} {n : Nat} (h : Readable M n) (v : R)
    {j p : Nat} (hj : j < M.num_rows) (hp1 : M.offset j ≤ p) (hp2 : p < M.offset (j + 1))
    {w : Workspace R} (hw : Sized n w) :
    pass2_kk_body M.column_indices M.values v p w
      = some (touch_step w ((M.entry p).1, v * (M.entry p).2)) := by
  have hk := h.read_column_lt hj hp1 hp2
  have h1 : w.sums[(M.entry p).1]? = some (w.sums.getD (M.entry p).1 0) :=
    getElem?_of_getD _ _ _ (by rw [hw.2]; exact hk)
  have h2 : w.next[(M.entry p).1]? = some (w.next.getD (M.entry p).1 0) :=
    getElem?_of_getD _ _ _ (by rw [hw.1]; exact hk)
  simp only [pass2_kk_body, h.read_column hj hp1 hp2, h.read_value hj hp1 hp2, h1, h2,
    touch_step]
  split <;> rfl

theorem pass2_kk_loop {B : csr_matrix R} (hB : Readable B B.num_cols) (v : R) {j : Nat}
    (hj : j < B.num_rows) {w : Workspace R} (hw : Sized B.num_cols w) :
    forLoop (pass2_kk_body B.column_indices B.values v)
        (B.offset (j + 1) - B.offset j) (B.offset j) w
      = some (((B.row j).map (fun f => (f.1, v * f.2))).foldl touch_step w) ∧
      Sized B.num_cols (((B.row j).map (fun f => (f.1, v * f.2))).foldl touch_step w) := by
  have := forLoop_foldl (pass2_kk_body B.column_indices B.values v) touch_step
    (fun p => ((B.entry p).1, v * (B.entry p).2)) (Sized B.num_cols)
    (B.offset (j + 1) - B.offset j) (B.offset j) w hw
    (fun k s hk1 hk2 hs =>
      ⟨pass2_kk_body_eq hB v hj hk1 (by omega) hs, touch_step_sized hs _⟩)
  simpa only [csr_matrix.row, List.map_map, Function.comp_def] using this

theorem pass2_jj_loop {A B : csr_matrix R} (hA : Readable A B.num_rows)
    (hB : Readable B B.num_cols) {i : Nat} (hi : i < A.num_rows)
    {w : Workspace R} (hw : Sized B.num_cols w) :
    forLoop (pass2_jj_body A.column_indices A.values B.row_offsets B.column_indices B.values)
        (A.offset (i + 1) - A.offset i) (A.offset i) w
      = some ((touches A B i).foldl touch_step w) ∧
      Sized B.num_cols ((touches A B i).foldl touch_step w) := by
  have := forLoop_foldl
    (pass2_jj_body A.column_indices A.values B.row_offsets B.column_indices B.values)
    (fun s e => ((B.row e.1).map (fun f => (f.1, e.2 * f.2))).foldl touch_step s)
    A.entry (Sized B.num_cols)
    (A.offset (i + 1) - A.offset i) (A.offset i) w hw
    (fun k s hk1 hk2 hs => by
      have hk3 : k < A.offset (i + 1) := by omega
      have hj : (A.entry k).1 < B.num_rows := hA.read_column_lt hi hk1 hk3
      have hl := pass2_kk_loop hB (A.entry k).2 hj hs
      refine ⟨?_, hl.2⟩
      simp only [pass2_jj_body, hA.read_column hi hk1 hk3, hA.read_value hi hk1 hk3,
        hB.read_offset (Nat.le_of_lt hj), hB.read_offset (Nat.succ_le_of_lt hj)]
      exact hl.1)
  simpa only [touches, foldl_flatMap, csr_matrix.row] using this

/-! ### Pass 1 -/

theorem mask_step_length (i : Nat) (st : List Int × Nat) (k : Nat) :
    (mask_step i st k).1.length = st.1.length := by
  unfold mask_step
  split <;> simp

theorem pass1_kk_body_eq {M : csr_matrix R} {n : Nat} (h : Readable M n) (i : Nat)
    {j p : Nat} (hj : j < M.num_rows) (hp1 : M.offset j ≤ p) (hp2 : p < M.offset (j + 1))
    {st : List Int × Nat} (hst : st.1.length = n) :
    pass1_kk_body M.column_indices i p st = some (mask_step i st (M.entry p).1) := by
  have hk := h.read_column_lt hj hp1 hp2
  have h1 : st.1[(M.entry p).1]? = some (st.1.getD (M.entry p).1 0) :=
    getElem?_of_getD _ _ _ (by rw [hst]; exact hk)
  simp only [pass1_kk_body, h.read_column hj hp1 hp2, h1, mask_step]
  split <;> rfl

theorem pass1_kk_loop {B : csr_matrix R} (hB : Readable B B.num_cols) (i : Nat) {j : Nat}
    (hj : j < B.num_rows) {st : List Int × Nat} (hst : st.1.length = B.num_cols) :
    forLoop (pass1_kk_body B.column_indices i)
        (B.offset (j + 1) - B.offset j) (B.offset j) st
      = some (((B.row j).map Prod.fst).foldl (mask_step i) st) ∧
      (((B.row j).map Prod.fst).foldl (mask_step i) st).1.length = B.num_cols := by
  have := forLoop_foldl (pass1_kk_body B.column_indices i) (mask_step i)
    (fun p => (B.entry p).1) (fun st => st.1.length = B.num_cols)
    (B.offset (j + 1) - B.offset j) (B.offset j) st hst
    (fun k s hk1 hk2 hs =>
      ⟨pass1_kk_body_eq hB i hj hk1 (by omega) hs, (mask_step_length i s _).trans hs⟩)
  simpa only [csr_matrix.row, List.map_map, Function.comp_def] using this

theorem touches_fst (A B : csr_matrix R) (i : Nat) :
    (touches A B i).map Prod.fst
      = (A.row i).flatMap (fun e => (B.row e.1).map Prod.fst) := by
  simp only [touches, List.map_flatMap, List.map_map, Function.comp_def]

theorem pass1_jj_loop {A B : csr_matrix R} (hA : Readable A B.num_rows)
    (hB : Readable B B.num_cols) {i : Nat} (hi : i < A.num_rows)
    {st : List Int × Nat} (hst : st.1.length = B.num_cols) :
    forLoop (pass1_jj_body A.column_indices B.row_offsets B.column_indices i)
        (A.offset (i + 1) - A.offset i) (A.offset i) st
      = some (((touches A B i).map Prod.fst).foldl (mask_step i) st) ∧
      (((touches A B i).map Prod.fst).foldl (mask_step i) st).1.length = B.num_cols := by
  have := forLoop_foldl
    (pass1_jj_body A.column_indices B.row_offsets B.column_indices i)
    (fun s e => ((B.row e.1).map Prod.fst).foldl (mask_step i) s)
    A.entry (fun st => st.1.length = B.num_cols)
    (A.offset (i + 1) - A.offset i) (A.offset i) st hst
    (fun k s hk1 hk2 hs => by
      have hk3 : k < A.offset (i + 1) := by omega
      have hj : (A.entry k).1 < B.num_rows := hA.read_column_lt hi hk1 hk3
      have hl := pass1_kk_loop hB i hj hs
      refine ⟨?_, hl.2⟩
      simp only [pass1_jj_body, hA.read_column hi hk1 hk3,
        hB.read_offset (Nat.le_of_lt hj), hB.read_offset (Nat.succ_le_of_lt hj)]
      exact hl.1)
  simpa only [touches_fst, foldl_flatMap, csr_matrix.row] using this

end

section
variable {R : Type} [Ring R] [DecidableEq R]

/-! ## The list of touched columns -/

theorem chain_append_singleton (cols : List Nat) (k : Nat) :
    chain (cols ++ [k]) = chain_step (chain cols) k := by
  simp [chain, List.foldl_append]

theorem mem_chain_step {ch : List Nat} {k c : Nat} :
    c ∈ chain_step ch k ↔ c = k ∨ c ∈ ch := by
  unfold chain_step
  split
  · constructor
    · exact Or.inr
    · rintro (rfl | h)
      · assumption
      · exact h
  · simp

theorem mem_chain {cols : List Nat} {c : Nat} : c ∈ chain cols ↔ c ∈ cols := by
  induction cols using List.reverseRecOn with
  | nil => simp [chain]
  | append_singleton xs x ih =>
    rw [chain_append_singleton, mem_chain_step, ih]
    simp [or_comm]

theorem chain_nodup (cols : List Nat) : (chain cols).Nodup := by
  induction cols using List.reverseRecOn with
  | nil => simp [chain]
  | append_singleton xs x ih =>
    rw [chain_append_singleton]
    unfold chain_step
    split
    · exact ih
    · exact List.nodup_cons.mpr ⟨by assumption, ih⟩

theorem head_of_ne_unseen (ch : List Nat) : head_of ch ≠ unseen := by
  cases ch with
  | nil => decide
  | cons c rest =>
    simp only [head_of, unseen]
    omega

theorem Linked.next_ne_unseen {next : List Int} {ch : List Nat} (h : Linked next ch)
    {c : Nat} (hc : c ∈ ch) : ∃ v, next[c]? = some v ∧ v ≠ unseen := by
  induction ch with
  | nil => simp at hc
  | cons a rest ih =>
    rcases List.mem_cons.mp hc with rfl | hmem
    · exact ⟨_, h.1, head_of_ne_unseen rest⟩
    · exact ih h.2 hmem

theorem Linked.set_of_not_mem {next : List Int} {ch : List Nat} (h : Linked next ch)
    {k : Nat} (hk : k ∉ ch) (v : Int) : Linked (next.set k v) ch := by
  induction ch with
  | nil => trivial
  | cons a rest ih =>
    have hne : k ≠ a := fun e => hk (e ▸ List.mem_cons_self _ _)
    refine ⟨?_, ih h.2 (fun hm => hk (List.mem_cons_of_mem _ hm))⟩
    rw [List.getElem?_set_ne hne]
    exact h.1

end

section
variable {R : Type} [Ring R] [DecidableEq R]

/-! ## The workspace after the accumulation loops -/

theorem col_sum_nil (k : Nat) : col_sum ([] : List (Nat × R)) k = 0 := by
  simp [col_sum]

theorem col_sum_append_singleton (ts : List (Nat × R)) (t : Nat × R) (k : Nat) :
    col_sum (ts ++ [t]) k = if t.1 = k then col_sum ts k + t.2 else col_sum ts k := by
  unfold col_sum
  by_cases h : t.1 = k
  · simp [List.filter_append, List.filter_cons, h]
  · simp [List.filter_append, List.filter_cons, h]

theorem col_sum_of_not_mem {ts : List (Nat × R)} {k : Nat} (h : k ∉ ts.map Prod.fst) :
    col_sum ts k = 0 := by
  unfold col_sum
  have : ts.filter (fun t => decide (t.1 = k)) = [] := by
    rw [List.filter_eq_nil_iff]
    intro t ht
    simp only [decide_eq_true_eq]
    intro e
    exact h (List.mem_map.mpr ⟨t, ht, e⟩)
  simp [this]

theorem rowInv_clean (n : Nat) :
    RowInv n ([] : List (Nat × R))
      { next := List.replicate n unseen, sums := List.replicate n 0, head := init,
        length := 0 } := by
  refine ⟨⟨by simp, by simp⟩, rfl, rfl, trivial, ?_, ?_⟩
  · intro k hk _
    simp [List.getElem?_replicate, hk]
  · intro k hk
    simp [List.getElem?_replicate, hk, col_sum_nil]

theorem rowInv_step {n : Nat} {ts : List (Nat × R)} {w : Workspace R}
    (h : RowInv n ts w) (t : Nat × R) (ht : t.1 < n) :
    RowInv n (ts ++ [t]) (touch_step w t) := by
  have hnl : t.1 < w.next.length := by rw [h.sized.1]; exact ht
  have hsl : t.1 < w.sums.length := by rw [h.sized.2]; exact ht
  have hsum : w.sums.getD t.1 0 = col_sum ts t.1 := by
    have := h.sums_eq t.1 ht
    simp [List.getD_eq_getElem?_getD, this]
  have hcols : (ts ++ [t]).map Prod.fst = ts.map Prod.fst ++ [t.1] := by simp
  have hsums : ∀ k, k < n →
      (w.sums.set t.1 (w.sums.getD t.1 0 + t.2))[k]? = some (col_sum (ts ++ [t]) k) := by
    intro k hk
    rw [col_sum_append_singleton]
    by_cases e : t.1 = k
    · subst e
      rw [List.getElem?_set_self hsl, if_pos rfl, hsum]
    · rw [List.getElem?_set_ne e, if_neg e]
      exact h.sums_eq k hk
  by_cases hmem : t.1 ∈ chain (ts.map Prod.fst)
  · -- the column is already linked
    obtain ⟨v, hv, hvne⟩ := h.linked.next_ne_unseen hmem
    have hnext : w.next.getD t.1 0 ≠ unseen := by
      simpa [List.getD_eq_getElem?_getD, hv] using hvne
    have hch : chain ((ts ++ [t]).map Prod.fst) = chain (ts.map Prod.fst) := by
      rw [hcols, chain_append_singleton, chain_step, if_pos hmem]
    have hw : touch_step w t = Workspace.mk w.next
        (w.sums.set t.1 (w.sums.getD t.1 0 + t.2)) w.head w.length := by
      unfold touch_step
      rw [if_neg hnext]
    rw [hw]
    refine ⟨⟨h.sized.1, by simp [h.sized.2]⟩, ?_, ?_, ?_, ?_, hsums⟩
    · rw [hch]; exact h.head_eq
    · rw [hch]; exact h.length_eq
    · rw [hch]; exact h.linked
    · rw [hch]; exact h.untouched
  · -- first touch of the column
    have hnext : w.next.getD t.1 0 = unseen := by
      have := h.untouched t.1 ht hmem
      simp [List.getD_eq_getElem?_getD, this]
    have hch : chain ((ts ++ [t]).map Prod.fst) = t.1 :: chain (ts.map Prod.fst) := by
      rw [hcols, chain_append_singleton, chain_step, if_neg hmem]
    have hw : touch_step w t = Workspace.mk (w.next.set t.1 w.head)
        (w.sums.set t.1 (w.sums.getD t.1 0 + t.2)) (t.1 : Int) (w.length + 1) := by
      unfold touch_step
      rw [if_pos hnext]
    rw [hw]
    refine ⟨⟨by simp [h.sized.1], by simp [h.sized.2]⟩, ?_, ?_, ?_, ?_, hsums⟩
    · rw [hch]; rfl
    · rw [hch]; simp [h.length_eq]
    · rw [hch]
      refine ⟨?_, h.linked.set_of_not_mem hmem _⟩
      simp only [List.getElem?_set_self hnl]
      rw [h.head_eq]
    · rw [hch]
      intro k hk hkn
      have hne : t.1 ≠ k := fun e => hkn (e ▸ List.mem_cons_self _ _)
      simp only [List.getElem?_set_ne hne]
      exact h.untouched k hk (fun hm => hkn (List.mem_cons_of_mem _ hm))

theorem rowInv_foldl (n : Nat) (ts : List (Nat × R)) (hts : ∀ t ∈ ts, t.1 < n) :
    RowInv n ts (ts.foldl touch_step
      { next := List.replicate n unseen, sums := List.replicate n 0, head := init,
        length := 0 }) := by
  induction ts using List.reverseRecOn with
  | nil => exact rowInv_clean n
  | append_singleton xs x ih =>
    rw [List.foldl_append]
    exact rowInv_step (ih (fun t ht => hts t (List.mem_append_left _ ht))) x
      (hts x (by simp))

theorem RowInv.walkInv {n : Nat} {ts : List (Nat × R)} {w : Workspace R}
    (h : RowInv n ts w) (hts : ∀ t ∈ ts, t.1 < n) :
    WalkInv n (col_sum ts) (chain (ts.map Prod.fst)) w := by
  refine ⟨h.sized, h.head_eq, h.linked, chain_nodup _, ?_, h.untouched, ?_, ?_⟩
  · intro c hc
    obtain ⟨t, ht, rfl⟩ := List.mem_map.mp (mem_chain.mp hc)
    exact hts t ht
  · intro k hk hkn
    rw [h.sums_eq k hk, col_sum_of_not_mem (fun hm => hkn (mem_chain.mpr hm))]
  · intro c hc
    obtain ⟨t, ht, rfl⟩ := List.mem_map.mp (mem_chain.mp hc)
    exact h.sums_eq _ (hts t ht)

end

section
variable {R : Type} [Ring R] [DecidableEq R]

/-! ## The ordered section -/

theorem splice_nil {α : Type} (xs : List α) (i : Nat) : splice xs i [] = xs := by
  simp [splice]

theorem take_set_self {α : Type} (xs : List α) (i : Nat) (v : α) :
    (xs.set i v).take i = xs.take i := by
  rw [List.set_take]
  apply List.set_eq_of_length_le
  simp

theorem splice_set {α : Type} {xs : List α} {i : Nat} (hi : i < xs.length) (v : α)
    (ys : List α) : splice (xs.set i v) (i + 1) ys = splice xs i (v :: ys) := by
  unfold splice
  have h1 : (xs.set i v).take (i + 1) = xs.take i ++ [v] := by
    rw [List.take_succ, take_set_self, List.getElem?_set_self hi]
    rfl
  have h2 : (xs.set i v).drop (i + 1 + ys.length) = xs.drop (i + (v :: ys).length) := by
    rw [List.drop_set_of_lt _ _ (by omega)]
    congr 1
    simp only [List.length_cons]; omega
  rw [h1, h2]
  simp

theorem length_splice {α : Type} {xs : List α} {i : Nat} {ys : List α}
    (h : i + ys.length ≤ xs.length) : (splice xs i ys).length = xs.length := by
  simp only [splice, List.length_append, List.length_take, List.length_drop]
  omega

theorem emitted_cons (f : Nat → R) (c : Nat) (rest : List Nat) :
    emitted f (c :: rest)
      = if f c ≠ 0 then (c, f c) :: emitted f rest else emitted f rest := by
  unfold emitted
  by_cases h : f c = 0
  · simp [List.filterMap_cons, h]
  · simp [List.filterMap_cons, h]

theorem emitted_length_le (f : Nat → R) (ch : List Nat) :
    (emitted f ch).length ≤ ch.length := by
  unfold emitted
  exact List.length_filterMap_le _ _

theorem eq_replicate_of_get {α : Type} {xs : List α} {n : Nat} {v : α}
    (hl : xs.length = n) (h : ∀ k, k < n → xs[k]? = some v) : xs = List.replicate n v := by
  apply List.ext_getElem?
  intro k
  by_cases hk : k < n
  · rw [h k hk]; simp [List.getElem?_replicate, hk]
  · rw [List.getElem?_eq_none (by omega), List.getElem?_eq_none (by simp; omega)]

theorem WalkInv.done {n : Nat} {f : Nat → R} {w : Workspace R} (h : WalkInv n f [] w) :
    w = Workspace.mk (List.replicate n unseen) (List.replicate n 0) init w.length := by
  have h1 := eq_replicate_of_get h.sized.1 (fun k hk => h.next_out k hk (by simp))
  have h2 := eq_replicate_of_get h.sized.2 (fun k hk => h.sums_out k hk (by simp))
  have h3 : w.head = init := h.head_eq
  cases w
  simp_all

theorem WalkInv.step {n : Nat} {f : Nat → R} {c : Nat} {rest : List Nat}
    {w : Workspace R} (h : WalkInv n f (c :: rest) w) :
    WalkInv n f rest
      (Workspace.mk (w.next.set c unseen) (w.sums.set c 0) (head_of rest) w.length) := by
  have hc : c < n := h.lt c (List.mem_cons_self _ _)
  have hnd := List.nodup_cons.mp h.nodup
  have hne : ∀ k, k ∈ rest → c ≠ k := fun k hk e => hnd.1 (e ▸ hk)
  refine ⟨⟨by simp [h.sized.1], by simp [h.sized.2]⟩, rfl,
    h.linked.2.set_of_not_mem hnd.1 _, hnd.2,
    fun k hk => h.lt k (List.mem_cons_of_mem _ hk), ?_, ?_, ?_⟩
  · intro k hk hkn
    by_cases e : c = k
    · subst e
      simp only [List.getElem?_set_self (show c < w.next.length by rw [h.sized.1]; exact hc)]
    · simp only [List.getElem?_set_ne e]
      exact h.next_out k hk (by simp [hkn, Ne.symm e])
  · intro k hk hkn
    by_cases e : c = k
    · subst e
      simp only [List.getElem?_set_self (show c < w.sums.length by rw [h.sized.2]; exact hc)]
    · simp only [List.getElem?_set_ne e]
      exact h.sums_out k hk (by simp [hkn, Ne.symm e])
  · intro k hk
    simp only [List.getElem?_set_ne (hne k hk)]
    exact h.sums_in k (List.mem_cons_of_mem _ hk)

theorem emit_body_eq {n : Nat} {f : Nat → R} {c : Nat} {rest : List Nat}
    {w : Workspace R} (h : WalkInv n f (c :: rest) w) (o : Output R) (a : Nat)
    (hci : o.num_nonzeros + (emitted f (c :: rest)).length ≤ o.C_column_indices.length)
    (hcv : o.num_nonzeros + (emitted f (c :: rest)).length ≤ o.C_values.length) :
    pass2_emit_body a (w, o)
      = some (Workspace.mk (w.next.set c unseen) (w.sums.set c 0) (head_of rest) w.length,
          if f c ≠ 0 then
            Output.mk o.C_row_offsets (o.C_column_indices.set o.num_nonzeros c)
              (o.C_values.set o.num_nonzeros (f c)) (o.num_nonzeros + 1)
          else o) := by
  have hhead : w.head = (c : Int) := h.head_eq
  have hnot : ¬ ((c : Int) < 0) := by omega
  have hs := h.sums_in c (List.mem_cons_self _ _)
  have hn : w.next[c]? = some (head_of rest) := h.linked.1
  rw [emitted_cons] at hci hcv
  by_cases hz : f c = 0
  · simp only [pass2_emit_body, hhead, hnot, if_false, Int.toNat_ofNat, hs, hn, hz,
      ne_eq, not_true_eq_false]
  · rw [if_pos hz] at hci hcv
    simp only [List.length_cons] at hci hcv
    have h1 : o.num_nonzeros < o.C_column_indices.length := by omega
    have h2 : o.num_nonzeros < o.C_values.length := by omega
    simp only [pass2_emit_body, hhead, hnot, if_false, Int.toNat_ofNat, hs, hn, hz,
      ne_eq, not_false_eq_true, if_true, store, h1, h2]

theorem walk_spec {n : Nat} {f : Nat → R} (ch : List Nat) :
    ∀ (a : Nat) (w : Workspace R) (o : Output R), WalkInv n f ch w →
      o.num_nonzeros + (emitted f ch).length ≤ o.C_column_indices.length →
      o.num_nonzeros + (emitted f ch).length ≤ o.C_values.length →
      forLoop pass2_emit_body ch.length a (w, o)
        = some (Workspace.mk (List.replicate n unseen) (List.replicate n 0) init w.length,
            Output.mk o.C_row_offsets
              (splice o.C_column_indices o.num_nonzeros ((emitted f ch).map Prod.fst))
              (splice o.C_values o.num_nonzeros ((emitted f ch).map Prod.snd))
              (o.num_nonzeros + (emitted f ch).length)) := by
  induction ch with
  | nil =>
    intro a w o h _ _
    have hw := h.done
    simp only [List.length_nil, forLoop, emitted, List.filterMap_nil, List.map_nil,
      splice_nil, Nat.add_zero]
    rw [← hw]
  | cons c rest ih =>
    intro a w o h hci hcv
    have hb := emit_body_eq h o a hci hcv
    simp only [List.length_cons, forLoop, hb]
    rw [emitted_cons] at hci hcv ⊢
    by_cases hz : f c = 0
    · simp only [hz, ne_eq, not_true_eq_false, if_false] at hci hcv ⊢
      exact ih (a + 1) _ o h.step hci hcv
    · simp only [hz, ne_eq, not_false_eq_true, if_true, List.length_cons] at hci hcv ⊢
      have h1 : o.num_nonzeros < o.C_column_indices.length := by omega
      have h2 : o.num_nonzeros < o.C_values.length := by omega
      rw [ih (a + 1) _ _ h.step (by simp; omega) (by simp; omega)]
      simp only [List.map_cons, splice_set h1, splice_set h2]
      congr 3
      omega

end

section
variable {R : Type} [Ring R] [DecidableEq R]

/-! ## The row loop of pass 2 -/

theorem splice_splice {α : Type} (xs ys zs : List α) :
    splice (splice xs 0 ys) ys.length zs = splice xs 0 (ys ++ zs) := by
  simp only [splice, List.take_zero, List.nil_append, Nat.zero_add, List.length_append,
    List.take_left, List.drop_append, List.drop_drop, List.append_assoc]

theorem set_splice {α : Type} (xs ys : List α) (h : ys.length < xs.length) (v : α) :
    (splice xs 0 ys).set ys.length v = splice xs 0 (ys ++ [v]) := by
  have h0 : ys.length < (splice xs 0 ys).length := by
    rw [length_splice (by omega)]; exact h
  have := splice_set h0 v ([] : List α)
  rw [splice_nil] at this
  rw [this]
  have h2 := splice_splice xs ys [v]
  rw [← h2]

theorem out_upto_succ (A B : csr_matrix R) (i : Nat) :
    out_upto A B (i + 1) = out_upto A B i ++ row_out A B i := by
  simp [out_upto, List.range_succ, List.flatMap_append]

theorem out_upto_zero (A B : csr_matrix R) : out_upto A B 0 = [] := rfl

theorem out_upto_length_mono (A B : csr_matrix R) {i j : Nat} (h : i ≤ j) :
    (out_upto A B i).length ≤ (out_upto A B j).length := by
  induction j with
  | zero => rw [Nat.le_zero.mp h]
  | succ j ih =>
    rcases Nat.eq_or_lt_of_le h with rfl | hlt
    · exact Nat.le_refl _
    · have := ih (by omega)
      rw [out_upto_succ, List.length_append]
      omega

theorem touches_column_lt {A B : csr_matrix R} (hA : Readable A B.num_rows)
    (hB : Readable B B.num_cols) {i : Nat} (hi : i < A.num_rows) :
    ∀ t ∈ touches A B i, t.1 < B.num_cols := by
  intro t ht
  simp only [touches, List.mem_flatMap, List.mem_map] at ht
  obtain ⟨e, he, f, hf, rfl⟩ := ht
  have hj : e.1 < B.num_rows := hA.row_read_column_lt hi e he
  exact hB.row_read_column_lt hj f hf

theorem pass2_row_eq {A B : csr_matrix R} (hA : Readable A B.num_rows)
    (hB : Readable B B.num_cols) {i : Nat} (hi : i < A.num_rows)
    (w : Workspace R) (o : Output R)
    (hnext : w.next = List.replicate B.num_cols unseen)
    (hsums : w.sums = List.replicate B.num_cols 0)
    (hro : i + 1 < o.C_row_offsets.length)
    (hci : o.num_nonzeros + (row_out A B i).length ≤ o.C_column_indices.length)
    (hcv : o.num_nonzeros + (row_out A B i).length ≤ o.C_values.length) :
    pass2_row A.row_offsets A.column_indices A.values B.row_offsets B.column_indices
        B.values i (w, o)
      = some (Workspace.mk (List.replicate B.num_cols unseen) (List.replicate B.num_cols 0)
            init (chain ((touches A B i).map Prod.fst)).length,
          Output.mk (o.C_row_offsets.set (i + 1) (o.num_nonzeros + (row_out A B i).length))
            (splice o.C_column_indices o.num_nonzeros ((row_out A B i).map Prod.fst))
            (splice o.C_values o.num_nonzeros ((row_out A B i).map Prod.snd))
            (o.num_nonzeros + (row_out A B i).length)) := by
  have hts := touches_column_lt hA hB hi
  have hinv := rowInv_foldl B.num_cols (touches A B i) hts
  have hloop := (pass2_jj_loop hA hB hi
    (w := Workspace.mk (List.replicate B.num_cols unseen) (List.replicate B.num_cols 0)
      init 0) ⟨by simp, by simp⟩).1
  have hwalk := walk_spec (chain ((touches A B i).map Prod.fst)) 0 _ o (hinv.walkInv hts)
    hci hcv
  rw [← hinv.length_eq] at hwalk
  simp only [pass2_row, hA.read_offset (Nat.le_of_lt hi), hA.read_offset (Nat.succ_le_of_lt hi),
    hnext, hsums, hloop, hwalk, store, hro, if_true]
  rw [hinv.length_eq]
  rfl

theorem pass2_rows_spec {A B : csr_matrix R} (hA : Readable A B.num_rows)
    (hB : Readable B B.num_cols) (C_row_offsets C_column_indices : List Nat)
    (C_values : List R) {i : Nat} (hi : i ≤ A.num_rows)
    (hro : i + 1 ≤ C_row_offsets.length)
    (hci : (out_upto A B i).length ≤ C_column_indices.length)
    (hcv : (out_upto A B i).length ≤ C_values.length) :
    ∃ w : Workspace R,
      forLoop (pass2_row A.row_offsets A.column_indices A.values B.row_offsets
          B.column_indices B.values) i 0
          (Workspace.mk (List.replicate B.num_cols unseen) (List.replicate B.num_cols 0)
            init 0,
           Output.mk (C_row_offsets.set 0 0) C_column_indices C_values 0)
        = some (w, Output.mk
          (splice C_row_offsets 0
            ((List.range (i + 1)).map (fun r => (out_upto A B r).length)))
          (splice C_column_indices 0 ((out_upto A B i).map Prod.fst))
          (splice C_values 0 ((out_upto A B i).map Prod.snd))
          (out_upto A B i).length) ∧
      w.next = List.replicate B.num_cols unseen ∧ w.sums = List.replicate B.num_cols 0 := by
  have h0 : 0 < C_row_offsets.length := by omega
  obtain ⟨st, hst, hinv⟩ := forLoop_inv
    (pass2_row A.row_offsets A.column_indices A.values B.row_offsets B.column_indices B.values)
    (fun r st =>
      st.1.next = List.replicate B.num_cols unseen ∧
      st.1.sums = List.replicate B.num_cols 0 ∧
      st.2 = Output.mk
        (splice C_row_offsets 0 ((List.range (r + 1)).map (fun r => (out_upto A B r).length)))
        (splice C_column_indices 0 ((out_upto A B r).map Prod.fst))
        (splice C_values 0 ((out_upto A B r).map Prod.snd))
        (out_upto A B r).length)
    i 0
    (Workspace.mk (List.replicate B.num_cols unseen) (List.replicate B.num_cols 0) init 0,
      Output.mk (C_row_offsets.set 0 0) C_column_indices C_values 0)
    (by
      refine ⟨rfl, rfl, ?_⟩
      have := set_splice C_row_offsets [] h0 0
      simp only [splice_nil, List.length_nil, List.nil_append] at this
      have hr : (List.range 1).map (fun r => (out_upto A B r).length) = [0] := by
        simp [List.range_succ, out_upto_zero]
      rw [hr, this]
      simp [out_upto_zero, splice_nil])
    (by
      intro r st _ hr hI
      obtain ⟨h1, h2, h3⟩ := hI
      have hr' : r < A.num_rows := by omega
      have hlen : (out_upto A B (r + 1)).length ≤ (out_upto A B i).length :=
        out_upto_length_mono A B (by omega)
      rw [out_upto_succ, List.length_append] at hlen
      have hlen0 : (out_upto A B r).length ≤ (out_upto A B i).length :=
        out_upto_length_mono A B (by omega)
      have e1 : st.2.num_nonzeros = (out_upto A B r).length := by rw [h3]
      have e2 : st.2.C_column_indices
          = splice C_column_indices 0 ((out_upto A B r).map Prod.fst) := by rw [h3]
      have e3 : st.2.C_values = splice C_values 0 ((out_upto A B r).map Prod.snd) := by
        rw [h3]
      have e4 : st.2.C_row_offsets = splice C_row_offsets 0
          ((List.range (r + 1)).map (fun r => (out_upto A B r).length)) := by rw [h3]
      have hrow := pass2_row_eq hA hB hr' st.1 st.2 h1 h2
        (by rw [e4, length_splice (by simp; omega)]; omega)
        (by rw [e1, e2, length_splice (by simp; omega)]; omega)
        (by rw [e1, e3, length_splice (by simp; omega)]; omega)
      refine ⟨_, hrow, rfl, rfl, ?_⟩
      simp only [e1, e2, e3, e4]
      have k1 := splice_splice C_column_indices ((out_upto A B r).map Prod.fst)
        ((row_out A B r).map Prod.fst)
      have k2 := splice_splice C_values ((out_upto A B r).map Prod.snd)
        ((row_out A B r).map Prod.snd)
      have k3 := set_splice C_row_offsets
        ((List.range (r + 1)).map (fun r => (out_upto A B r).length))
        (by simp; omega) ((out_upto A B r).length + (row_out A B r).length)
      simp only [List.length_map, List.length_range] at k1 k2 k3
      rw [k1, k2, k3]
      simp [out_upto_succ, List.range_succ])
  simp only [Nat.zero_add] at hinv
  refine ⟨st.1, ?_, hinv.1, hinv.2.1⟩
  rw [hst, ← hinv.2.2]

theorem pass2_spec {A B : csr_matrix R} (hA : Readable A B.num_rows)
    (hB : Readable B B.num_cols) (C_row_offsets C_column_indices : List Nat)
    (C_values : List R) (hro : A.num_rows + 1 ≤ C_row_offsets.length)
    (hci : (out_upto A B A.num_rows).length ≤ C_column_indices.length)
    (hcv : (out_upto A B A.num_rows).length ≤ C_values.length) :
    spmm_csr_pass2 A.num_rows B.num_cols A.row_offsets A.column_indices A.values
        B.row_offsets B.column_indices B.values C_row_offsets C_column_indices C_values
      = some (Output.mk
          (splice C_row_offsets 0
            ((List.range (A.num_rows + 1)).map (fun r => (out_upto A B r).length)))
          (splice C_column_indices 0 ((out_upto A B A.num_rows).map Prod.fst))
          (splice C_values 0 ((out_upto A B A.num_rows).map Prod.snd))
          (out_upto A B A.num_rows).length) := by
  have h0 : 0 < C_row_offsets.length := by omega
  obtain ⟨w, hw, _⟩ := pass2_rows_spec hA hB C_row_offsets C_column_indices C_values
    (Nat.le_refl _) hro hci hcv
  simp only [spmm_csr_pass2, store, h0, if_true, hw]

end

section
variable {R : Type} [Ring R] [DecidableEq R]

/-! ## Pass 1 -/

theorem mask_foldl (n i cnt : Nat) (mask : List Int) (hlen : mask.length = n)
    (hlt : ∀ k, k < n → ∃ v, mask[k]? = some v ∧ v < (i : Int)) (cols : List Nat)
    (hcols : ∀ c ∈ cols, c < n) :
    (cols.foldl (mask_step i) (mask, cnt)).1.length = n ∧
    (∀ k, k < n → ∃ v, (cols.foldl (mask_step i) (mask, cnt)).1[k]? = some v ∧
        v ≤ (i : Int) ∧ (v = (i : Int) ↔ k ∈ cols)) ∧
    (cols.foldl (mask_step i) (mask, cnt)).2 = cnt + (chain cols).length := by
  induction cols using List.reverseRecOn with
  | nil =>
    refine ⟨hlen, ?_, by simp [chain]⟩
    intro k hk
    obtain ⟨v, hv, hvi⟩ := hlt k hk
    refine ⟨v, hv, by omega, ?_⟩
    simp only [List.not_mem_nil, iff_false]
    omega
  | append_singleton xs x ih =>
    obtain ⟨h1, h2, h3⟩ := ih (fun c hc => hcols c (List.mem_append_left _ hc))
    have hx : x < n := hcols x (by simp)
    obtain ⟨vx, hvx, hvxle, hvxiff⟩ := h2 x hx
    rw [List.foldl_append, List.foldl_cons, List.foldl_nil, chain_append_singleton]
    generalize xs.foldl (mask_step i) (mask, cnt) = st at h1 h2 h3 hvx
    have hget : st.1.getD x 0 = vx := by
      simp [List.getD_eq_getElem?_getD, hvx]
    by_cases hmem : x ∈ xs
    · have hst : mask_step i st x = st := by
        unfold mask_step
        rw [hget, if_neg (by simpa using hvxiff.mpr hmem)]
      have hch : chain_step (chain xs) x = chain xs := by
        unfold chain_step
        rw [if_pos (mem_chain.mpr hmem)]
      rw [hst, hch]
      refine ⟨h1, ?_, h3⟩
      intro k hk
      obtain ⟨v, hv, hvle, hviff⟩ := h2 k hk
      refine ⟨v, hv, hvle, ?_⟩
      rw [hviff]
      simp only [List.mem_append, List.mem_singleton]
      constructor
      · exact Or.inl
      · rintro (h | rfl)
        · exact h
        · exact hmem
    · have hne : vx ≠ (i : Int) := fun e => hmem (hvxiff.mp e)
      have hst : mask_step i st x = (st.1.set x (i : Int), st.2 + 1) := by
        unfold mask_step
        rw [hget, if_pos hne]
      have hch : chain_step (chain xs) x = x :: chain xs := by
        unfold chain_step
        rw [if_neg (fun h => hmem (mem_chain.mp h))]
      rw [hst, hch]
      refine ⟨by simp [h1], ?_, by simp [h3]; omega⟩
      intro k hk
      by_cases e : x = k
      · subst e
        refine ⟨(i : Int), ?_, Int.le_refl _, by simp⟩
        simp only [List.getElem?_set_self (show x < st.1.length by rw [h1]; exact hx)]
      · obtain ⟨v, hv, hvle, hviff⟩ := h2 k hk
        refine ⟨v, ?_, hvle, ?_⟩
        · simp only [List.getElem?_set_ne e]
          exact hv
        · rw [hviff]
          simp only [List.mem_append, List.mem_singleton]
          constructor
          · exact Or.inl
          · rintro (h | rfl)
            · exact h
            · exact absurd rfl e

theorem links_upto_succ (A B : csr_matrix R) (i : Nat) :
    links_upto A B (i + 1)
      = links_upto A B i + (chain ((touches A B i).map Prod.fst)).length := by
  simp [links_upto, List.range_succ]

theorem pass1_spec {A B : csr_matrix R} (hA : Readable A B.num_rows)
    (hB : Readable B B.num_cols) :
    spmm_csr_pass1 A.num_rows B.num_cols A.row_offsets A.column_indices
        B.row_offsets B.column_indices
      = some (links_upto A B A.num_rows) := by
  obtain ⟨st, hst, hinv⟩ := forLoop_inv
    (pass1_row A.row_offsets A.column_indices B.row_offsets B.column_indices)
    (fun i st =>
      st.1.length = B.num_cols ∧
      (∀ k, k < B.num_cols → ∃ v, st.1[k]? = some v ∧ v < (i : Int)) ∧
      st.2 = links_upto A B i)
    A.num_rows 0 (List.replicate B.num_cols mask_init, 0)
    (by
      refine ⟨by simp, ?_, rfl⟩
      intro k hk
      refine ⟨mask_init, by simp [List.getElem?_replicate, hk], by decide⟩)
    (by
      intro i st _ hi hI
      obtain ⟨h1, h2, h3⟩ := hI
      have hi' : i < A.num_rows := by omega
      have hloop := (pass1_jj_loop hA hB hi' h1).1
      have hcols : ∀ c ∈ (touches A B i).map Prod.fst, c < B.num_cols := by
        intro c hc
        obtain ⟨t, ht, rfl⟩ := List.mem_map.mp hc
        exact touches_column_lt hA hB hi' t ht
      obtain ⟨g1, g2, g3⟩ := mask_foldl B.num_cols i st.2 st.1 h1 h2 _ hcols
      refine ⟨_, ?_, g1, ?_, ?_⟩
      · simp only [pass1_row, hA.read_offset (Nat.le_of_lt hi'),
          hA.read_offset (Nat.succ_le_of_lt hi')]
        exact hloop
      · intro k hk
        obtain ⟨v, hv, hvle, _⟩ := g2 k hk
        exact ⟨v, hv, by push_cast; omega⟩
      · rw [g3, h3, links_upto_succ])
  simp only [spmm_csr_pass1, hst]
  simp only [Nat.zero_add] at hinv
  rw [hinv.2.2]

end

section
variable {R : Type} [Ring R] [DecidableEq R]

/-! ## Result assembly -/

theorem length_resize_array {α : Type} (d : α) (xs : List α) (n : Nat) :
    (resize_array d xs n).length = n := by
  simp only [resize_array, List.length_append, List.length_take, List.length_replicate]
  omega

theorem resize_array_splice {α : Type} (d : α) (xs ys : List α)
    (h : ys.length ≤ xs.length) : resize_array d (splice xs 0 ys) ys.length = ys := by
  have hl : (splice xs 0 ys).length = xs.length := length_splice (by omega)
  unfold resize_array
  rw [hl, Nat.sub_eq_zero_of_le h]
  simp [splice]

theorem out_upto_length_le_links (A B : csr_matrix R) (i : Nat) :
    (out_upto A B i).length ≤ links_upto A B i := by
  induction i with
  | zero => simp [out_upto_zero]
  | succ i ih =>
    rw [out_upto_succ, links_upto_succ, List.length_append]
    have := emitted_length_le (col_sum (touches A B i)) (chain ((touches A B i).map Prod.fst))
    unfold row_out
    omega

theorem multiply_spec {A B : csr_matrix R} (hA : Readable A B.num_rows)
    (hB : Readable B B.num_cols) (C : csr_matrix R) :
    multiply A B C = some (product_csr A B) := by
  unfold product_csr
  have hle := out_upto_length_le_links A B A.num_rows
  have h2 := pass2_spec hA hB
    (C.resize A.num_rows B.num_cols (links_upto A B A.num_rows)).row_offsets
    (C.resize A.num_rows B.num_cols (links_upto A B A.num_rows)).column_indices
    (C.resize A.num_rows B.num_cols (links_upto A B A.num_rows)).values
    (by simp [csr_matrix.resize, length_resize_array])
    (by simp only [csr_matrix.resize, length_resize_array]; exact hle)
    (by simp only [csr_matrix.resize, length_resize_array]; exact hle)
  simp only [multiply, pass1_spec hA hB, h2]
  have e1 := resize_array_splice (0 : Nat)
    (C.resize A.num_rows B.num_cols (links_upto A B A.num_rows)).row_offsets
    ((List.range (A.num_rows + 1)).map (fun r => (out_upto A B r).length))
    (by simp [csr_matrix.resize, length_resize_array])
  have e2 := resize_array_splice (0 : Nat)
    (C.resize A.num_rows B.num_cols (links_upto A B A.num_rows)).column_indices
    ((out_upto A B A.num_rows).map Prod.fst)
    (by simp only [csr_matrix.resize, length_resize_array, List.length_map]; exact hle)
  have e3 := resize_array_splice (0 : R)
    (C.resize A.num_rows B.num_cols (links_upto A B A.num_rows)).values
    ((out_upto A B A.num_rows).map Prod.snd)
    (by simp only [csr_matrix.resize, length_resize_array, List.length_map]; exact hle)
  simp only [List.length_map, List.length_range] at e1 e2 e3
  simp only [csr_matrix.resize] at e1 e2 e3 ⊢
  rw [e1, e2, e3]

end

section
variable {R : Type} [Ring R] [DecidableEq R]

/-! ## A returning pass 2 had room for every entry -/

theorem forLoop_some_inv {σ : Type} (body : Nat → σ → Option σ) (Inv : Nat → σ → Prop) :
    ∀ (n a : Nat) (s s' : σ), Inv a s →
      (∀ k s s', a ≤ k → k < a + n → Inv k s → body k s = some s' → Inv (k + 1) s') →
      forLoop body n a s = some s' → Inv (a + n) s' := by
  intro n
  induction n with
  | zero =>
    intro a s s' h0 _ h
    simp only [forLoop, Option.some.injEq] at h
    subst h
    simpa using h0
  | succ n ih =>
    intro a s s' h0 hstep h
    simp only [forLoop] at h
    cases hb : body a s with
    | none => rw [hb] at h; simp at h
    | some s1 =>
      rw [hb] at h
      have h1 := hstep a s s1 (Nat.le_refl a) (by omega) h0 hb
      have := ih (a + 1) s1 s' h1
        (fun k s s' hk hk2 hI => hstep k s s' (by omega) (by omega) hI) h
      have e : a + (n + 1) = a + 1 + n := by omega
      rw [e]; exact this

theorem emit_body_capacity {n : Nat} {f : Nat → R} {c : Nat} {rest : List Nat}
    {w : Workspace R} (h : WalkInv n f (c :: rest) w) (o : Output R) (a : Nat)
    {r : Workspace R × Output R} (hr : pass2_emit_body a (w, o) = some r) (hz : f c ≠ 0) :
    o.num_nonzeros < o.C_column_indices.length ∧ o.num_nonzeros < o.C_values.length := by
  have hhead : w.head = (c : Int) := h.head_eq
  have hnot : ¬ ((c : Int) < 0) := by omega
  have hs := h.sums_in c (List.mem_cons_self _ _)
  have hn : w.next[c]? = some (head_of rest) := h.linked.1
  by_contra hcon
  have : pass2_emit_body a (w, o) = none := by
    simp only [pass2_emit_body, hhead, hnot, if_false, Int.toNat_ofNat, hs, hn, hz,
      ne_eq, not_false_eq_true, if_true, store]
    by_cases h1 : o.num_nonzeros < o.C_column_indices.length
    · have h2 : ¬ o.num_nonzeros < o.C_values.length := fun h2 => hcon ⟨h1, h2⟩
      simp only [h1, h2, if_true, if_false]
    · simp only [h1, if_false]
  rw [this] at hr
  exact Option.noConfusion hr

theorem emit_body_zero {n : Nat} {f : Nat → R} {c : Nat} {rest : List Nat}
    {w : Workspace R} (h : WalkInv n f (c :: rest) w) (o : Output R) (a : Nat)
    (hz : f c = 0) :
    pass2_emit_body a (w, o)
      = some (Workspace.mk (w.next.set c unseen) (w.sums.set c 0) (head_of rest) w.length,
          o) := by
  have hhead : w.head = (c : Int) := h.head_eq
  have hnot : ¬ ((c : Int) < 0) := by omega
  have hs := h.sums_in c (List.mem_cons_self _ _)
  have hn : w.next[c]? = some (head_of rest) := h.linked.1
  simp only [pass2_emit_body, hhead, hnot, if_false, Int.toNat_ofNat, hs, hn, hz, ne_eq,
    not_true_eq_false]

theorem emit_body_nonzero {n : Nat} {f : Nat → R} {c : Nat} {rest : List Nat}
    {w : Workspace R} (h : WalkInv n f (c :: rest) w) (o : Output R) (a : Nat)
    (hz : f c ≠ 0) (c1 : o.num_nonzeros < o.C_column_indices.length)
    (c2 : o.num_nonzeros < o.C_values.length) :
    pass2_emit_body a (w, o)
      = some (Workspace.mk (w.next.set c unseen) (w.sums.set c 0) (head_of rest) w.length,
          Output.mk o.C_row_offsets (o.C_column_indices.set o.num_nonzeros c)
            (o.C_values.set o.num_nonzeros (f c)) (o.num_nonzeros + 1)) := by
  have hhead : w.head = (c : Int) := h.head_eq
  have hnot : ¬ ((c : Int) < 0) := by omega
  have hs := h.sums_in c (List.mem_cons_self _ _)
  have hn : w.next[c]? = some (head_of rest) := h.linked.1
  simp only [pass2_emit_body, hhead, hnot, if_false, Int.toNat_ofNat, hs, hn, hz,
    ne_eq, not_false_eq_true, if_true, store, c1, c2]

theorem walk_capacity {n : Nat} {f : Nat → R} (ch : List Nat) :
    ∀ (a : Nat) (w : Workspace R) (o : Output R) (r : Workspace R × Output R),
      WalkInv n f ch w →
      o.num_nonzeros ≤ o.C_column_indices.length → o.num_nonzeros ≤ o.C_values.length →
      forLoop pass2_emit_body ch.length a (w, o) = some r →
      o.num_nonzeros + (emitted f ch).length ≤ o.C_column_indices.length ∧
      o.num_nonzeros + (emitted f ch).length ≤ o.C_values.length := by
  induction ch with
  | nil =>
    intro a w o r _ h1 h2 _
    simp only [emitted, List.filterMap_nil, List.length_nil, Nat.add_zero]
    exact ⟨h1, h2⟩
  | cons c rest ih =>
    intro a w o r h h1 h2 hl
    simp only [List.length_cons, forLoop] at hl
    cases hb : pass2_emit_body a (w, o) with
    | none => rw [hb] at hl; simp at hl
    | some r1 =>
      rw [hb] at hl
      rw [emitted_cons]
      by_cases hz : f c = 0
      · simp only [hz, ne_eq, not_true_eq_false, if_false]
        rw [emit_body_zero h o a hz] at hb
        rw [← Option.some.inj hb] at hl
        exact ih (a + 1) _ o r h.step h1 h2 hl
      · obtain ⟨c1, c2⟩ := emit_body_capacity h o a hb hz
        rw [emit_body_nonzero h o a hz c1 c2] at hb
        rw [← Option.some.inj hb] at hl
        have := ih (a + 1) _ _ r h.step (by simp; omega) (by simp; omega) hl
        simp only [hz, ne_eq, not_false_eq_true, if_true, List.length_cons,
          List.length_set] at this ⊢
        omega

theorem pass2_row_capacity {A B : csr_matrix R} (hA : Readable A B.num_rows)
    (hB : Readable B B.num_cols) {i : Nat} (hi : i < A.num_rows)
    (w : Workspace R) (o : Output R) (r : Workspace R × Output R)
    (hnext : w.next = List.replicate B.num_cols unseen)
    (hsums : w.sums = List.replicate B.num_cols 0)
    (h1 : o.num_nonzeros ≤ o.C_column_indices.length)
    (h2 : o.num_nonzeros ≤ o.C_values.length)
    (hr : pass2_row A.row_offsets A.column_indices A.values B.row_offsets B.column_indices
        B.values i (w, o) = some r) :
    i + 1 < o.C_row_offsets.length ∧
    o.num_nonzeros + (row_out A B i).length ≤ o.C_column_indices.length ∧
    o.num_nonzeros + (row_out A B i).length ≤ o.C_values.length := by
  have hts := touches_column_lt hA hB hi
  have hinv := rowInv_foldl B.num_cols (touches A B i) hts
  have hloop := (pass2_jj_loop hA hB hi
    (w := Workspace.mk (List.replicate B.num_cols unseen) (List.replicate B.num_cols 0)
      init 0) ⟨by simp, by simp⟩).1
  simp only [pass2_row, hA.read_offset (Nat.le_of_lt hi), hA.read_offset (Nat.succ_le_of_lt hi),
    hnext, hsums, hloop] at hr
  rw [hinv.length_eq] at hr
  cases hwalk : forLoop pass2_emit_body (chain ((touches A B i).map Prod.fst)).length 0
      (List.foldl touch_step
        (Workspace.mk (List.replicate B.num_cols unseen) (List.replicate B.num_cols 0)
          init 0) (touches A B i), o) with
  | none => rw [hwalk] at hr; simp at hr
  | some r1 =>
    have hcap := walk_capacity _ 0 _ o r1 (hinv.walkInv hts) h1 h2 hwalk
    have hspec := walk_spec (chain ((touches A B i).map Prod.fst)) 0 _ o (hinv.walkInv hts)
      hcap.1 hcap.2
    rw [hspec] at hr
    simp only [store] at hr
    refine ⟨?_, hcap.1, hcap.2⟩
    by_contra hcon
    simp only [hcon, if_false] at hr
    exact Option.noConfusion hr

theorem pass2_capacity {A B : csr_matrix R} (hA : Readable A B.num_rows)
    (hB : Readable B B.num_cols) (C_row_offsets C_column_indices : List Nat)
    (C_values : List R) (o : Output R)
    (h : spmm_csr_pass2 A.num_rows B.num_cols A.row_offsets A.column_indices A.values
        B.row_offsets B.column_indices B.values C_row_offsets C_column_indices C_values
      = some o) :
    A.num_rows + 1 ≤ C_row_offsets.length ∧
    (out_upto A B A.num_rows).length ≤ C_column_indices.length ∧
    (out_upto A B A.num_rows).length ≤ C_values.length := by
  have h0 : 0 < C_row_offsets.length := by
    by_contra hcon
    simp [spmm_csr_pass2, store, hcon] at h
  simp only [spmm_csr_pass2, store, h0, if_true] at h
  cases hl : forLoop (pass2_row A.row_offsets A.column_indices A.values B.row_offsets
      B.column_indices B.values) A.num_rows 0
      (Workspace.mk (List.replicate B.num_cols unseen) (List.replicate B.num_cols 0) init 0,
        Output.mk (C_row_offsets.set 0 0) C_column_indices C_values 0) with
  | none => rw [hl] at h; simp at h
  | some st =>
    have := forLoop_some_inv
      (pass2_row A.row_offsets A.column_indices A.values B.row_offsets B.column_indices
        B.values)
      (fun r st =>
        st.1.next = List.replicate B.num_cols unseen ∧
        st.1.sums = List.replicate B.num_cols 0 ∧
        st.2.num_nonzeros = (out_upto A B r).length ∧
        st.2.C_row_offsets.length = C_row_offsets.length ∧
        st.2.C_column_indices.length = C_column_indices.length ∧
        st.2.C_values.length = C_values.length ∧
        r + 1 ≤ C_row_offsets.length ∧
        (out_upto A B r).length ≤ C_column_indices.length ∧
        (out_upto A B r).length ≤ C_values.length)
      A.num_rows 0 _ st
      ⟨rfl, rfl, rfl, by simp, rfl, rfl, by omega, by simp [out_upto_zero],
        by simp [out_upto_zero]⟩
      (by
        intro r s s' _ hr hI hb
        obtain ⟨g1, g2, g3, g4, g5, g6, g7, g8, g9⟩ := hI
        have hr' : r < A.num_rows := by omega
        obtain ⟨k1, k2, k3⟩ := pass2_row_capacity hA hB hr' s.1 s.2 s' g1 g2
          (by rw [g3, g5]; exact g8) (by rw [g3, g6]; exact g9) hb
        have hrow := pass2_row_eq hA hB hr' s.1 s.2 g1 g2 k1 k2 k3
        have hb' : pass2_row A.row_offsets A.column_indices A.values B.row_offsets
            B.column_indices B.values r (s.1, s.2) = some s' := hb
        rw [hrow] at hb'
        have e := Option.some.inj hb'
        subst e
        simp only
        refine ⟨trivial, trivial, ?_, ?_, ?_, ?_, ?_, ?_, ?_⟩
        · rw [out_upto_succ, List.length_append, g3]
        · simp [g4]
        · rw [length_splice (by simp; omega), g5]
        · rw [length_splice (by simp; omega), g6]
        · omega
        · rw [out_upto_succ, List.length_append, ← g3, ← g5]; exact k2
        · rw [out_upto_succ, List.length_append, ← g3, ← g6]; exact k3)
      hl
    simp only [Nat.zero_add] at this
    exact ⟨this.2.2.2.2.2.2.1, this.2.2.2.2.2.2.2.1, this.2.2.2.2.2.2.2.2⟩

end

section
variable {R : Type} [Ring R] [DecidableEq R]

/-! ## Rows of the result -/

theorem map_entry_range' (xs ys zs : List (Nat × R)) :
    (List.range' xs.length ys.length).map
        (fun p => (((xs ++ ys ++ zs).map Prod.fst).getD p 0,
          ((xs ++ ys ++ zs).map Prod.snd).getD p 0))
      = ys := by
  apply List.ext_getElem
  · simp
  · intro t h1 h2
    simp only [List.length_map, List.length_range'] at h1
    have hlt : xs.length + t < (xs ++ ys ++ zs).length := by
      simp only [List.length_append]; omega
    have e : (xs ++ ys ++ zs)[xs.length + t]? = some ys[t] := by
      rw [List.append_assoc, List.getElem?_append_right (by omega)]
      simp only [Nat.add_sub_cancel_left]
      rw [List.getElem?_append_left (by omega), List.getElem?_eq_getElem]
    simp only [List.getElem_map, List.getElem_range', Nat.one_mul,
      List.getD_eq_getElem?_getD, List.getElem?_map, e, Option.map_some', Option.getD_some]

theorem out_upto_split (A B : csr_matrix R) {i j : Nat} (h : i ≤ j) :
    ∃ zs, out_upto A B j = out_upto A B i ++ zs := by
  induction j with
  | zero => exact ⟨[], by rw [Nat.le_zero.mp h]; simp⟩
  | succ j ih =>
    rcases Nat.eq_or_lt_of_le h with rfl | hlt
    · exact ⟨[], by simp⟩
    · obtain ⟨zs, hzs⟩ := ih (by omega)
      exact ⟨zs ++ row_out A B j, by rw [out_upto_succ, hzs, List.append_assoc]⟩

theorem product_csr_offset (A B : csr_matrix R) {r : Nat} (hr : r ≤ A.num_rows) :
    (product_csr A B).offset r = (out_upto A B r).length := by
  simp only [csr_matrix.offset, product_csr, List.getD_eq_getElem?_getD, List.getElem?_map]
  rw [List.getElem?_range (by omega)]
  rfl

theorem product_csr_row (A B : csr_matrix R) {i : Nat} (hi : i < A.num_rows) :
    (product_csr A B).row i = row_out A B i := by
  obtain ⟨zs, hzs⟩ := out_upto_split A B (show i + 1 ≤ A.num_rows from hi)
  rw [out_upto_succ] at hzs
  have h := map_entry_range' (out_upto A B i) (row_out A B i) zs
  unfold csr_matrix.row
  rw [product_csr_offset A B (Nat.le_of_lt hi), product_csr_offset A B hi, out_upto_succ,
    List.length_append, Nat.add_sub_cancel_left]
  have he : (product_csr A B).entry = fun p =>
      (((out_upto A B i ++ row_out A B i ++ zs).map Prod.fst).getD p 0,
        ((out_upto A B i ++ row_out A B i ++ zs).map Prod.snd).getD p 0) := by
    funext p
    simp only [csr_matrix.entry, product_csr, hzs]
  rw [he]
  exact h

/-! ## Entries and sums -/

theorem col_sum_cons (t : Nat × R) (ts : List (Nat × R)) (k : Nat) :
    col_sum (t :: ts) k = (if t.1 = k then t.2 else 0) + col_sum ts k := by
  unfold col_sum
  by_cases h : t.1 = k
  · simp [List.filter_cons, h]
  · simp [List.filter_cons, h]

theorem col_sum_append (xs ys : List (Nat × R)) (k : Nat) :
    col_sum (xs ++ ys) k = col_sum xs k + col_sum ys k := by
  unfold col_sum
  simp [List.filter_append]

theorem col_sum_flatMap {α : Type} (xs : List α) (g : α → List (Nat × R)) (k : Nat) :
    col_sum (xs.flatMap g) k = (xs.map (fun x => col_sum (g x) k)).sum := by
  induction xs with
  | nil => simp [col_sum]
  | cons x xs ih => simp [List.flatMap_cons, col_sum_append, ih]

theorem filter_rows {α : Type} (g : Nat → List α) (i : Nat) (rs : List Nat)
    (hnd : rs.Nodup) :
    (rs.flatMap (fun r => (g r).map (fun e => (r, e)))).filter (fun x => decide (x.1 = i))
      = if i ∈ rs then (g i).map (fun e => (i, e)) else [] := by
  induction rs with
  | nil => simp
  | cons r rs ih =>
    have hnd' := List.nodup_cons.mp hnd
    rw [List.flatMap_cons, List.filter_append, ih hnd'.2]
    by_cases e : r = i
    · subst e
      have h1 : ((g r).map (fun e => (r, e))).filter (fun x => decide (x.1 = r))
          = (g r).map (fun e => (r, e)) := by
        rw [List.filter_eq_self]
        intro x hx
        obtain ⟨y, _, rfl⟩ := List.mem_map.mp hx
        simp
      rw [h1, if_neg hnd'.1, if_pos (List.mem_cons_self _ _), List.append_nil]
    · have h1 : ((g r).map (fun e => (r, e))).filter (fun x => decide (x.1 = i)) = [] := by
        rw [List.filter_eq_nil_iff]
        intro x hx
        obtain ⟨y, _, rfl⟩ := List.mem_map.mp hx
        simpa using e
      rw [h1, List.nil_append]
      by_cases hm : i ∈ rs
      · rw [if_pos hm, if_pos (List.mem_cons_of_mem _ hm)]
      · rw [if_neg hm, if_neg]
        intro hc
        rcases List.mem_cons.mp hc with h | h
        · exact e h.symm
        · exact hm h

theorem entries_filter_row (M : csr_matrix R) {i : Nat} (hi : i < M.num_rows) :
    M.entries.filter (fun e => decide (e.1 = i)) = (M.row i).map (fun e => (i, e.1, e.2)) := by
  have := filter_rows (fun r => M.row r) i (List.range M.num_rows) (List.nodup_range _)
  rw [if_pos (List.mem_range.mpr hi)] at this
  exact this

theorem entry_sum_eq_col_sum (M : csr_matrix R) {i : Nat} (hi : i < M.num_rows) (c : Nat) :
    M.entry_sum i c = col_sum (M.row i) c := by
  unfold csr_matrix.entry_sum col_sum
  have h1 : M.entries.filter (fun e => decide (e.1 = i ∧ e.2.1 = c))
      = (M.entries.filter (fun e => decide (e.1 = i))).filter (fun e => decide (e.2.1 = c)) := by
    rw [List.filter_filter]
    congr 1
    funext e
    simp only [Bool.decide_and]
    exact Bool.and_comm _ _
  rw [h1, entries_filter_row M hi, List.filter_map, List.map_map]
  rfl

theorem col_sum_emitted (f : Nat → R) (ch : List Nat) (hnd : ch.Nodup) (c : Nat) :
    col_sum (emitted f ch) c = if c ∈ ch then f c else 0 := by
  induction ch with
  | nil => simp [emitted, col_sum]
  | cons a rest ih =>
    have hnd' := List.nodup_cons.mp hnd
    rw [emitted_cons]
    by_cases hz : f a = 0
    · rw [if_neg (by simpa using hz), ih hnd'.2]
      by_cases e : c = a
      · subst e
        rw [if_neg hnd'.1, if_pos (List.mem_cons_self _ _), hz]
      · by_cases hm : c ∈ rest
        · rw [if_pos hm, if_pos (List.mem_cons_of_mem _ hm)]
        · rw [if_neg hm, if_neg]
          intro hc
          rcases List.mem_cons.mp hc with h | h
          · exact e h
          · exact hm h
    · rw [if_pos hz, col_sum_cons, ih hnd'.2]
      by_cases e : c = a
      · subst e
        simp [hnd'.1]
      · have e' : ¬ a = c := fun h => e h.symm
        simp only [e', if_false, zero_add, List.mem_cons, e, false_or]

theorem col_sum_row_out (A B : csr_matrix R) (i c : Nat) :
    col_sum (row_out A B i) c = col_sum (touches A B i) c := by
  unfold row_out
  rw [col_sum_emitted _ _ (chain_nodup _)]
  by_cases hm : c ∈ chain ((touches A B i).map Prod.fst)
  · rw [if_pos hm]
  · rw [if_neg hm, col_sum_of_not_mem (fun h => hm (mem_chain.mpr h))]

theorem product_sum_eq_col_sum {A B : csr_matrix R} (hA : Readable A B.num_rows) {i : Nat} (hi : i < A.num_rows) (c : Nat) :
    product_sum A B i c = col_sum (touches A B i) c := by
  unfold product_sum touches
  rw [col_sum_flatMap, entries_filter_row A hi, List.map_map]
  apply congrArg
  apply List.map_congr_left
  intro e he
  have hj : e.1 < B.num_rows := hA.row_read_column_lt hi e he
  simp only [Function.comp_apply]
  have h1 : B.entries.filter (fun f => decide (f.1 = e.1 ∧ f.2.1 = c))
      = (B.entries.filter (fun f => decide (f.1 = e.1))).filter
          (fun f => decide (f.2.1 = c)) := by
    rw [List.filter_filter]
    congr 1
    funext f
    simp only [Bool.decide_and]
    exact Bool.and_comm _ _
  rw [h1, entries_filter_row B hj]
  unfold col_sum
  rw [List.filter_map, List.map_map, List.filter_map, List.map_map]
  rfl

end

section
variable {R : Type} [Ring R] [DecidableEq R]

/-! ## The symbolic count in the words of the specification -/

theorem mem_entries {M : csr_matrix R} {x : Nat × Nat × R} :
    x ∈ M.entries ↔ x.1 < M.num_rows ∧ (x.2.1, x.2.2) ∈ M.row x.1 := by
  simp only [csr_matrix.entries, List.mem_flatMap, List.mem_range, List.mem_map]
  constructor
  · rintro ⟨r, hr, e, he, rfl⟩
    exact ⟨hr, he⟩
  · rintro ⟨h1, h2⟩
    exact ⟨x.1, h1, (x.2.1, x.2.2), h2, rfl⟩

theorem mem_touches_fst {A B : csr_matrix R} {i c : Nat} :
    c ∈ (touches A B i).map Prod.fst ↔ ∃ e ∈ A.row i, ∃ f ∈ B.row e.1, f.1 = c := by
  simp only [touches, List.mem_map, List.mem_flatMap]
  constructor
  · rintro ⟨t, ⟨e, he, f, hf, rfl⟩, rfl⟩
    exact ⟨e, he, f, hf, rfl⟩
  · rintro ⟨e, he, f, hf, rfl⟩
    exact ⟨_, ⟨e, he, f, hf, rfl⟩, rfl⟩

theorem touched_count_eq {A B : csr_matrix R} (hA : Readable A B.num_rows)
    (hB : Readable B B.num_cols) {i : Nat} (hi : i < A.num_rows) :
    touched_count A B i = (chain ((touches A B i).map Prod.fst)).length := by
  unfold touched_count
  apply List.Perm.length_eq
  rw [List.perm_ext_iff_of_nodup ((List.nodup_range _).filter _) (chain_nodup _)]
  intro c
  rw [mem_chain, mem_touches_fst]
  simp only [List.mem_filter, List.mem_range, List.any_eq_true, Bool.decide_and,
    Bool.and_eq_true, decide_eq_true_eq]
  constructor
  · rintro ⟨_, e, he, hei, f, hf, hfe, hfc⟩
    rw [mem_entries] at he hf
    refine ⟨(e.2.1, e.2.2), hei ▸ he.2, (f.2.1, f.2.2), ?_, hfc⟩
    simpa only [hfe] using hf.2
  · rintro ⟨e, he, f, hf, hfc⟩
    have hj : e.1 < B.num_rows := hA.row_read_column_lt hi e he
    refine ⟨?_, (i, e.1, e.2), mem_entries.mpr ⟨hi, he⟩, rfl, (e.1, f.1, f.2),
      mem_entries.mpr ⟨hj, hf⟩, rfl, hfc⟩
    rw [← hfc]
    exact hB.row_read_column_lt hj f hf

theorem links_upto_eq_touched {A B : csr_matrix R} (hA : Readable A B.num_rows)
    (hB : Readable B B.num_cols) {i : Nat} (hi : i ≤ A.num_rows) :
    links_upto A B i = ((List.range i).map (touched_count A B)).sum := by
  unfold links_upto
  apply congrArg
  apply List.map_congr_left
  intro r hr
  exact (touched_count_eq hA hB (by have := List.mem_range.mp hr; omega)).symm

/-! ## Multiplication by the identity -/

theorem identity_wellFormed (k : Nat) : WellFormed (identity R k) := by
  refine ⟨by simp [identity], by simp [identity], ?_, ?_, by simp [identity],
    by simp [identity], ?_⟩
  · simp only [identity]
    exact (List.pairwise_lt_range (k + 1)).imp (fun h => Nat.le_of_lt h)
  · simp [identity, List.getElem?_range]
  · intro c hc
    simpa [identity] using hc

theorem identity_row {k j : Nat} (hj : j < k) : (identity R k).row j = [(j, (1 : R))] := by
  have h0 : (identity R k).offset j = j := by
    simp [csr_matrix.offset, identity, List.getD_eq_getElem?_getD,
      List.getElem?_range (show j < k + 1 by omega)]
  have h1 : (identity R k).offset (j + 1) = j + 1 := by
    simp [csr_matrix.offset, identity, List.getD_eq_getElem?_getD,
      List.getElem?_range (show j + 1 < k + 1 by omega)]
  rw [csr_matrix.row, h0, h1, Nat.add_sub_cancel_left]
  simp [csr_matrix.entry, identity, List.getD_eq_getElem?_getD, List.getElem?_range hj,
    List.getElem?_replicate, hj]

theorem touches_identity {A : csr_matrix R} {k i : Nat} (h : ∀ e ∈ A.row i, e.1 < k) :
    touches A (identity R k) i = A.row i := by
  unfold touches
  generalize A.row i = row at h
  induction row with
  | nil => rfl
  | cons e rest ih =>
    rw [List.flatMap_cons, ih (fun x hx => h x (List.mem_cons_of_mem _ hx)),
      identity_row (h e (List.mem_cons_self _ _))]
    simp

theorem chain_of_nodup {cols : List Nat} (h : cols.Nodup) : chain cols = cols.reverse := by
  induction cols using List.reverseRecOn with
  | nil => rfl
  | append_singleton xs x ih =>
    have h' := List.nodup_append.mp h
    have hx : x ∉ xs := fun hm => h'.2.2 hm (List.mem_singleton_self x)
    rw [chain_append_singleton, ih h'.1, chain_step, if_neg (by simpa using hx)]
    simp

theorem col_sum_of_nodup {ts : List (Nat × R)} (h : (ts.map Prod.fst).Nodup)
    {t : Nat × R} (ht : t ∈ ts) : col_sum ts t.1 = t.2 := by
  induction ts with
  | nil => simp at ht
  | cons a rest ih =>
    rw [List.map_cons, List.nodup_cons] at h
    rw [col_sum_cons]
    rcases List.mem_cons.mp ht with rfl | hm
    · rw [if_pos rfl, col_sum_of_not_mem h.1, add_zero]
    · have hne : a.1 ≠ t.1 := fun e => h.1 (e ▸ List.mem_map_of_mem _ hm)
      rw [if_neg hne, zero_add, ih h.2 hm]

theorem emitted_map_fst (f : Nat → R) (ts : List (Nat × R))
    (h : ∀ t ∈ ts, f t.1 = t.2 ∧ t.2 ≠ 0) : emitted f (ts.map Prod.fst) = ts := by
  induction ts with
  | nil => rfl
  | cons a rest ih =>
    obtain ⟨h1, h2⟩ := h a (List.mem_cons_self _ _)
    rw [List.map_cons, emitted_cons, ih (fun t ht => h t (List.mem_cons_of_mem _ ht)),
      if_pos (by rw [h1]; exact h2), h1]

theorem row_out_identity {A : csr_matrix R} (hA : WellFormed A) {i : Nat}
    (hi : i < A.num_rows) (hnd : ((A.row i).map Prod.fst).Nodup)
    (hnz : ∀ e ∈ A.row i, e.2 ≠ 0) :
    row_out A (identity R A.num_cols) i = (A.row i).reverse := by
  unfold row_out
  rw [touches_identity (hA.row_column_lt hi), chain_of_nodup hnd, ← List.map_reverse]
  apply emitted_map_fst
  intro t ht
  have ht' : t ∈ A.row i := List.mem_reverse.mp ht
  exact ⟨col_sum_of_nodup hnd ht', hnz t ht'⟩

theorem row_length {M : csr_matrix R} (i : Nat) :
    (M.row i).length = M.offset (i + 1) - M.offset i := by
  simp [csr_matrix.row]

theorem offsets_eq_map {M : csr_matrix R} (h : WellFormed M) :
    M.row_offsets = (List.range (M.num_rows + 1)).map M.offset := by
  apply List.ext_getElem?
  intro r
  by_cases hr : r ≤ M.num_rows
  · rw [h.offset_get hr, List.getElem?_map, List.getElem?_range (by omega)]
    rfl
  · rw [List.getElem?_eq_none (by rw [h.offsets_length]; omega),
      List.getElem?_eq_none (by simp; omega)]

end

section
variable {R : Type} [Ring R] [DecidableEq R]

/-! ## Further facts used by the main results -/

theorem WellFormed.row_value_mem {M : csr_matrix R} (h : WellFormed M) {i : Nat}
    (hi : i < M.num_rows) : ∀ e ∈ M.row i, e.2 ∈ M.values := by
  intro e he
  simp only [csr_matrix.row, List.mem_map, List.mem_range'_1] at he
  obtain ⟨p, ⟨hp1, hp2⟩, rfl⟩ := he
  have := h.offset_le_entries (i := i + 1) (by omega)
  have hp' : p < M.values.length := by rw [h.values_length]; omega
  simp only [csr_matrix.entry, List.getD_eq_getElem?_getD, List.getElem?_eq_getElem hp',
    Option.getD_some]
  exact List.getElem_mem _

theorem emitted_values_ne_zero (f : Nat → R) (ch : List Nat) :
    ∀ e ∈ emitted f ch, e.2 ≠ 0 := by
  intro e he
  simp only [emitted, List.mem_filterMap] at he
  obtain ⟨c, _, hc⟩ := he
  by_cases hz : f c = 0
  · simp [hz] at hc
  · simp only [ne_eq, hz, not_false_eq_true, if_true, Option.some.injEq] at hc
    rw [← hc]
    exact hz

theorem out_upto_values_ne_zero (A B : csr_matrix R) (i : Nat) :
    ∀ e ∈ out_upto A B i, e.2 ≠ 0 := by
  intro e he
  simp only [out_upto, List.mem_flatMap] at he
  obtain ⟨r, _, hr⟩ := he
  exact emitted_values_ne_zero _ _ e hr

theorem offsets_pairwise (A B : csr_matrix R) (m : Nat) :
    List.Pairwise (fun a b => a ≤ b)
      ((List.range m).map (fun r => (out_upto A B r).length)) := by
  rw [List.pairwise_map]
  exact (List.pairwise_lt_range m).imp (fun h => out_upto_length_mono A B (Nat.le_of_lt h))

theorem col_sum_of_values_zero {ts : List (Nat × R)} (h : ∀ t ∈ ts, t.2 = 0) (k : Nat) :
    col_sum ts k = 0 := by
  induction ts with
  | nil => exact col_sum_nil k
  | cons a rest ih =>
    rw [col_sum_cons, ih (fun t ht => h t (List.mem_cons_of_mem _ ht)),
      h a (List.mem_cons_self _ _)]
    simp

theorem emitted_of_zero (f : Nat → R) (ch : List Nat) (h : ∀ c, f c = 0) :
    emitted f ch = [] := by
  induction ch with
  | nil => rfl
  | cons a rest ih => rw [emitted_cons, ih, if_neg (by simp [h a])]

theorem row_out_of_zero {A B : csr_matrix R} (hA : WellFormed A) (hB : WellFormed B)
    (hAB : ∀ c ∈ A.column_indices, c < B.num_rows) (hzero : ∀ b ∈ B.values, b = 0)
    {i : Nat} (hi : i < A.num_rows) : row_out A B i = [] := by
  unfold row_out
  apply emitted_of_zero
  intro c
  apply col_sum_of_values_zero
  intro t ht
  simp only [touches, List.mem_flatMap, List.mem_map] at ht
  obtain ⟨e, he, f, hf, rfl⟩ := ht
  have hj : e.1 < B.num_rows := hAB _ (hA.row_column_mem hi e he)
  rw [hzero f.2 (hB.row_value_mem hj f hf)]
  simp

theorem out_upto_of_zero {A B : csr_matrix R} (hA : WellFormed A) (hB : WellFormed B)
    (hAB : ∀ c ∈ A.column_indices, c < B.num_rows) (hzero : ∀ b ∈ B.values, b = 0)
    {i : Nat} (hi : i ≤ A.num_rows) : out_upto A B i = [] := by
  induction i with
  | zero => rfl
  | succ i ih =>
    rw [out_upto_succ, ih (by omega), row_out_of_zero hA hB hAB hzero (by omega)]
    rfl

theorem out_upto_identity_length {A : csr_matrix R} (hA : WellFormed A)
    (hnd : ∀ i, i < A.num_rows → ((A.row i).map Prod.fst).Nodup)
    (hnz : ∀ v ∈ A.values, v ≠ 0) {r : Nat} (hr : r ≤ A.num_rows) :
    (out_upto A (identity R A.num_cols) r).length = A.offset r := by
  induction r with
  | zero => rw [out_upto_zero, hA.offset_zero]; rfl
  | succ r ih =>
    have hr' : r < A.num_rows := by omega
    have hmono : A.offset r ≤ A.offset (r + 1) := hA.offset_mono (Nat.le_succ r) hr
    rw [out_upto_succ, List.length_append, ih (by omega),
      row_out_identity hA hr' (hnd r hr')
        (fun e he => hnz _ (hA.row_value_mem hr' e he)),
      List.length_reverse, row_length]
    omega

end

/-! ## Well-formedness of the concrete matrices -/

theorem ex_empty_wellFormed : WellFormed ex_empty := by constructor <;> decide

theorem ex_cancel_A_wellFormed : WellFormed ex_cancel_A := by constructor <;> decide

theorem ex_cancel_B_wellFormed : WellFormed ex_cancel_B := by constructor <;> decide

theorem ex_A_wellFormed : WellFormed ex_A := by constructor <;> decide

theorem ex_B_wellFormed : WellFormed ex_B := by constructor <;> decide

theorem ex_stored_zero_wellFormed : WellFormed ex_stored_zero := by constructor <;> decide

theorem ex_duplicate_wellFormed : WellFormed ex_duplicate := by constructor <;> decide

theorem ex_wide_wellFormed : WellFormed ex_wide := by constructor <;> decide

theorem ex_one_wellFormed : WellFormed ex_one := by constructor <;> decide

theorem ex_zero_B_wellFormed : WellFormed ex_zero_B := by constructor <;> decide

section
variable {R : Type} [Ring R] [DecidableEq R]

/-! ## Main results -/

/-- C1: for well-formed CSR matrices `A` (m x k) and `B` (k x n) over a ring,
`multiply` returns a matrix `C` that represents the product: for every row
`i < m` and every column `c`, the values stored in row `i` of `C` at column `c`
sum to the sum of `a * b` over the stored entries `(i, j, a)` of `A` and
`(j, c, b)` of `B`.  Duplicates and unsorted rows are allowed. -/
theorem multiply_represents_product {A B : csr_matrix R} (hA : WellFormed A)
    (hB : WellFormed B) (hdim : A.num_cols = B.num_rows) (C0 : csr_matrix R) :
    ∃ C, multiply A B C0 = some C ∧
      ∀ i c, i < A.num_rows → C.entry_sum i c = product_sum A B i c := by
  have hAB := hA.compatible hdim
  refine ⟨product_csr A B, multiply_spec (hA.readable_of_compatible hAB) hB.readable C0, ?_⟩
  intro i c hi
  rw [entry_sum_eq_col_sum (product_csr A B) (show i < (product_csr A B).num_rows from hi),
    product_csr_row A B hi, col_sum_row_out, product_sum_eq_col_sum (hA.readable_of_compatible hAB) hi]

theorem multiply_represents_product_witness :
    WellFormed ex_A ∧ WellFormed ex_B ∧ ex_A.num_cols = ex_B.num_rows ∧
      ∃ C, multiply ex_A ex_B ex_empty = some C ∧
        ∀ i c, i < ex_A.num_rows → C.entry_sum i c = product_sum ex_A ex_B i c :=
  ⟨ex_A_wellFormed, ex_B_wellFormed, rfl,
    multiply_represents_product ex_A_wellFormed ex_B_wellFormed rfl ex_empty⟩

/-- C2: for well-formed inputs no value stored in `C = multiply(A, B)` is zero;
and for `A = [[1, -1]]`, `B = [[1], [1]]` the result has `row_offsets = [0, 0]`
and no entries, whatever `C` held before, although the symbolic pass counts 1. -/
theorem multiply_stores_no_zero {A B : csr_matrix R} (hA : WellFormed A)
    (hB : WellFormed B) (hdim : A.num_cols = B.num_rows) (C0 : csr_matrix R) :
    (∃ C, multiply A B C0 = some C ∧ ∀ v ∈ C.values, v ≠ 0) ∧
    (∀ C1 : csr_matrix Int, multiply ex_cancel_A ex_cancel_B C1
      = some { num_rows := 1, num_cols := 1, num_entries := 0, row_offsets := [0, 0],
               column_indices := [], values := [] }) ∧
    spmm_csr_pass1 ex_cancel_A.num_rows ex_cancel_B.num_cols ex_cancel_A.row_offsets
      ex_cancel_A.column_indices ex_cancel_B.row_offsets ex_cancel_B.column_indices
      = some 1 := by
  refine ⟨⟨product_csr A B, multiply_spec (hA.readable_of_compatible (hA.compatible hdim)) hB.readable C0, ?_⟩, ?_, by decide⟩
  · intro v hv
    simp only [product_csr, List.mem_map] at hv
    obtain ⟨e, he, rfl⟩ := hv
    exact out_upto_values_ne_zero A B _ e he
  · intro C1
    rw [multiply_spec
      (ex_cancel_A_wellFormed.readable_of_compatible (ex_cancel_A_wellFormed.compatible rfl))
      ex_cancel_B_wellFormed.readable C1]
    decide

theorem multiply_stores_no_zero_witness :
    WellFormed ex_A ∧ WellFormed ex_B ∧ ex_A.num_cols = ex_B.num_rows ∧
      ∃ C, multiply ex_A ex_B ex_empty = some C ∧ ∀ v ∈ C.values, v ≠ 0 :=
  ⟨ex_A_wellFormed, ex_B_wellFormed, rfl,
    (multiply_stores_no_zero ex_A_wellFormed ex_B_wellFormed rfl ex_empty).1⟩

/-- C3: for well-formed inputs the symbolic pass returns a count `n1`; the
numeric pass returns on every output whose arrays hold at least `n1` entries,
and whenever the numeric pass returns, on any output arrays, its count is at
most `n1`. -/
theorem pass1_count_ge_pass2_count {A B : csr_matrix R} (hA : WellFormed A)
    (hB : WellFormed B) (hdim : A.num_cols = B.num_rows) :
    ∃ n1, spmm_csr_pass1 A.num_rows B.num_cols A.row_offsets A.column_indices
        B.row_offsets B.column_indices = some n1 ∧
      (∀ (ro ci : List Nat) (cv : List R), A.num_rows + 1 ≤ ro.length →
        n1 ≤ ci.length → n1 ≤ cv.length →
        ∃ o, spmm_csr_pass2 A.num_rows B.num_cols A.row_offsets A.column_indices A.values
          B.row_offsets B.column_indices B.values ro ci cv = some o ∧
          o.num_nonzeros ≤ n1) ∧
      (∀ (ro ci : List Nat) (cv : List R) (o : Output R),
        spmm_csr_pass2 A.num_rows B.num_cols A.row_offsets A.column_indices A.values
          B.row_offsets B.column_indices B.values ro ci cv = some o →
        o.num_nonzeros ≤ n1) := by
  have hAB := hA.compatible hdim
  have hle := out_upto_length_le_links A B A.num_rows
  refine ⟨links_upto A B A.num_rows, pass1_spec (hA.readable_of_compatible hAB) hB.readable, ?_, ?_⟩
  · intro ro ci cv hro hci hcv
    exact ⟨_, pass2_spec (hA.readable_of_compatible hAB) hB.readable ro ci cv hro (by omega) (by omega), hle⟩
  · intro ro ci cv o ho
    obtain ⟨c1, c2, c3⟩ := pass2_capacity (hA.readable_of_compatible hAB) hB.readable ro ci cv o ho
    rw [pass2_spec (hA.readable_of_compatible hAB) hB.readable ro ci cv c1 c2 c3] at ho
    rw [← Option.some.inj ho]
    exact hle

theorem pass1_count_ge_pass2_count_witness :
    WellFormed ex_cancel_A ∧ WellFormed ex_cancel_B ∧
      ex_cancel_A.num_cols = ex_cancel_B.num_rows ∧
      ∃ n1, spmm_csr_pass1 ex_cancel_A.num_rows ex_cancel_B.num_cols
          ex_cancel_A.row_offsets ex_cancel_A.column_indices
          ex_cancel_B.row_offsets ex_cancel_B.column_indices = some n1 ∧
        (∀ (ro ci : List Nat) (cv : List Int), ex_cancel_A.num_rows + 1 ≤ ro.length →
          n1 ≤ ci.length → n1 ≤ cv.length →
          ∃ o, spmm_csr_pass2 ex_cancel_A.num_rows ex_cancel_B.num_cols
            ex_cancel_A.row_offsets ex_cancel_A.column_indices ex_cancel_A.values
            ex_cancel_B.row_offsets ex_cancel_B.column_indices ex_cancel_B.values
            ro ci cv = some o ∧ o.num_nonzeros ≤ n1) ∧
        (∀ (ro ci : List Nat) (cv : List Int) (o : Output Int),
          spmm_csr_pass2 ex_cancel_A.num_rows ex_cancel_B.num_cols
            ex_cancel_A.row_offsets ex_cancel_A.column_indices ex_cancel_A.values
            ex_cancel_B.row_offsets ex_cancel_B.column_indices ex_cancel_B.values
            ro ci cv = some o → o.num_nonzeros ≤ n1) :=
  ⟨ex_cancel_A_wellFormed, ex_cancel_B_wellFormed, rfl,
    pass1_count_ge_pass2_count ex_cancel_A_wellFormed ex_cancel_B_wellFormed rfl⟩

/-- C4: for well-formed structures the symbolic pass returns exactly the sum,
over the rows `i` of `A`, of the number of distinct columns `c` for which a
stored entry `(i, j)` of `A` and a stored entry `(j, c)` of `B` exist; the
values play no part, and a column touched several times is counted once. -/
theorem pass1_counts_distinct_columns {A B : csr_matrix R} (hA : WellFormed A)
    (hB : WellFormed B) (hdim : A.num_cols = B.num_rows) :
    spmm_csr_pass1 A.num_rows B.num_cols A.row_offsets A.column_indices
        B.row_offsets B.column_indices
      = some (((List.range A.num_rows).map (touched_count A B)).sum) := by
  have hAB := hA.compatible hdim
  rw [pass1_spec (hA.readable_of_compatible hAB) hB.readable, links_upto_eq_touched (hA.readable_of_compatible hAB) hB.readable (Nat.le_refl _)]

theorem pass1_counts_distinct_columns_witness :
    WellFormed ex_duplicate ∧ WellFormed ex_one ∧ ex_duplicate.num_cols = ex_one.num_rows ∧
      spmm_csr_pass1 ex_duplicate.num_rows ex_one.num_cols ex_duplicate.row_offsets
          ex_duplicate.column_indices ex_one.row_offsets ex_one.column_indices
        = some (((List.range ex_duplicate.num_rows).map
            (touched_count ex_duplicate ex_one)).sum) :=
  ⟨ex_duplicate_wellFormed, ex_one_wellFormed, rfl,
    pass1_counts_distinct_columns ex_duplicate_wellFormed ex_one_wellFormed rfl⟩

/-- C5: for well-formed inputs, when `C_column_indices` and `C_values` have the
length `n1` returned by the symbolic pass, the numeric pass returns: no
assignment to an output array falls outside the array (such an assignment
makes the embedding return `none`), its cursor ends at most at `n1`, and the
arrays keep their length.  Hence `multiply` returns as well. -/
theorem pass2_writes_within_capacity {A B : csr_matrix R} (hA : WellFormed A)
    (hB : WellFormed B) (hdim : A.num_cols = B.num_rows) (n1 : Nat)
    (h1 : spmm_csr_pass1 A.num_rows B.num_cols A.row_offsets A.column_indices
        B.row_offsets B.column_indices = some n1)
    (ro ci : List Nat) (cv : List R) (hro : ro.length = A.num_rows + 1)
    (hci : ci.length = n1) (hcv : cv.length = n1) :
    (∃ o, spmm_csr_pass2 A.num_rows B.num_cols A.row_offsets A.column_indices A.values
        B.row_offsets B.column_indices B.values ro ci cv = some o ∧
      o.num_nonzeros ≤ n1 ∧ o.C_column_indices.length = n1 ∧ o.C_values.length = n1) ∧
    ∀ C0 : csr_matrix R, ∃ C, multiply A B C0 = some C := by
  have hAB := hA.compatible hdim
  have hle := out_upto_length_le_links A B A.num_rows
  rw [pass1_spec (hA.readable_of_compatible hAB) hB.readable] at h1
  have hn := Option.some.inj h1
  refine ⟨⟨_, pass2_spec (hA.readable_of_compatible hAB) hB.readable ro ci cv (by omega) (by omega) (by omega),
    hn ▸ hle, ?_, ?_⟩, fun C0 => ⟨_, multiply_spec (hA.readable_of_compatible hAB) hB.readable C0⟩⟩
  · simp only
    rw [length_splice (by simp; omega), hci]
  · simp only
    rw [length_splice (by simp; omega), hcv]

theorem pass2_writes_within_capacity_witness :
    WellFormed ex_cancel_A ∧ WellFormed ex_cancel_B ∧
      ex_cancel_A.num_cols = ex_cancel_B.num_rows ∧
      spmm_csr_pass1 ex_cancel_A.num_rows ex_cancel_B.num_cols
          ex_cancel_A.row_offsets ex_cancel_A.column_indices
          ex_cancel_B.row_offsets ex_cancel_B.column_indices = some 1 ∧
      ((∃ o, spmm_csr_pass2 ex_cancel_A.num_rows ex_cancel_B.num_cols
          ex_cancel_A.row_offsets ex_cancel_A.column_indices ex_cancel_A.values
          ex_cancel_B.row_offsets ex_cancel_B.column_indices ex_cancel_B.values
          [7, 7] [9] [5] = some o ∧
        o.num_nonzeros ≤ 1 ∧ o.C_column_indices.length = 1 ∧ o.C_values.length = 1) ∧
      ∀ C0 : csr_matrix Int, ∃ C, multiply ex_cancel_A ex_cancel_B C0 = some C) :=
  ⟨ex_cancel_A_wellFormed, ex_cancel_B_wellFormed, rfl, by decide,
    pass2_writes_within_capacity ex_cancel_A_wellFormed ex_cancel_B_wellFormed rfl 1
      (by decide) [7, 7] [9] [5] rfl rfl rfl⟩

end

section
variable {R : Type} [Ring R] [DecidableEq R]

/-- C6: for well-formed inputs with `A` of `m` rows, the `row_offsets` of
`C = multiply(A, B)` have length `m + 1`, start at 0, are non-decreasing and
their last element is the number of entries of `C`, which is the count returned
by the numeric pass and the length of `column_indices` and `values`;
`row_offsets[i + 1]` is the value of the write cursor `num_nonzeros` after the
row loop of the numeric pass has committed the rows `0, ..., i`. -/
theorem multiply_row_offsets_invariant {A B : csr_matrix R} (hA : WellFormed A)
    (hB : WellFormed B) (hdim : A.num_cols = B.num_rows) (C0 : csr_matrix R) :
    ∃ C n1 o, multiply A B C0 = some C ∧
      spmm_csr_pass1 A.num_rows B.num_cols A.row_offsets A.column_indices
        B.row_offsets B.column_indices = some n1 ∧
      spmm_csr_pass2 A.num_rows B.num_cols A.row_offsets A.column_indices A.values
        B.row_offsets B.column_indices B.values
        (C0.resize A.num_rows B.num_cols n1).row_offsets
        (C0.resize A.num_rows B.num_cols n1).column_indices
        (C0.resize A.num_rows B.num_cols n1).values = some o ∧
      C.row_offsets.length = A.num_rows + 1 ∧
      C.row_offsets[0]? = some 0 ∧
      List.Pairwise (fun a b => a ≤ b) C.row_offsets ∧
      C.row_offsets[A.num_rows]? = some o.num_nonzeros ∧
      C.num_entries = o.num_nonzeros ∧
      C.column_indices.length = C.num_entries ∧
      C.values.length = C.num_entries ∧
      ∀ i, i < A.num_rows → ∃ w cur,
        forLoop (pass2_row A.row_offsets A.column_indices A.values B.row_offsets
            B.column_indices B.values) (i + 1) 0
            (Workspace.mk (List.replicate B.num_cols unseen) (List.replicate B.num_cols 0)
              init 0,
             Output.mk ((C0.resize A.num_rows B.num_cols n1).row_offsets.set 0 0)
              (C0.resize A.num_rows B.num_cols n1).column_indices
              (C0.resize A.num_rows B.num_cols n1).values 0) = some (w, cur) ∧
        C.row_offsets[i + 1]? = some cur.num_nonzeros := by
  have hAB := hA.compatible hdim
  have hle := out_upto_length_le_links A B A.num_rows
  have hro : (C0.resize A.num_rows B.num_cols (links_upto A B A.num_rows)).row_offsets.length
      = A.num_rows + 1 := by simp [csr_matrix.resize, length_resize_array]
  have hci : (C0.resize A.num_rows B.num_cols
      (links_upto A B A.num_rows)).column_indices.length = links_upto A B A.num_rows := by
    simp [csr_matrix.resize, length_resize_array]
  have hcv : (C0.resize A.num_rows B.num_cols (links_upto A B A.num_rows)).values.length
      = links_upto A B A.num_rows := by simp [csr_matrix.resize, length_resize_array]
  refine ⟨product_csr A B, links_upto A B A.num_rows, _, multiply_spec (hA.readable_of_compatible hAB) hB.readable C0,
    pass1_spec (hA.readable_of_compatible hAB) hB.readable,
    pass2_spec (hA.readable_of_compatible hAB) hB.readable _ _ _ (by omega) (by omega) (by omega), ?_, ?_, ?_, ?_, rfl, ?_, ?_,
    ?_⟩
  · simp [product_csr]
  · simp [product_csr, List.getElem?_range, out_upto_zero]
  · exact offsets_pairwise A B (A.num_rows + 1)
  · simp [product_csr, List.getElem?_range]
  · simp [product_csr]
  · simp [product_csr]
  · intro i hi
    have hlen : (out_upto A B (i + 1)).length ≤ links_upto A B A.num_rows :=
      Nat.le_trans (out_upto_length_mono A B (show i + 1 ≤ A.num_rows from hi)) hle
    obtain ⟨w, hw, _⟩ := pass2_rows_spec (hA.readable_of_compatible hAB) hB.readable
      (C0.resize A.num_rows B.num_cols (links_upto A B A.num_rows)).row_offsets
      (C0.resize A.num_rows B.num_cols (links_upto A B A.num_rows)).column_indices
      (C0.resize A.num_rows B.num_cols (links_upto A B A.num_rows)).values
      (show i + 1 ≤ A.num_rows from hi) (by omega) (by omega) (by omega)
    refine ⟨w, _, hw, ?_⟩
    simp [product_csr, List.getElem?_range, hi]

theorem multiply_row_offsets_invariant_witness :
    WellFormed ex_A ∧ WellFormed ex_B ∧ ex_A.num_cols = ex_B.num_rows ∧
    ∃ C n1 o, multiply ex_A ex_B ex_empty = some C ∧
      spmm_csr_pass1 ex_A.num_rows ex_B.num_cols ex_A.row_offsets ex_A.column_indices
        ex_B.row_offsets ex_B.column_indices = some n1 ∧
      spmm_csr_pass2 ex_A.num_rows ex_B.num_cols ex_A.row_offsets ex_A.column_indices
        ex_A.values ex_B.row_offsets ex_B.column_indices ex_B.values
        (ex_empty.resize ex_A.num_rows ex_B.num_cols n1).row_offsets
        (ex_empty.resize ex_A.num_rows ex_B.num_cols n1).column_indices
        (ex_empty.resize ex_A.num_rows ex_B.num_cols n1).values = some o ∧
      C.row_offsets.length = ex_A.num_rows + 1 ∧
      C.row_offsets[0]? = some 0 ∧
      List.Pairwise (fun a b => a ≤ b) C.row_offsets ∧
      C.row_offsets[ex_A.num_rows]? = some o.num_nonzeros ∧
      C.num_entries = o.num_nonzeros ∧
      C.column_indices.length = C.num_entries ∧
      C.values.length = C.num_entries ∧
      ∀ i, i < ex_A.num_rows → ∃ w cur,
        forLoop (pass2_row ex_A.row_offsets ex_A.column_indices ex_A.values
            ex_B.row_offsets ex_B.column_indices ex_B.values) (i + 1) 0
            (Workspace.mk (List.replicate ex_B.num_cols unseen)
              (List.replicate ex_B.num_cols 0) init 0,
             Output.mk ((ex_empty.resize ex_A.num_rows ex_B.num_cols n1).row_offsets.set 0 0)
              (ex_empty.resize ex_A.num_rows ex_B.num_cols n1).column_indices
              (ex_empty.resize ex_A.num_rows ex_B.num_cols n1).values 0) = some (w, cur) ∧
        C.row_offsets[i + 1]? = some cur.num_nonzeros :=
  ⟨ex_A_wellFormed, ex_B_wellFormed, rfl,
    multiply_row_offsets_invariant ex_A_wellFormed ex_B_wellFormed rfl ex_empty⟩

/-- C7: for well-formed CSR matrices `A` (m x k) and `B` (k x n),
`C = multiply(A, B)` has `num_rows = m` and `num_cols = n`, and after the
second resize `column_indices` and `values` have the length returned by the
numeric pass, which ran on arrays sized by the symbolic count. -/
theorem multiply_shape {A B : csr_matrix R} (hA : WellFormed A)
    (hB : WellFormed B) (hdim : A.num_cols = B.num_rows) (C0 : csr_matrix R) :
    ∃ C n1 o, multiply A B C0 = some C ∧
      spmm_csr_pass1 A.num_rows B.num_cols A.row_offsets A.column_indices
        B.row_offsets B.column_indices = some n1 ∧
      spmm_csr_pass2 A.num_rows B.num_cols A.row_offsets A.column_indices A.values
        B.row_offsets B.column_indices B.values
        (C0.resize A.num_rows B.num_cols n1).row_offsets
        (C0.resize A.num_rows B.num_cols n1).column_indices
        (C0.resize A.num_rows B.num_cols n1).values = some o ∧
      C.num_rows = A.num_rows ∧ C.num_cols = B.num_cols ∧
      C.num_entries = o.num_nonzeros ∧
      C.column_indices.length = o.num_nonzeros ∧
      C.values.length = o.num_nonzeros ∧
      o.num_nonzeros ≤ n1 ∧
      o.C_column_indices.length = n1 ∧ o.C_values.length = n1 := by
  have hAB := hA.compatible hdim
  have hle := out_upto_length_le_links A B A.num_rows
  refine ⟨product_csr A B, links_upto A B A.num_rows, _, multiply_spec (hA.readable_of_compatible hAB) hB.readable C0,
    pass1_spec (hA.readable_of_compatible hAB) hB.readable,
    pass2_spec (hA.readable_of_compatible hAB) hB.readable _ _ _ (by simp [csr_matrix.resize, length_resize_array])
      (by simp only [csr_matrix.resize, length_resize_array]; exact hle)
      (by simp only [csr_matrix.resize, length_resize_array]; exact hle),
    rfl, rfl, rfl, by simp [product_csr], by simp [product_csr], hle, ?_, ?_⟩
  · simp only
    rw [length_splice (by
      simp only [csr_matrix.resize, length_resize_array, List.length_map]; omega)]
    simp [csr_matrix.resize, length_resize_array]
  · simp only
    rw [length_splice (by
      simp only [csr_matrix.resize, length_resize_array, List.length_map]; omega)]
    simp [csr_matrix.resize, length_resize_array]

theorem multiply_shape_witness :
    WellFormed ex_cancel_A ∧ WellFormed ex_cancel_B ∧
    ex_cancel_A.num_cols = ex_cancel_B.num_rows ∧
    ∃ C n1 o, multiply ex_cancel_A ex_cancel_B ex_empty = some C ∧
      spmm_csr_pass1 ex_cancel_A.num_rows ex_cancel_B.num_cols ex_cancel_A.row_offsets
        ex_cancel_A.column_indices ex_cancel_B.row_offsets ex_cancel_B.column_indices
        = some n1 ∧
      spmm_csr_pass2 ex_cancel_A.num_rows ex_cancel_B.num_cols ex_cancel_A.row_offsets
        ex_cancel_A.column_indices ex_cancel_A.values ex_cancel_B.row_offsets
        ex_cancel_B.column_indices ex_cancel_B.values
        (ex_empty.resize ex_cancel_A.num_rows ex_cancel_B.num_cols n1).row_offsets
        (ex_empty.resize ex_cancel_A.num_rows ex_cancel_B.num_cols n1).column_indices
        (ex_empty.resize ex_cancel_A.num_rows ex_cancel_B.num_cols n1).values = some o ∧
      C.num_rows = ex_cancel_A.num_rows ∧ C.num_cols = ex_cancel_B.num_cols ∧
      C.num_entries = o.num_nonzeros ∧
      C.column_indices.length = o.num_nonzeros ∧
      C.values.length = o.num_nonzeros ∧
      o.num_nonzeros ≤ n1 ∧
      o.C_column_indices.length = n1 ∧ o.C_values.length = n1 :=
  ⟨ex_cancel_A_wellFormed, ex_cancel_B_wellFormed, rfl,
    multiply_shape ex_cancel_A_wellFormed ex_cancel_B_wellFormed rfl ex_empty⟩

/-- C8, refuted as stated: a matrix that stores an explicit zero, or the same
column twice in a row, is not reproduced by `multiply(A, Identity)`; the zero
is dropped and the two entries are merged, so `row_offsets` differs from that
of `A`. -/
theorem multiply_identity_counterexample :
    (WellFormed ex_stored_zero ∧
      ∃ C, multiply ex_stored_zero (identity Int ex_stored_zero.num_cols) ex_empty = some C ∧
        C.row_offsets = [0, 0] ∧ C.row_offsets ≠ ex_stored_zero.row_offsets) ∧
    (WellFormed ex_duplicate ∧
      ∃ C, multiply ex_duplicate (identity Int ex_duplicate.num_cols) ex_empty = some C ∧
        C.row_offsets = [0, 1] ∧ C.column_indices = [0] ∧ C.values = [3] ∧
        C.row_offsets ≠ ex_duplicate.row_offsets) :=
  ⟨⟨ex_stored_zero_wellFormed,
      { num_rows := 1, num_cols := 1, num_entries := 0, row_offsets := [0, 0],
        column_indices := [], values := [] }, by decide, by decide, by decide⟩,
    ⟨ex_duplicate_wellFormed,
      { num_rows := 1, num_cols := 1, num_entries := 1, row_offsets := [0, 1],
        column_indices := [0], values := [3] },
      by decide, by decide, by decide, by decide, by decide⟩⟩

/-- C8, amended: for a well-formed CSR matrix `A` with `k` columns that stores
no zero value and no column twice in a row, `multiply(A, Identity_k)` has the
row offsets of `A` and, in each row, the entries of `A` in reversed order, so
the same multiset of (column, value) pairs. -/
theorem multiply_identity {A : csr_matrix R} (hA : WellFormed A)
    (hnd : ∀ i, i < A.num_rows → ((A.row i).map Prod.fst).Nodup)
    (hnz : ∀ v ∈ A.values, v ≠ 0) (C0 : csr_matrix R) :
    ∃ C, multiply A (identity R A.num_cols) C0 = some C ∧
      C.num_rows = A.num_rows ∧ C.num_cols = A.num_cols ∧
      C.row_offsets = A.row_offsets ∧
      ∀ i, i < A.num_rows → C.row i = (A.row i).reverse ∧ (C.row i).Perm (A.row i) := by
  have hI : WellFormed (identity R A.num_cols) := identity_wellFormed A.num_cols
  have hAB : ∀ c ∈ A.column_indices, c < (identity R A.num_cols).num_rows :=
    hA.compatible rfl
  refine ⟨product_csr A (identity R A.num_cols), multiply_spec (hA.readable_of_compatible hAB) hI.readable C0, rfl, rfl, ?_, ?_⟩
  · rw [offsets_eq_map hA]
    simp only [product_csr]
    apply List.map_congr_left
    intro r hr
    exact out_upto_identity_length hA hnd hnz (by have := List.mem_range.mp hr; omega)
  · intro i hi
    have hrow : (product_csr A (identity R A.num_cols)).row i = (A.row i).reverse := by
      rw [product_csr_row A _ hi]
      exact row_out_identity hA hi (hnd i hi) (fun e he => hnz _ (hA.row_value_mem hi e he))
    exact ⟨hrow, hrow ▸ List.reverse_perm _⟩

theorem multiply_identity_witness :
    WellFormed ex_A ∧ (∀ i, i < ex_A.num_rows → ((ex_A.row i).map Prod.fst).Nodup) ∧
    (∀ v ∈ ex_A.values, v ≠ 0) ∧
    ∃ C, multiply ex_A (identity Int ex_A.num_cols) ex_empty = some C ∧
      C.num_rows = ex_A.num_rows ∧ C.num_cols = ex_A.num_cols ∧
      C.row_offsets = ex_A.row_offsets ∧
      ∀ i, i < ex_A.num_rows → C.row i = (ex_A.row i).reverse ∧ (C.row i).Perm (ex_A.row i) :=
  ⟨ex_A_wellFormed, by decide, by decide,
    multiply_identity ex_A_wellFormed (by decide) (by decide) ex_empty⟩

/-- C9, refuted as stated: over the value type `double` the product of the
well-formed `1 × 1` matrix holding positive infinity with the `1 × 1` zero
matrix stored with an explicit zero accumulates `inf * 0`, which is NaN and
compares unequal to 0, so `multiply` stores one entry: `num_entries = 1` and
`row_offsets = [0, 1]`. -/
theorem multiply_zero_matrix_counterexample :
    WellFormed ex_infinity ∧ WellFormed ex_zero_double ∧
    ex_infinity.num_cols = ex_zero_double.num_rows ∧
    (∀ b ∈ ex_zero_double.values, b = 0) ∧
    ∃ C, multiply ex_infinity ex_zero_double ex_empty_double = some C ∧
      C.num_entries = 1 ∧ C.row_offsets = [0, 1] ∧ C.column_indices = [0] ∧
      C.values = [double.nan] ∧ C.num_entries ≠ 0 ∧
      C.row_offsets ≠ List.replicate (ex_infinity.num_rows + 1) 0 :=
  ⟨by constructor <;> decide, by constructor <;> decide, rfl, by decide,
    { num_rows := 1, num_cols := 1, num_entries := 1, row_offsets := [0, 1],
      column_indices := [0], values := [double.nan] },
    by decide, by decide, by decide, by decide, by decide, by decide, by decide⟩

/-- C9, amended: over a value type whose arithmetic is that of a ring (exact
arithmetic, so that `x * 0 = 0` for every `x`), for a well-formed `A` (m x k)
and a well-formed `B` (k x n) all of whose stored values are zero (in
particular a `B` without entries), `multiply(A, B)` has `num_entries = 0`,
empty `column_indices` and `values`, and `row_offsets` all zero. -/
theorem multiply_zero_matrix {A B : csr_matrix R} (hA : WellFormed A)
    (hB : WellFormed B) (hdim : A.num_cols = B.num_rows)
    (hzero : ∀ b ∈ B.values, b = 0) (C0 : csr_matrix R) :
    ∃ C, multiply A B C0 = some C ∧ C.num_entries = 0 ∧
      C.column_indices = [] ∧ C.values = [] ∧
      C.row_offsets = List.replicate (A.num_rows + 1) 0 := by
  have hAB := hA.compatible hdim
  have hout := fun (i : Nat) (hi : i ≤ A.num_rows) => out_upto_of_zero hA hB hAB hzero hi
  refine ⟨product_csr A B, multiply_spec (hA.readable_of_compatible hAB) hB.readable C0, ?_, ?_, ?_, ?_⟩
  · simp [product_csr, hout A.num_rows (Nat.le_refl _)]
  · simp [product_csr, hout A.num_rows (Nat.le_refl _)]
  · simp [product_csr, hout A.num_rows (Nat.le_refl _)]
  · simp only [product_csr]
    apply eq_replicate_of_get (by simp)
    intro r hr
    rw [List.getElem?_map, List.getElem?_range hr, Option.map_some',
      hout r (by omega)]
    rfl

theorem multiply_zero_matrix_witness :
    WellFormed ex_A ∧ WellFormed ex_zero_B ∧ ex_A.num_cols = ex_zero_B.num_rows ∧
    (∀ b ∈ ex_zero_B.values, b = 0) ∧
    ∃ C, multiply ex_A ex_zero_B ex_empty = some C ∧ C.num_entries = 0 ∧
      C.column_indices = [] ∧ C.values = [] ∧
      C.row_offsets = List.replicate (ex_A.num_rows + 1) 0 :=
  ⟨ex_A_wellFormed, ex_zero_B_wellFormed, rfl, by decide,
    multiply_zero_matrix ex_A_wellFormed ex_zero_B_wellFormed rfl (by decide) ex_empty⟩

/-- C10, refuted as stated: with `A` of 2 columns and `B` of 1 row `multiply`
raises no error; it returns and overwrites `C`. -/
theorem multiply_dimension_mismatch_counterexample :
    ex_wide.num_cols ≠ ex_one.num_rows ∧
    multiply ex_wide ex_one ex_empty
      = some { num_rows := 1, num_cols := 1, num_entries := 1, row_offsets := [0, 1],
               column_indices := [0], values := [1] } ∧
    multiply ex_wide ex_one ex_empty ≠ none ∧
    multiply ex_wide ex_one ex_empty ≠ some ex_empty := by
  refine ⟨by decide, by decide, by decide, by decide⟩

/-- C10, amended: `multiply` does not compare `A.num_cols` with `B.num_rows`
and has no error path.  For well-formed `A` and `B` in which every stored
column index of `A` is below `B.num_rows`, also when
`A.num_cols ≠ B.num_rows`, it returns and overwrites `C` with the
`A.num_rows x B.num_cols` matrix of the sums of products of stored entries. -/
theorem multiply_without_dimension_check {A B : csr_matrix R} (hA : WellFormed A)
    (hB : WellFormed B) (hAB : ∀ c ∈ A.column_indices, c < B.num_rows)
    (C0 : csr_matrix R) :
    ∃ C, multiply A B C0 = some C ∧ C.num_rows = A.num_rows ∧ C.num_cols = B.num_cols ∧
      ∀ i c, i < A.num_rows → C.entry_sum i c = product_sum A B i c := by
  refine ⟨product_csr A B, multiply_spec (hA.readable_of_compatible hAB) hB.readable C0, rfl, rfl, ?_⟩
  intro i c hi
  rw [entry_sum_eq_col_sum (product_csr A B) (show i < (product_csr A B).num_rows from hi),
    product_csr_row A B hi, col_sum_row_out, product_sum_eq_col_sum (hA.readable_of_compatible hAB) hi]

theorem multiply_without_dimension_check_witness :
    WellFormed ex_wide ∧ WellFormed ex_one ∧
    (∀ c ∈ ex_wide.column_indices, c < ex_one.num_rows) ∧
    ex_wide.num_cols ≠ ex_one.num_rows ∧
    ∃ C, multiply ex_wide ex_one ex_empty = some C ∧ C.num_rows = ex_wide.num_rows ∧
      C.num_cols = ex_one.num_cols ∧
      ∀ i c, i < ex_wide.num_rows → C.entry_sum i c = product_sum ex_wide ex_one i c :=
  ⟨ex_wide_wellFormed, ex_one_wellFormed, by decide, by decide,
    multiply_without_dimension_check ex_wide_wellFormed ex_one_wellFormed (by decide)
      ex_empty⟩

end

section
variable {R : Type} [Ring R] [DecidableEq R]

/-! ## Rows whose columns are distinct -/

theorem row_out_eq_reverse {A B : csr_matrix R} {i : Nat}
    (hnd : ((touches A B i).map Prod.fst).Nodup) (hnz : ∀ t ∈ touches A B i, t.2 ≠ 0) :
    row_out A B i = (touches A B i).reverse := by
  unfold row_out
  rw [chain_of_nodup hnd, ← List.map_reverse]
  apply emitted_map_fst
  intro t ht
  have ht' : t ∈ touches A B i := List.mem_reverse.mp ht
  exact ⟨col_sum_of_nodup hnd ht', hnz t ht'⟩

theorem touches_identity_left {B : csr_matrix R} {k i : Nat} (hi : i < k) :
    touches (identity R k) B i = B.row i := by
  unfold touches
  rw [identity_row hi]
  simp

/-! ## The rows of a well-formed matrix are the slices of its arrays -/

theorem entry_eq_zip {M : csr_matrix R} (h : WellFormed M) {p : Nat}
    (hp : p < M.num_entries) :
    (M.column_indices.zip M.values)[p]? = some (M.entry p) := by
  simp only [List.getElem?_zip_eq_some, h.column_get hp, h.value_get hp, and_self]

theorem rows_upto_eq_take {M : csr_matrix R} (h : WellFormed M) {r : Nat}
    (hr : r ≤ M.num_rows) :
    (List.range r).flatMap M.row = (M.column_indices.zip M.values).take (M.offset r) := by
  induction r with
  | zero => rw [h.offset_zero]; rfl
  | succ r ih =>
    have hmono : M.offset r ≤ M.offset (r + 1) := h.offset_mono (Nat.le_succ r) hr
    have hle : M.offset (r + 1) ≤ M.num_entries := h.offset_le_entries hr
    rw [List.range_succ, List.flatMap_append, ih (by omega)]
    simp only [List.flatMap_cons, List.flatMap_nil, List.append_nil]
    apply List.ext_getElem?
    intro t
    by_cases ht : t < M.offset r
    · rw [List.getElem?_append_left (by
        rw [List.length_take, List.length_zip, h.columns_length, h.values_length]; omega),
        List.getElem?_take_of_lt ht, List.getElem?_take_of_lt (by omega)]
    · have hlen : ((M.column_indices.zip M.values).take (M.offset r)).length = M.offset r := by
        rw [List.length_take, List.length_zip, h.columns_length, h.values_length]; omega
      rw [List.getElem?_append_right (by rw [hlen]; omega), hlen]
      by_cases ht2 : t < M.offset (r + 1)
      · rw [List.getElem?_take_of_lt ht2, entry_eq_zip h (by omega)]
        simp only [csr_matrix.row, List.getElem?_map]
        have ht3 : t - M.offset r < M.offset (r + 1) - M.offset r := by omega
        rw [List.getElem?_range' (M.offset r) 1 ht3]
        simp only [Nat.one_mul, Option.map_some']
        congr 2
        omega
      · rw [List.getElem?_eq_none (by simp [csr_matrix.row]; omega),
          List.getElem?_eq_none (by
            rw [List.length_take, List.length_zip, h.columns_length, h.values_length]
            omega)]

theorem rows_eq_zip {M : csr_matrix R} (h : WellFormed M) :
    (List.range M.num_rows).flatMap M.row = M.column_indices.zip M.values := by
  rw [rows_upto_eq_take h (Nat.le_refl _), h.offset_last]
  apply List.take_of_length_le
  rw [List.length_zip, h.columns_length, h.values_length]
  simp

theorem rows_upto_length {M : csr_matrix R} (h : WellFormed M) {r : Nat}
    (hr : r ≤ M.num_rows) : ((List.range r).flatMap M.row).length = M.offset r := by
  rw [rows_upto_eq_take h hr, List.length_take, List.length_zip, h.columns_length,
    h.values_length]
  have := h.offset_le_entries hr
  omega

theorem out_upto_congr {A B M : csr_matrix R} {r : Nat}
    (h : ∀ i, i < r → row_out A B i = M.row i) :
    out_upto A B r = (List.range r).flatMap M.row := by
  unfold out_upto
  induction r with
  | zero => rfl
  | succ r ih =>
    rw [List.range_succ, List.flatMap_append, List.flatMap_append,
      ih (fun i hi => h i (by omega))]
    simp [h r (Nat.lt_succ_self r)]

end

section
variable {R : Type} [Ring R] [DecidableEq R]

/-! ## First-touch order and the walk along `next` -/

theorem first_touch_order_append_singleton (cols : List Nat) (c : Nat) :
    first_touch_order (cols ++ [c])
      = if c ∈ first_touch_order cols then first_touch_order cols
        else first_touch_order cols ++ [c] := by
  simp [first_touch_order, List.foldl_append]

theorem chain_eq_reverse_first_touch (cols : List Nat) :
    chain cols = (first_touch_order cols).reverse := by
  induction cols using List.reverseRecOn with
  | nil => rfl
  | append_singleton xs x ih =>
    rw [chain_append_singleton, first_touch_order_append_singleton, ih, chain_step]
    by_cases h : x ∈ first_touch_order xs
    · rw [if_pos (List.mem_reverse.mpr h), if_pos h]
    · rw [if_neg (fun hm => h (List.mem_reverse.mp hm)), if_neg h]
      simp

theorem mem_first_touch_order {cols : List Nat} {c : Nat} :
    c ∈ first_touch_order cols ↔ c ∈ cols := by
  rw [← List.mem_reverse, ← chain_eq_reverse_first_touch, mem_chain]

theorem first_touch_order_nodup (cols : List Nat) : (first_touch_order cols).Nodup := by
  rw [← List.nodup_reverse, ← chain_eq_reverse_first_touch]
  exact chain_nodup cols

theorem follow_linked {next : List Int} (ch : List Nat) (h : Linked next ch) :
    follow next ch.length (head_of ch) = some (ch, init) := by
  induction ch with
  | nil => rfl
  | cons c rest ih =>
    have hnot : ¬ ((c : Int) < 0) := by omega
    have e := ih h.2
    have hn : next[c]? = some (head_of rest) := h.1
    show follow next (rest.length + 1) (c : Int) = some (c :: rest, init)
    rw [follow]
    simp only [hnot, if_false, Int.toNat_ofNat, hn, e]

theorem Linked.pairs {next : List Int} {ch : List Nat} (h : Linked next ch) :
    ∀ p ∈ ch.zip ch.tail, next[p.1]? = some (p.2 : Int) := by
  induction ch with
  | nil => intro p hp; simp at hp
  | cons c rest ih =>
    cases rest with
    | nil => intro p hp; simp at hp
    | cons d rest2 =>
      intro p hp
      simp only [List.tail_cons, List.zip_cons_cons, List.mem_cons] at hp
      rcases hp with rfl | hp
      · exact h.1
      · exact ih h.2 p (by simpa using hp)

theorem Linked.last {next : List Int} {ch : List Nat} (h : Linked next ch) :
    ∀ c, ch.getLast? = some c → next[c]? = some init := by
  induction ch with
  | nil => intro c hc; simp at hc
  | cons a rest ih =>
    cases rest with
    | nil =>
      intro c hc
      simp only [List.getLast?_singleton, Option.some.injEq] at hc
      subst hc
      exact h.1
    | cons d rest2 =>
      intro c hc
      rw [List.getLast?_cons_cons] at hc
      exact ih h.2 c hc

/-! ## Sums of positive integers -/

theorem col_sum_pos {ts : List (Nat × Int)} (h : ∀ t ∈ ts, 0 < t.2) {c : Nat}
    (hc : c ∈ ts.map Prod.fst) : 0 < col_sum ts c := by
  have hnonneg : ∀ (us : List (Nat × Int)), (∀ t ∈ us, 0 < t.2) → 0 ≤ col_sum us c := by
    intro us hus
    induction us with
    | nil => simp [col_sum]
    | cons a rest ih =>
      rw [col_sum_cons]
      have h1 := hus a (List.mem_cons_self _ _)
      have h2 := ih (fun t ht => hus t (List.mem_cons_of_mem _ ht))
      split <;> omega
  induction ts with
  | nil => simp at hc
  | cons a rest ih =>
    rw [col_sum_cons]
    have h1 := h a (List.mem_cons_self _ _)
    have h2 := hnonneg rest (fun t ht => h t (List.mem_cons_of_mem _ ht))
    by_cases e : a.1 = c
    · rw [if_pos e]; omega
    · rw [if_neg e]
      simp only [List.map_cons, List.mem_cons] at hc
      rcases hc with hc | hc
      · exact absurd hc.symm e
      · have := ih (fun t ht => h t (List.mem_cons_of_mem _ ht)) hc
        omega

theorem touches_values_pos {A B : csr_matrix Int} (hA : WellFormed A) (hB : WellFormed B)
    (hdim : A.num_cols = B.num_rows) (hpA : ∀ v ∈ A.values, 0 < v)
    (hpB : ∀ v ∈ B.values, 0 < v) {i : Nat} (hi : i < A.num_rows) :
    ∀ t ∈ touches A B i, 0 < t.2 := by
  intro t ht
  simp only [touches, List.mem_flatMap, List.mem_map] at ht
  obtain ⟨e, he, f, hf, rfl⟩ := ht
  have hj : e.1 < B.num_rows := hdim ▸ hA.row_column_lt hi e he
  exact Int.mul_pos (hpA _ (hA.row_value_mem hi e he)) (hpB _ (hB.row_value_mem hj f hf))

/-! ## Exactness of the symbolic count -/

theorem emitted_length_of_ne_zero (f : Nat → R) (ch : List Nat) (h : ∀ c ∈ ch, f c ≠ 0) :
    (emitted f ch).length = ch.length := by
  induction ch with
  | nil => rfl
  | cons a rest ih =>
    rw [emitted_cons, if_pos (h a (List.mem_cons_self _ _)), List.length_cons,
      ih (fun c hc => h c (List.mem_cons_of_mem _ hc)), List.length_cons]

theorem out_upto_length_eq_links {A B : csr_matrix R} {r : Nat}
    (h : ∀ i c, i < r → c ∈ (touches A B i).map Prod.fst → col_sum (touches A B i) c ≠ 0) :
    (out_upto A B r).length = links_upto A B r := by
  induction r with
  | zero => simp [out_upto_zero, links_upto]
  | succ r ih =>
    rw [out_upto_succ, links_upto_succ, List.length_append,
      ih (fun i c hi hc => h i c (by omega) hc)]
    unfold row_out
    rw [emitted_length_of_ne_zero _ _
      (fun c hc => h r c (Nat.lt_succ_self r) (mem_chain.mp hc))]

end

theorem ex_diagonal_wellFormed : WellFormed ex_diagonal := by constructor <;> decide

theorem ex_empty_row_wellFormed : WellFormed ex_empty_row := by constructor <;> decide

theorem ex_offsets_shifted_readable : Readable ex_offsets_shifted ex_one.num_rows := by
  constructor <;> decide

theorem ex_offsets_decreasing_readable : Readable ex_offsets_decreasing ex_one.num_rows := by
  constructor <;> decide

section
variable {R : Type} [Ring R] [DecidableEq R]

theorem reverse_of_length_le_one {α : Type} (l : List α) (h : l.length ≤ 1) :
    l.reverse = l := by
  match l, h with
  | [], _ => rfl
  | [_], _ => rfl

theorem nodup_of_length_le_one {α : Type} (l : List α) (h : l.length ≤ 1) : l.Nodup := by
  match l, h with
  | [], _ => exact List.nodup_nil
  | [a], _ => exact List.nodup_singleton a

theorem product_identity_left {B : csr_matrix R} (hB : WellFormed B)
    (hone : ∀ i, i < B.num_rows → (B.row i).length ≤ 1) (hnz : ∀ v ∈ B.values, v ≠ 0) :
    product_csr (identity R B.num_rows) B = B := by
  have hrow : ∀ i, i < B.num_rows → row_out (identity R B.num_rows) B i = B.row i := by
    intro i hi
    have ht : touches (identity R B.num_rows) B i = B.row i := touches_identity_left hi
    rw [row_out_eq_reverse
      (by rw [ht]; exact nodup_of_length_le_one _ (by simpa using hone i hi))
      (by rw [ht]; exact fun t h => hnz _ (hB.row_value_mem hi t h)), ht]
    exact reverse_of_length_le_one _ (hone i hi)
  have hout : ∀ r, r ≤ B.num_rows →
      out_upto (identity R B.num_rows) B r = (List.range r).flatMap B.row :=
    fun r hr => out_upto_congr (fun i hi => hrow i (by omega))
  have hlen : (B.column_indices.zip B.values).length = B.num_entries := by
    rw [List.length_zip, hB.columns_length, hB.values_length]; simp
  have h1 : (List.range (B.num_rows + 1)).map
      (fun r => (out_upto (identity R B.num_rows) B r).length) = B.row_offsets := by
    rw [offsets_eq_map hB]
    apply List.map_congr_left
    intro r hr
    have hr' : r ≤ B.num_rows := by have := List.mem_range.mp hr; omega
    rw [hout r hr', rows_upto_length hB hr']
  have h2 : out_upto (identity R B.num_rows) B B.num_rows = B.column_indices.zip B.values := by
    rw [hout _ (Nat.le_refl _), rows_eq_zip hB]
  have h3 : (B.column_indices.zip B.values).map Prod.fst = B.column_indices :=
    List.map_fst_zip _ _ (by rw [hB.columns_length, hB.values_length])
  have h4 : (B.column_indices.zip B.values).map Prod.snd = B.values :=
    List.map_snd_zip _ _ (by rw [hB.columns_length, hB.values_length])
  have hid : (identity R B.num_rows).num_rows = B.num_rows := rfl
  unfold product_csr
  rw [hid, h1, h2, h3, h4, hlen]

/-! ## Main results, continued -/

/-- C11, refuted as stated: `multiply` does not reject malformed `row_offsets`.
With offsets `[1, 2]` (not starting at 0) and with offsets `[0, 2, 1]` (decreasing,
not ending at the entry count 2) it returns a matrix and overwrites `C`. -/
theorem multiply_malformed_offsets_counterexample :
    (¬ WellFormed ex_offsets_shifted ∧
      multiply ex_offsets_shifted ex_one ex_empty
        = some { num_rows := 1, num_cols := 1, num_entries := 1, row_offsets := [0, 1],
                 column_indices := [0], values := [7] }) ∧
    (¬ WellFormed ex_offsets_decreasing ∧
      multiply ex_offsets_decreasing ex_one ex_empty
        = some { num_rows := 2, num_cols := 1, num_entries := 1, row_offsets := [0, 1, 1],
                 column_indices := [0], values := [12] }) ∧
    multiply ex_offsets_shifted ex_one ex_empty ≠ none ∧
    multiply ex_offsets_decreasing ex_one ex_empty ≠ some ex_empty :=
  ⟨⟨fun h => absurd h.offsets_first (by decide), by decide⟩,
    ⟨fun h => absurd h.offsets_last (by decide), by decide⟩, by decide, by decide⟩

/-- C11, amended: `multiply` does not validate `row_offsets` and has no failure
path for them.  Whenever the offsets `row_offsets[0..num_rows]` of `A` and `B`
exist and every row range `row_offsets[i] ≤ p < row_offsets[i+1]` stays inside
`column_indices` and `values` and holds column indices in range (below
`B.num_rows` for `A`, below `B.num_cols` for `B`), also when the offsets are
not non-decreasing, do not start at 0 or do not end at the entry count,
`multiply` returns and overwrites `C` with the `A.num_rows x B.num_cols`
product of the rows that the offsets delimit. -/
theorem multiply_without_offset_validation {A B : csr_matrix R}
    (hA : Readable A B.num_rows) (hB : Readable B B.num_cols) (C0 : csr_matrix R) :
    ∃ C, multiply A B C0 = some C ∧ C.num_rows = A.num_rows ∧ C.num_cols = B.num_cols ∧
      C.row_offsets.length = A.num_rows + 1 ∧
      ∀ i c, i < A.num_rows → C.entry_sum i c = product_sum A B i c := by
  refine ⟨product_csr A B, multiply_spec hA hB C0, rfl, rfl, by simp [product_csr], ?_⟩
  intro i c hi
  rw [entry_sum_eq_col_sum (product_csr A B) (show i < (product_csr A B).num_rows from hi),
    product_csr_row A B hi, col_sum_row_out, product_sum_eq_col_sum hA hi]

theorem multiply_without_offset_validation_witness :
    Readable ex_offsets_decreasing ex_one.num_rows ∧ Readable ex_one ex_one.num_cols ∧
    ¬ WellFormed ex_offsets_decreasing ∧
    ∃ C, multiply ex_offsets_decreasing ex_one ex_empty = some C ∧
      C.num_rows = ex_offsets_decreasing.num_rows ∧ C.num_cols = ex_one.num_cols ∧
      C.row_offsets.length = ex_offsets_decreasing.num_rows + 1 ∧
      ∀ i c, i < ex_offsets_decreasing.num_rows →
        C.entry_sum i c = product_sum ex_offsets_decreasing ex_one i c :=
  ⟨ex_offsets_decreasing_readable, ex_one_wellFormed.readable,
    fun h => absurd h.offsets_last (by decide),
    multiply_without_offset_validation ex_offsets_decreasing_readable
      ex_one_wellFormed.readable ex_empty⟩

/-- C12: for a well-formed CSR matrix `B` with `m` rows in which every row
holds at most one stored entry and no stored value is zero,
`multiply(I_m, B)` returns `B` itself: the same shape and identical
`row_offsets`, `column_indices` and `values`.  For the 2 x 2 identity and `B`
with entries `(0,0) = 2`, `(1,1) = 3` this gives `row_offsets = [0,1,2]`,
`column_indices = [0,1]`, `values = [2,3]`. -/
theorem multiply_identity_left {B : csr_matrix R} (hB : WellFormed B)
    (hone : ∀ i, i < B.num_rows → (B.row i).length ≤ 1) (hnz : ∀ v ∈ B.values, v ≠ 0)
    (C0 : csr_matrix R) :
    multiply (identity R B.num_rows) B C0 = some B ∧
    ∀ C1 : csr_matrix Int, multiply (identity Int 2) ex_diagonal C1
      = some { num_rows := 2, num_cols := 2, num_entries := 2, row_offsets := [0, 1, 2],
               column_indices := [0, 1], values := [2, 3] } := by
  constructor
  · rw [multiply_spec (identity_wellFormed B.num_rows).readable hB.readable C0,
      product_identity_left hB hone hnz]
  · intro C1
    rw [multiply_spec (identity_wellFormed 2).readable ex_diagonal_wellFormed.readable C1]
    decide

theorem multiply_identity_left_witness :
    WellFormed ex_diagonal ∧ (∀ i, i < ex_diagonal.num_rows → (ex_diagonal.row i).length ≤ 1) ∧
    (∀ v ∈ ex_diagonal.values, v ≠ 0) ∧
    multiply (identity Int ex_diagonal.num_rows) ex_diagonal ex_empty = some ex_diagonal :=
  ⟨ex_diagonal_wellFormed, by decide, by decide,
    (multiply_identity_left ex_diagonal_wellFormed (by decide) (by decide) ex_empty).1⟩

/-- C13: for `A = [[1,2],[0,1]]` and `B = [[1,0],[2,1]]` in the stated CSR
storage, `multiply(A, B)` yields, whatever `C` held before, a 2 x 2 matrix with
`row_offsets = [0,2,4]` whose rows, once sorted by column, read
`column_indices = [0,1,0,1]`, `values = [5,2,2,1]`, that is `[[5,2],[2,1]]`. -/
theorem multiply_example_product (C0 : csr_matrix Int) :
    ∃ C, multiply ex_A ex_B C0 = some C ∧ C.num_rows = 2 ∧ C.num_cols = 2 ∧
      C.num_entries = 4 ∧ C.row_offsets = [0, 2, 4] ∧
      C.sorted_rows.map Prod.fst = [0, 1, 0, 1] ∧
      C.sorted_rows.map Prod.snd = [5, 2, 2, 1] ∧
      C.entry_sum 0 0 = 5 ∧ C.entry_sum 0 1 = 2 ∧ C.entry_sum 1 0 = 2 ∧
      C.entry_sum 1 1 = 1 := by
  refine ⟨product_csr ex_A ex_B,
    multiply_spec (ex_A_wellFormed.readable_of_compatible (ex_A_wellFormed.compatible rfl))
      ex_B_wellFormed.readable C0, ?_⟩
  decide

/-- C14: `multiply` is a function of `A` and `B` only.  For well-formed inputs
and any two prior states of `C` the two runs return the same matrix, and the
numeric pass run on any two sets of output arrays of sufficient size returns
the same count, the same first `num_rows + 1` offsets and the same first
`count` columns and values: every position that survives the final resize was
written by the run. -/
theorem multiply_independent_of_prior {A B : csr_matrix R} (hA : WellFormed A)
    (hB : WellFormed B) (hdim : A.num_cols = B.num_rows) (C0 C1 : csr_matrix R) :
    (∃ C, multiply A B C0 = some C ∧ multiply A B C1 = some C) ∧
    ∃ n1, spmm_csr_pass1 A.num_rows B.num_cols A.row_offsets A.column_indices
        B.row_offsets B.column_indices = some n1 ∧
      ∀ (ro ci : List Nat) (cv : List R) (ro1 ci1 : List Nat) (cv1 : List R),
        A.num_rows + 1 ≤ ro.length → n1 ≤ ci.length → n1 ≤ cv.length →
        A.num_rows + 1 ≤ ro1.length → n1 ≤ ci1.length → n1 ≤ cv1.length →
        ∃ o o1,
          spmm_csr_pass2 A.num_rows B.num_cols A.row_offsets A.column_indices A.values
            B.row_offsets B.column_indices B.values ro ci cv = some o ∧
          spmm_csr_pass2 A.num_rows B.num_cols A.row_offsets A.column_indices A.values
            B.row_offsets B.column_indices B.values ro1 ci1 cv1 = some o1 ∧
          o.num_nonzeros = o1.num_nonzeros ∧
          o.C_row_offsets.take (A.num_rows + 1) = o1.C_row_offsets.take (A.num_rows + 1) ∧
          o.C_column_indices.take o.num_nonzeros
            = o1.C_column_indices.take o.num_nonzeros ∧
          o.C_values.take o.num_nonzeros = o1.C_values.take o.num_nonzeros := by
  have rA := hA.readable_of_compatible (hA.compatible hdim)
  have rB := hB.readable
  have hle := out_upto_length_le_links A B A.num_rows
  refine ⟨⟨product_csr A B, multiply_spec rA rB C0, multiply_spec rA rB C1⟩,
    links_upto A B A.num_rows, pass1_spec rA rB, ?_⟩
  intro ro ci cv ro1 ci1 cv1 h1 h2 h3 h4 h5 h6
  refine ⟨_, _, pass2_spec rA rB ro ci cv h1 (by omega) (by omega),
    pass2_spec rA rB ro1 ci1 cv1 h4 (by omega) (by omega), rfl, ?_, ?_, ?_⟩
  · simp [splice]
  · simp [splice]
  · simp [splice]

theorem multiply_independent_of_prior_witness :
    WellFormed ex_A ∧ WellFormed ex_B ∧ ex_A.num_cols = ex_B.num_rows ∧
    ∃ C, multiply ex_A ex_B ex_empty = some C ∧ multiply ex_A ex_B ex_duplicate = some C :=
  ⟨ex_A_wellFormed, ex_B_wellFormed, rfl,
    (multiply_independent_of_prior ex_A_wellFormed ex_B_wellFormed rfl ex_empty
      ex_duplicate).1⟩

end

section
variable {R : Type} [Ring R] [DecidableEq R]

/-! ## Facts on the emitted rows and on the list nodes -/

theorem emitted_columns_sublist (f : Nat → R) (ch : List Nat) :
    ((emitted f ch).map Prod.fst).Sublist ch := by
  induction ch with
  | nil => exact List.Sublist.refl _
  | cons a rest ih =>
    rw [emitted_cons]
    by_cases hz : f a = 0
    · rw [if_neg (by simpa using hz)]
      exact ih.cons a
    · rw [if_pos hz, List.map_cons]
      exact ih.cons₂ a

theorem row_out_columns_nodup (A B : csr_matrix R) (i : Nat) :
    ((row_out A B i).map Prod.fst).Nodup :=
  (chain_nodup _).sublist (emitted_columns_sublist _ _)

theorem head_of_cases (ch : List Nat) : head_of ch = init ∨ 0 ≤ head_of ch := by
  cases ch with
  | nil => exact Or.inl rfl
  | cons c rest =>
    right
    simp only [head_of]
    omega

theorem Linked.next_cases {next : List Int} {ch : List Nat} (h : Linked next ch)
    {c : Nat} (hc : c ∈ ch) :
    ∃ v, next[c]? = some v ∧ v ≠ unseen ∧ (v = init ∨ 0 ≤ v) := by
  induction ch with
  | nil => simp at hc
  | cons a rest ih =>
    rcases List.mem_cons.mp hc with rfl | hmem
    · exact ⟨_, h.1, head_of_ne_unseen rest, head_of_cases rest⟩
    · exact ih h.2 hmem

theorem touches_of_row_nil {A B : csr_matrix R} {i : Nat} (h : A.row i = []) :
    touches A B i = [] := by
  simp [touches, h]

theorem resize_array_self {α : Type} (d : α) (xs : List α) :
    resize_array d xs xs.length = xs := by
  simp [resize_array]

/-! ## Main results, continued -/

/-- C15: for well-formed inputs, also when a row stores the same column several
times, every row of `C = multiply(A, B)` holds each column index at most once.
The reason: the accumulation loops of row `i` are the fold of the one-column
step over the contributions of the row; after any initial part of them the
`next` entry of every column touched so far is the list-end sentinel or a
column index, never `unseen`; and on a column whose `next` entry is not
`unseen` the loop body changes `sums` only, so the column is not linked
again. -/
theorem rows_hold_each_column_once {A B : csr_matrix R} (hA : WellFormed A)
    (hB : WellFormed B) (hdim : A.num_cols = B.num_rows) (C0 : csr_matrix R) :
    (∃ C, multiply A B C0 = some C ∧
      ∀ i, i < A.num_rows → ((C.row i).map Prod.fst).Nodup) ∧
    (∀ i, i < A.num_rows →
      forLoop (pass2_jj_body A.column_indices A.values B.row_offsets B.column_indices
          B.values) (A.offset (i + 1) - A.offset i) (A.offset i)
          (Workspace.mk (List.replicate B.num_cols unseen) (List.replicate B.num_cols 0)
            init 0)
        = some ((touches A B i).foldl touch_step
            (Workspace.mk (List.replicate B.num_cols unseen)
              (List.replicate B.num_cols 0) init 0))) ∧
    (∀ i, i < A.num_rows → ∀ ts rest, touches A B i = ts ++ rest →
      ∀ c ∈ ts.map Prod.fst, ∃ v,
        (ts.foldl touch_step
          (Workspace.mk (List.replicate B.num_cols unseen) (List.replicate B.num_cols 0)
            init 0)).next[c]? = some v ∧ v ≠ unseen ∧ (v = init ∨ 0 ≤ v)) ∧
    (∀ (v : R) (kk k : Nat) (b s : R) (nx : Int) (w : Workspace R),
      B.column_indices[kk]? = some k → B.values[kk]? = some b →
      w.sums[k]? = some s → w.next[k]? = some nx → nx ≠ unseen →
      pass2_kk_body B.column_indices B.values v kk w
        = some (Workspace.mk w.next (w.sums.set k (s + v * b)) w.head w.length)) := by
  have rA := hA.readable_of_compatible (hA.compatible hdim)
  have rB := hB.readable
  refine ⟨⟨product_csr A B, multiply_spec rA rB C0, ?_⟩, ?_, ?_, ?_⟩
  · intro i hi
    rw [product_csr_row A B hi]
    exact row_out_columns_nodup A B i
  · intro i hi
    exact (pass2_jj_loop rA rB hi ⟨by simp, by simp⟩).1
  · intro i hi ts rest hts c hc
    have hlt : ∀ t ∈ ts, t.1 < B.num_cols := fun t ht =>
      touches_column_lt rA rB hi t (by rw [hts]; exact List.mem_append_left _ ht)
    exact (rowInv_foldl B.num_cols ts hlt).linked.next_cases (mem_chain.mpr hc)
  · intro v kk k b s nx w h1 h2 h3 h4 h5
    simp only [pass2_kk_body, h1, h2, h3, h4, h5, if_false]

theorem rows_hold_each_column_once_witness :
    WellFormed ex_duplicate ∧ WellFormed ex_one ∧ ex_duplicate.num_cols = ex_one.num_rows ∧
    ∃ C, multiply ex_duplicate ex_one ex_empty = some C ∧
      ∀ i, i < ex_duplicate.num_rows → ((C.row i).map Prod.fst).Nodup :=
  ⟨ex_duplicate_wellFormed, ex_one_wellFormed, rfl,
    (rows_hold_each_column_once ex_duplicate_wellFormed ex_one_wellFormed rfl ex_empty).1⟩

/-- C16: for well-formed inputs and output arrays that hold the symbolic count,
the row loop of `spmm_csr_pass2` returns after any number `i` of rows, and in
the state it returns, before the first row (`i = 0`) and after the commit of
each row, every entry of `next` is `unseen` and every entry of `sums` is 0. -/
theorem workspace_clean_between_rows {A B : csr_matrix R} (hA : WellFormed A)
    (hB : WellFormed B) (hdim : A.num_cols = B.num_rows) (n1 : Nat)
    (h1 : spmm_csr_pass1 A.num_rows B.num_cols A.row_offsets A.column_indices
        B.row_offsets B.column_indices = some n1)
    (ro ci : List Nat) (cv : List R) (hro : A.num_rows + 1 ≤ ro.length)
    (hci : n1 ≤ ci.length) (hcv : n1 ≤ cv.length) :
    ∀ i, i ≤ A.num_rows → ∃ w o,
      forLoop (pass2_row A.row_offsets A.column_indices A.values B.row_offsets
          B.column_indices B.values) i 0
          (Workspace.mk (List.replicate B.num_cols unseen) (List.replicate B.num_cols 0)
            init 0,
           Output.mk (ro.set 0 0) ci cv 0) = some (w, o) ∧
      w.next = List.replicate B.num_cols unseen ∧
      w.sums = List.replicate B.num_cols 0 := by
  have rA := hA.readable_of_compatible (hA.compatible hdim)
  have rB := hB.readable
  rw [pass1_spec rA rB] at h1
  have hn := Option.some.inj h1
  intro i hi
  have hlen : (out_upto A B i).length ≤ n1 := by
    rw [← hn]
    exact Nat.le_trans (out_upto_length_mono A B hi) (out_upto_length_le_links A B _)
  obtain ⟨w, hw, hnext, hsums⟩ := pass2_rows_spec rA rB ro ci cv hi (by omega) (by omega)
    (by omega)
  exact ⟨w, _, hw, hnext, hsums⟩

theorem workspace_clean_between_rows_witness :
    WellFormed ex_A ∧ WellFormed ex_B ∧ ex_A.num_cols = ex_B.num_rows ∧
    spmm_csr_pass1 ex_A.num_rows ex_B.num_cols ex_A.row_offsets ex_A.column_indices
      ex_B.row_offsets ex_B.column_indices = some 4 ∧
    ∀ i, i ≤ ex_A.num_rows → ∃ w o,
      forLoop (pass2_row ex_A.row_offsets ex_A.column_indices ex_A.values ex_B.row_offsets
          ex_B.column_indices ex_B.values) i 0
          (Workspace.mk (List.replicate ex_B.num_cols unseen)
            (List.replicate ex_B.num_cols 0) init 0,
           Output.mk ([9, 9, 9].set 0 0) [8, 8, 8, 8] [7, 7, 7, 7] 0) = some (w, o) ∧
      w.next = List.replicate ex_B.num_cols unseen ∧
      w.sums = List.replicate ex_B.num_cols 0 :=
  ⟨ex_A_wellFormed, ex_B_wellFormed, rfl, by decide,
    workspace_clean_between_rows ex_A_wellFormed ex_B_wellFormed rfl 4 (by decide)
      [9, 9, 9] [8, 8, 8, 8] [7, 7, 7, 7] (by decide) (by decide) (by decide)⟩

/-- C17: for well-formed inputs and any row `i`, the accumulation loops started
on a clean workspace return a workspace in which following
`head -> next[head] -> ...` for `length` steps visits the distinct columns
touched in the row, each once, most recent first touch first, and then
reaches the list-end sentinel `init`; `length` is their number; `next` maps
each of them to the column first touched immediately before it, the first
touched one to `init`, and every untouched column to `unseen`. -/
theorem linked_list_after_accumulation {A B : csr_matrix R} (hA : WellFormed A)
    (hB : WellFormed B) (hdim : A.num_cols = B.num_rows) {i : Nat} (hi : i < A.num_rows) :
    ∃ w,
      forLoop (pass2_jj_body A.column_indices A.values B.row_offsets B.column_indices
          B.values) (A.offset (i + 1) - A.offset i) (A.offset i)
          (Workspace.mk (List.replicate B.num_cols unseen) (List.replicate B.num_cols 0)
            init 0) = some w ∧
      follow w.next w.length w.head
        = some ((first_touch_order ((touches A B i).map Prod.fst)).reverse, init) ∧
      w.length = (first_touch_order ((touches A B i).map Prod.fst)).length ∧
      (first_touch_order ((touches A B i).map Prod.fst)).Nodup ∧
      (∀ c, c ∈ first_touch_order ((touches A B i).map Prod.fst)
        ↔ c ∈ (touches A B i).map Prod.fst) ∧
      (∀ p ∈ ((first_touch_order ((touches A B i).map Prod.fst)).reverse).zip
          ((first_touch_order ((touches A B i).map Prod.fst)).reverse).tail,
        w.next[p.1]? = some (p.2 : Int)) ∧
      (∀ c, (first_touch_order ((touches A B i).map Prod.fst)).head? = some c →
        w.next[c]? = some init) ∧
      (∀ c, c < B.num_cols → c ∉ (touches A B i).map Prod.fst →
        w.next[c]? = some unseen) := by
  have rA := hA.readable_of_compatible (hA.compatible hdim)
  have rB := hB.readable
  have hts := touches_column_lt rA rB hi
  have hinv := rowInv_foldl B.num_cols (touches A B i) hts
  have hloop := (pass2_jj_loop rA rB hi
    (w := Workspace.mk (List.replicate B.num_cols unseen) (List.replicate B.num_cols 0)
      init 0) ⟨by simp, by simp⟩).1
  have hch := chain_eq_reverse_first_touch ((touches A B i).map Prod.fst)
  have hlinked := hinv.linked
  rw [hch] at hlinked
  refine ⟨_, hloop, ?_, ?_, first_touch_order_nodup _, fun c => mem_first_touch_order,
    hlinked.pairs, ?_, ?_⟩
  · have := follow_linked _ hlinked
    rw [hinv.length_eq, hinv.head_eq, hch]
    exact this
  · rw [hinv.length_eq, hch, List.length_reverse]
  · intro c hc
    apply hlinked.last
    rw [List.getLast?_reverse]
    exact hc
  · intro c hc hcn
    exact hinv.untouched c hc (fun hm => hcn (mem_chain.mp hm))

theorem linked_list_after_accumulation_witness :
    WellFormed ex_A ∧ WellFormed ex_B ∧ ex_A.num_cols = ex_B.num_rows ∧
    ∃ w,
      forLoop (pass2_jj_body ex_A.column_indices ex_A.values ex_B.row_offsets
          ex_B.column_indices ex_B.values) (ex_A.offset (0 + 1) - ex_A.offset 0)
          (ex_A.offset 0)
          (Workspace.mk (List.replicate ex_B.num_cols unseen)
            (List.replicate ex_B.num_cols 0) init 0) = some w ∧
      follow w.next w.length w.head
        = some ((first_touch_order ((touches ex_A ex_B 0).map Prod.fst)).reverse, init) ∧
      w.length = (first_touch_order ((touches ex_A ex_B 0).map Prod.fst)).length ∧
      (first_touch_order ((touches ex_A ex_B 0).map Prod.fst)).Nodup ∧
      (∀ c, c ∈ first_touch_order ((touches ex_A ex_B 0).map Prod.fst)
        ↔ c ∈ (touches ex_A ex_B 0).map Prod.fst) ∧
      (∀ p ∈ ((first_touch_order ((touches ex_A ex_B 0).map Prod.fst)).reverse).zip
          ((first_touch_order ((touches ex_A ex_B 0).map Prod.fst)).reverse).tail,
        w.next[p.1]? = some (p.2 : Int)) ∧
      (∀ c, (first_touch_order ((touches ex_A ex_B 0).map Prod.fst)).head? = some c →
        w.next[c]? = some init) ∧
      (∀ c, c < ex_B.num_cols → c ∉ (touches ex_A ex_B 0).map Prod.fst →
        w.next[c]? = some unseen) :=
  ⟨ex_A_wellFormed, ex_B_wellFormed, rfl,
    linked_list_after_accumulation ex_A_wellFormed ex_B_wellFormed rfl (by decide)⟩

end

section
variable {R : Type} [Ring R] [DecidableEq R]

/-- C18: for well-formed inputs, a row `i` of `A` without stored entries leaves
the state of the row loop of `spmm_csr_pass1` unchanged, so it adds nothing to
the count, and its number of touched columns is 0; the row body of
`spmm_csr_pass2` writes nothing to `C_column_indices` and `C_values`, keeps
the cursor and stores it in `C_row_offsets[i+1]`; in `C = multiply(A, B)` row
`i` is empty and `row_offsets[i+1] = row_offsets[i]`. -/
theorem empty_row_contributes_nothing {A B : csr_matrix R} (hA : WellFormed A)
    (hB : WellFormed B) (hdim : A.num_cols = B.num_rows) {i : Nat} (hi : i < A.num_rows)
    (hrow : A.row i = []) :
    (∀ st, pass1_row A.row_offsets A.column_indices B.row_offsets B.column_indices i st
      = some st) ∧
    touched_count A B i = 0 ∧
    (∀ (w : Workspace R) (o : Output R), i + 1 < o.C_row_offsets.length →
      pass2_row A.row_offsets A.column_indices A.values B.row_offsets B.column_indices
          B.values i (w, o)
        = some (Workspace.mk w.next w.sums init 0,
            Output.mk (o.C_row_offsets.set (i + 1) o.num_nonzeros) o.C_column_indices
              o.C_values o.num_nonzeros)) ∧
    ∀ C0 : csr_matrix R, ∃ C x, multiply A B C0 = some C ∧ C.row i = [] ∧
      C.row_offsets[i]? = some x ∧ C.row_offsets[i + 1]? = some x := by
  have rA := hA.readable_of_compatible (hA.compatible hdim)
  have rB := hB.readable
  have h0 : A.offset (i + 1) - A.offset i = 0 := by
    rw [← row_length, hrow]; rfl
  have ht : touches A B i = [] := touches_of_row_nil hrow
  refine ⟨?_, ?_, ?_, ?_⟩
  · intro st
    simp only [pass1_row, hA.offset_get (Nat.le_of_lt hi),
      hA.offset_get (Nat.succ_le_of_lt hi), h0, forLoop]
  · rw [touched_count_eq rA rB hi, ht]
    rfl
  · intro w o ho
    simp only [pass2_row, hA.offset_get (Nat.le_of_lt hi),
      hA.offset_get (Nat.succ_le_of_lt hi), h0, forLoop, store, ho, if_true]
  · intro C0
    have hr : row_out A B i = [] := by
      unfold row_out
      rw [ht]
      rfl
    refine ⟨product_csr A B, (out_upto A B i).length, multiply_spec rA rB C0, ?_, ?_, ?_⟩
    · rw [product_csr_row A B hi, hr]
    · simp [product_csr, List.getElem?_range, Nat.lt_succ_of_lt hi]
    · simp [product_csr, List.getElem?_range, hi, out_upto_succ, hr]

theorem empty_row_contributes_nothing_witness :
    WellFormed ex_empty_row ∧ WellFormed ex_one ∧ ex_empty_row.num_cols = ex_one.num_rows ∧
    ex_empty_row.row 0 = [] ∧
    (∀ st, pass1_row ex_empty_row.row_offsets ex_empty_row.column_indices
      ex_one.row_offsets ex_one.column_indices 0 st = some st) ∧
    touched_count ex_empty_row ex_one 0 = 0 ∧
    (∀ (w : Workspace Int) (o : Output Int), 0 + 1 < o.C_row_offsets.length →
      pass2_row ex_empty_row.row_offsets ex_empty_row.column_indices ex_empty_row.values
          ex_one.row_offsets ex_one.column_indices ex_one.values 0 (w, o)
        = some (Workspace.mk w.next w.sums init 0,
            Output.mk (o.C_row_offsets.set (0 + 1) o.num_nonzeros) o.C_column_indices
              o.C_values o.num_nonzeros)) ∧
    ∀ C0 : csr_matrix Int, ∃ C x, multiply ex_empty_row ex_one C0 = some C ∧ C.row 0 = [] ∧
      C.row_offsets[0]? = some x ∧ C.row_offsets[0 + 1]? = some x :=
  ⟨ex_empty_row_wellFormed, ex_one_wellFormed, rfl, by decide,
    empty_row_contributes_nothing ex_empty_row_wellFormed ex_one_wellFormed rfl (by decide)
      (by decide)⟩

/-- C19: for well-formed inputs with `A.num_cols = B.num_rows` both passes run
without an out-of-range access: `spmm_csr_pass1` returns a count, and
`spmm_csr_pass2` returns on every output with `num_rows + 1` offsets and room
for that count (an access outside an array makes the embedding return `none`).
The indices they read are in range: each position `jj` of a row of `A` lies in
`A_column_indices` and `A_values` and holds a `j` with `j + 1` inside
`B_row_offsets`, and each position `kk` of row `j` of `B` lies in
`B_column_indices` and `B_values` and holds a `k` below `num_cols`, the
length of `mask`, `next` and `sums`. -/
theorem passes_stay_in_bounds {A B : csr_matrix R} (hA : WellFormed A)
    (hB : WellFormed B) (hdim : A.num_cols = B.num_rows) :
    (∃ n1, spmm_csr_pass1 A.num_rows B.num_cols A.row_offsets A.column_indices
        B.row_offsets B.column_indices = some n1 ∧
      ∀ (ro ci : List Nat) (cv : List R), A.num_rows + 1 ≤ ro.length →
        n1 ≤ ci.length → n1 ≤ cv.length →
        ∃ o, spmm_csr_pass2 A.num_rows B.num_cols A.row_offsets A.column_indices A.values
          B.row_offsets B.column_indices B.values ro ci cv = some o) ∧
    (∀ i jj, i < A.num_rows → A.offset i ≤ jj → jj < A.offset (i + 1) →
      ∃ j v, A.column_indices[jj]? = some j ∧ A.values[jj]? = some v ∧
        j + 1 < B.row_offsets.length ∧
        ∀ kk, B.offset j ≤ kk → kk < B.offset (j + 1) →
          ∃ k b, B.column_indices[kk]? = some k ∧ B.values[kk]? = some b ∧
            k < B.num_cols) := by
  have rA := hA.readable_of_compatible (hA.compatible hdim)
  have rB := hB.readable
  have hle := out_upto_length_le_links A B A.num_rows
  refine ⟨⟨links_upto A B A.num_rows, pass1_spec rA rB, ?_⟩, ?_⟩
  · intro ro ci cv hro hci hcv
    exact ⟨_, pass2_spec rA rB ro ci cv hro (by omega) (by omega)⟩
  · intro i jj hi h1 h2
    have hj : (A.entry jj).1 < B.num_rows := rA.read_column_lt hi h1 h2
    refine ⟨_, _, rA.read_column hi h1 h2, rA.read_value hi h1 h2, ?_, ?_⟩
    · have := hB.offsets_length
      omega
    · intro kk h3 h4
      exact ⟨_, _, rB.read_column hj h3 h4, rB.read_value hj h3 h4, rB.read_column_lt hj h3 h4⟩

theorem passes_stay_in_bounds_witness :
    WellFormed ex_A ∧ WellFormed ex_B ∧ ex_A.num_cols = ex_B.num_rows ∧
    ∃ n1, spmm_csr_pass1 ex_A.num_rows ex_B.num_cols ex_A.row_offsets ex_A.column_indices
        ex_B.row_offsets ex_B.column_indices = some n1 ∧
      ∀ (ro ci : List Nat) (cv : List Int), ex_A.num_rows + 1 ≤ ro.length →
        n1 ≤ ci.length → n1 ≤ cv.length →
        ∃ o, spmm_csr_pass2 ex_A.num_rows ex_B.num_cols ex_A.row_offsets
          ex_A.column_indices ex_A.values ex_B.row_offsets ex_B.column_indices
          ex_B.values ro ci cv = some o :=
  ⟨ex_A_wellFormed, ex_B_wellFormed, rfl,
    (passes_stay_in_bounds ex_A_wellFormed ex_B_wellFormed rfl).1⟩

/-- C20: for well-formed inputs the lengths `length` that the accumulation
loops of `spmm_csr_pass2` reach on the rows sum to the count `n1` of
`spmm_csr_pass1`.  When no touched column of any row has accumulated sum zero,
`spmm_csr_pass2`, run on the arrays that `multiply` sized by `n1`, returns
exactly `n1`, and the second resize of `multiply` leaves the matrix as it is.
Matrices of strictly positive integers satisfy the condition. -/
theorem symbolic_count_exact {A B : csr_matrix R} (hA : WellFormed A)
    (hB : WellFormed B) (hdim : A.num_cols = B.num_rows) (C0 : csr_matrix R) :
    ∃ n1, spmm_csr_pass1 A.num_rows B.num_cols A.row_offsets A.column_indices
        B.row_offsets B.column_indices = some n1 ∧
      (∃ len : Nat → Nat,
        (∀ i, i < A.num_rows → ∃ w,
          forLoop (pass2_jj_body A.column_indices A.values B.row_offsets B.column_indices
              B.values) (A.offset (i + 1) - A.offset i) (A.offset i)
              (Workspace.mk (List.replicate B.num_cols unseen)
                (List.replicate B.num_cols 0) init 0) = some w ∧
          w.length = len i) ∧
        n1 = ((List.range A.num_rows).map len).sum) ∧
      ((∀ i c, i < A.num_rows → c ∈ (touches A B i).map Prod.fst →
          product_sum A B i c ≠ 0) →
        ∃ o, spmm_csr_pass2 A.num_rows B.num_cols A.row_offsets A.column_indices A.values
            B.row_offsets B.column_indices B.values
            (C0.resize A.num_rows B.num_cols n1).row_offsets
            (C0.resize A.num_rows B.num_cols n1).column_indices
            (C0.resize A.num_rows B.num_cols n1).values = some o ∧
          o.num_nonzeros = n1 ∧
          csr_matrix.resize
            { num_rows := A.num_rows, num_cols := B.num_cols, num_entries := n1,
              row_offsets := o.C_row_offsets, column_indices := o.C_column_indices,
              values := o.C_values } A.num_rows B.num_cols o.num_nonzeros
            = { num_rows := A.num_rows, num_cols := B.num_cols, num_entries := n1,
                row_offsets := o.C_row_offsets, column_indices := o.C_column_indices,
                values := o.C_values }) ∧
      (∀ A1 B1 : csr_matrix Int, WellFormed A1 → WellFormed B1 →
        A1.num_cols = B1.num_rows → (∀ v ∈ A1.values, 0 < v) → (∀ v ∈ B1.values, 0 < v) →
        ∀ i c, i < A1.num_rows → c ∈ (touches A1 B1 i).map Prod.fst →
          product_sum A1 B1 i c ≠ 0) := by
  have rA := hA.readable_of_compatible (hA.compatible hdim)
  have rB := hB.readable
  have hle := out_upto_length_le_links A B A.num_rows
  refine ⟨links_upto A B A.num_rows, pass1_spec rA rB, ?_, ?_, ?_⟩
  · refine ⟨fun i => (chain ((touches A B i).map Prod.fst)).length, ?_, rfl⟩
    intro i hi
    have hts := touches_column_lt rA rB hi
    have hinv := rowInv_foldl B.num_cols (touches A B i) hts
    exact ⟨_, (pass2_jj_loop rA rB hi ⟨by simp, by simp⟩).1, hinv.length_eq⟩
  · intro hnz
    have heq : (out_upto A B A.num_rows).length = links_upto A B A.num_rows :=
      out_upto_length_eq_links (fun i c hi hc => by
        rw [← product_sum_eq_col_sum rA hi]
        exact hnz i c hi hc)
    have hro : (C0.resize A.num_rows B.num_cols (links_upto A B A.num_rows)).row_offsets.length
        = A.num_rows + 1 := by simp [csr_matrix.resize, length_resize_array]
    have hci : (C0.resize A.num_rows B.num_cols
        (links_upto A B A.num_rows)).column_indices.length = links_upto A B A.num_rows := by
      simp [csr_matrix.resize, length_resize_array]
    have hcv : (C0.resize A.num_rows B.num_cols (links_upto A B A.num_rows)).values.length
        = links_upto A B A.num_rows := by simp [csr_matrix.resize, length_resize_array]
    refine ⟨_, pass2_spec rA rB _ _ _ (by omega) (by omega) (by omega), heq, ?_⟩
    simp only [csr_matrix.resize]
    have e1 : (splice (C0.resize A.num_rows B.num_cols (links_upto A B A.num_rows)).row_offsets
        0 ((List.range (A.num_rows + 1)).map (fun r => (out_upto A B r).length))).length
        = A.num_rows + 1 := by
      rw [length_splice (by simp; omega)]; exact hro
    have e2 : (splice
        (C0.resize A.num_rows B.num_cols (links_upto A B A.num_rows)).column_indices
        0 ((out_upto A B A.num_rows).map Prod.fst)).length
        = (out_upto A B A.num_rows).length := by
      rw [length_splice (by simp; omega), hci, heq]
    have e3 : (splice (C0.resize A.num_rows B.num_cols (links_upto A B A.num_rows)).values
        0 ((out_upto A B A.num_rows).map Prod.snd)).length
        = (out_upto A B A.num_rows).length := by
      rw [length_splice (by simp; omega), hcv, heq]
    have k1 := resize_array_self (0 : Nat) (splice
      (C0.resize A.num_rows B.num_cols (links_upto A B A.num_rows)).row_offsets
      0 ((List.range (A.num_rows + 1)).map (fun r => (out_upto A B r).length)))
    have k2 := resize_array_self (0 : Nat) (splice
      (C0.resize A.num_rows B.num_cols (links_upto A B A.num_rows)).column_indices
      0 ((out_upto A B A.num_rows).map Prod.fst))
    have k3 := resize_array_self (0 : R) (splice
      (C0.resize A.num_rows B.num_cols (links_upto A B A.num_rows)).values
      0 ((out_upto A B A.num_rows).map Prod.snd))
    rw [e1] at k1
    rw [e2] at k2
    rw [e3] at k3
    simp only [csr_matrix.resize] at k1 k2 k3
    rw [k1, k2, k3, heq]
  · intro A1 B1 hA1 hB1 hd hpA hpB i c hi hc
    rw [product_sum_eq_col_sum (hA1.readable_of_compatible (hA1.compatible hd)) hi]
    exact Int.ne_of_gt (col_sum_pos (touches_values_pos hA1 hB1 hd hpA hpB hi) hc)

theorem symbolic_count_exact_witness :
    WellFormed ex_A ∧ WellFormed ex_B ∧ ex_A.num_cols = ex_B.num_rows ∧
    ∃ n1, spmm_csr_pass1 ex_A.num_rows ex_B.num_cols ex_A.row_offsets ex_A.column_indices
        ex_B.row_offsets ex_B.column_indices = some n1 ∧
      ∃ o, spmm_csr_pass2 ex_A.num_rows ex_B.num_cols ex_A.row_offsets ex_A.column_indices
          ex_A.values ex_B.row_offsets ex_B.column_indices ex_B.values
          (ex_empty.resize ex_A.num_rows ex_B.num_cols n1).row_offsets
          (ex_empty.resize ex_A.num_rows ex_B.num_cols n1).column_indices
          (ex_empty.resize ex_A.num_rows ex_B.num_cols n1).values = some o ∧
        o.num_nonzeros = n1 := by
  obtain ⟨n1, h1, _, h3, h4⟩ :=
    symbolic_count_exact ex_A_wellFormed ex_B_wellFormed rfl ex_empty
  obtain ⟨o, ho, hn, _⟩ := h3 (h4 ex_A ex_B ex_A_wellFormed ex_B_wellFormed rfl
    (by decide) (by decide))
  exact ⟨ex_A_wellFormed, ex_B_wellFormed, rfl, n1, h1, o, ho, hn⟩

end

section
variable {R : Type} [Ring R] [DecidableEq R]

/-! ## Emission order -/

theorem emitted_columns_eq_filter (f : Nat → R) (ch : List Nat) :
    (emitted f ch).map Prod.fst = ch.filter (fun c => decide (f c ≠ 0)) := by
  induction ch with
  | nil => rfl
  | cons a rest ih =>
    rw [emitted_cons]
    by_cases hz : f a = 0
    · rw [if_neg (by simpa using hz), ih, List.filter_cons_of_neg (by simpa using hz)]
    · rw [if_pos hz, List.map_cons, ih, List.filter_cons_of_pos (by simpa using hz)]

theorem out_upto_length_congr {A B M : csr_matrix R} (hM : WellFormed M) {r : Nat}
    (hr : r ≤ M.num_rows) (h : ∀ i, i < r → (row_out A B i).length = (M.row i).length) :
    (out_upto A B r).length = M.offset r := by
  induction r with
  | zero => rw [out_upto_zero, hM.offset_zero]; rfl
  | succ r ih =>
    have hmono : M.offset r ≤ M.offset (r + 1) := hM.offset_mono (Nat.le_succ r) hr
    rw [out_upto_succ, List.length_append, ih (by omega) (fun i hi => h i (by omega)),
      h r (Nat.lt_succ_self r), row_length]
    omega

/-- C21: for well-formed inputs the columns of each row of `C = multiply(A, B)`
are the columns touched in the row, in the reverse of the order of their first
touch, without those whose sum is zero.  Consequently, for every well-formed
`B` that stores no column twice in a row and no zero value, `multiply(I, B)`
has the `row_offsets` of `B` and each of its rows is the row of `B` reversed;
and for `A = [[1,2],[0,1]]`, `B = [[1,0],[2,1]]` the output is
`column_indices = [1,0,1,0]`, `values = [2,5,1,2]`. -/
theorem emission_in_reverse_first_touch_order {A B : csr_matrix R} (hA : WellFormed A)
    (hB : WellFormed B) (hdim : A.num_cols = B.num_rows) (C0 : csr_matrix R) :
    (∃ C, multiply A B C0 = some C ∧ ∀ i, i < A.num_rows →
      (C.row i).map Prod.fst
        = ((first_touch_order ((touches A B i).map Prod.fst)).reverse).filter
            (fun c => decide (product_sum A B i c ≠ 0))) ∧
    (∀ B1 C1 : csr_matrix R, WellFormed B1 →
      (∀ i, i < B1.num_rows → ((B1.row i).map Prod.fst).Nodup) →
      (∀ v ∈ B1.values, v ≠ 0) →
      ∃ C, multiply (identity R B1.num_rows) B1 C1 = some C ∧
        C.row_offsets = B1.row_offsets ∧
        ∀ i, i < B1.num_rows → C.row i = (B1.row i).reverse) ∧
    (∀ C1 : csr_matrix Int, ∃ C, multiply ex_A ex_B C1 = some C ∧
      C.row_offsets = [0, 2, 4] ∧ C.column_indices = [1, 0, 1, 0] ∧
      C.values = [2, 5, 1, 2]) := by
  have rA := hA.readable_of_compatible (hA.compatible hdim)
  have rB := hB.readable
  refine ⟨⟨product_csr A B, multiply_spec rA rB C0, ?_⟩, ?_, ?_⟩
  · intro i hi
    rw [product_csr_row A B hi]
    unfold row_out
    rw [emitted_columns_eq_filter, chain_eq_reverse_first_touch]
    congr 1
    funext c
    rw [product_sum_eq_col_sum rA hi]
  · intro B1 C1 hB1 hnd hnz
    have hI : WellFormed (identity R B1.num_rows) := identity_wellFormed B1.num_rows
    have hrow : ∀ i, i < B1.num_rows →
        row_out (identity R B1.num_rows) B1 i = (B1.row i).reverse := by
      intro i hi
      have ht : touches (identity R B1.num_rows) B1 i = B1.row i := touches_identity_left hi
      rw [row_out_eq_reverse (by rw [ht]; exact hnd i hi)
        (by rw [ht]; exact fun t h => hnz _ (hB1.row_value_mem hi t h)), ht]
    refine ⟨product_csr (identity R B1.num_rows) B1,
      multiply_spec hI.readable hB1.readable C1, ?_, ?_⟩
    · rw [offsets_eq_map hB1]
      simp only [product_csr]
      apply List.map_congr_left
      intro r hr
      have hr' : r ≤ B1.num_rows := by
        have := List.mem_range.mp hr
        have e : (identity R B1.num_rows).num_rows = B1.num_rows := rfl
        omega
      exact out_upto_length_congr hB1 hr'
        (fun i hi => by rw [hrow i (by omega), List.length_reverse])
    · intro i hi
      rw [product_csr_row _ B1 (show i < (identity R B1.num_rows).num_rows from hi)]
      exact hrow i hi
  · intro C1
    refine ⟨product_csr ex_A ex_B,
      multiply_spec (ex_A_wellFormed.readable_of_compatible (ex_A_wellFormed.compatible rfl))
        ex_B_wellFormed.readable C1, ?_⟩
    decide

theorem emission_in_reverse_first_touch_order_witness :
    WellFormed ex_A ∧ WellFormed ex_B ∧ ex_A.num_cols = ex_B.num_rows ∧
    (∃ C, multiply ex_A ex_B ex_empty = some C ∧ ∀ i, i < ex_A.num_rows →
      (C.row i).map Prod.fst
        = ((first_touch_order ((touches ex_A ex_B i).map Prod.fst)).reverse).filter
            (fun c => decide (product_sum ex_A ex_B i c ≠ 0))) ∧
    (∀ i, i < ex_B.num_rows → ((ex_B.row i).map Prod.fst).Nodup) ∧
    (∀ v ∈ ex_B.values, v ≠ 0) ∧
    ∃ C, multiply (identity Int ex_B.num_rows) ex_B ex_empty = some C ∧
      C.row_offsets = ex_B.row_offsets ∧
      ∀ i, i < ex_B.num_rows → C.row i = (ex_B.row i).reverse :=
  ⟨ex_A_wellFormed, ex_B_wellFormed, rfl,
    (emission_in_reverse_first_touch_order ex_A_wellFormed ex_B_wellFormed rfl ex_empty).1,
    by decide, by decide,
    (emission_in_reverse_first_touch_order ex_A_wellFormed ex_B_wellFormed rfl ex_empty).2.1
      ex_B ex_empty ex_B_wellFormed (by decide) (by decide)⟩

end

/-! ## The longest row -/

theorem le_foldl_max (xs : List Nat) (a : Nat) :
    a ≤ xs.foldl max a ∧ ∀ x ∈ xs, x ≤ xs.foldl max a := by
  induction xs generalizing a with
  | nil => exact ⟨Nat.le_refl _, fun x hx => by simp at hx⟩
  | cons y ys ih =>
    obtain ⟨h1, h2⟩ := ih (max a y)
    rw [List.foldl_cons]
    refine ⟨Nat.le_trans (Nat.le_max_left a y) h1, ?_⟩
    intro x hx
    rcases List.mem_cons.mp hx with rfl | hm
    · exact Nat.le_trans (Nat.le_max_right a x) h1
    · exact h2 x hm

theorem foldl_max_mem (xs : List Nat) (a : Nat) :
    xs.foldl max a = a ∨ xs.foldl max a ∈ xs := by
  induction xs generalizing a with
  | nil => exact Or.inl rfl
  | cons y ys ih =>
    rw [List.foldl_cons]
    rcases ih (max a y) with h | h
    · rw [h]
      rcases Nat.le_total a y with hle | hle
      · right; rw [Nat.max_eq_right hle]; exact List.mem_cons_self _ _
      · left; exact Nat.max_eq_left hle
    · exact Or.inr (List.mem_cons_of_mem _ h)

theorem zip_tail_differences (x : Nat) (rest : List Nat) :
    (rest.zip (x :: rest)).map (fun p => p.1 - p.2)
      = (List.range rest.length).map
          (fun i => (x :: rest).getD (i + 1) 0 - (x :: rest).getD i 0) := by
  apply List.ext_getElem
  · simp
  · intro i h1 h2
    simp only [List.length_map, List.length_range] at h2
    have h3 : i < (x :: rest).length := by simp; omega
    simp only [List.getElem_map, List.getElem_zip, List.getElem_range,
      List.getD_eq_getElem?_getD, List.getElem?_cons_succ, List.getElem?_eq_getElem h2,
      List.getElem?_eq_getElem h3, Option.getD_some]

theorem compute_max_eq (x : Nat) (rest : List Nat) :
    compute_max_entries_per_row (x :: rest)
      = some (max_row_length (x :: rest) rest.length) := by
  simp only [compute_max_entries_per_row, inner_product, max_row_length]
  rw [← zip_tail_differences, List.foldl_map]

/-- C25: for a non-decreasing `row_offsets` array of a matrix with `num_rows`
rows, `compute_max_entries_per_row` returns the maximum over the rows `i` of
`row_offsets[i+1] - row_offsets[i]`: it is 0 when there is no row, it is not
below the length of any row, and with at least one row some row attains it. -/
theorem compute_max_entries_per_row_is_max (row_offsets : List Nat) (num_rows : Nat)
    (hlen : row_offsets.length = num_rows + 1)
    (hsorted : List.Pairwise (fun a b => a ≤ b) row_offsets) :
    ∃ m, compute_max_entries_per_row row_offsets = some m ∧
      m = max_row_length row_offsets num_rows ∧
      (∀ i, i < num_rows → row_offsets.getD (i + 1) 0 - row_offsets.getD i 0 ≤ m) ∧
      (num_rows = 0 → m = 0) ∧
      (0 < num_rows →
        ∃ i, i < num_rows ∧ m = row_offsets.getD (i + 1) 0 - row_offsets.getD i 0) := by
  cases row_offsets with
  | nil => simp at hlen
  | cons x rest =>
    have hr : rest.length = num_rows := by simpa using hlen
    subst hr
    refine ⟨_, compute_max_eq x rest, rfl, ?_, ?_, ?_⟩
    · intro i hi
      apply (le_foldl_max _ 0).2
      exact List.mem_map.mpr ⟨i, List.mem_range.mpr hi, rfl⟩
    · intro h0
      simp [max_row_length, h0]
    · intro hpos
      rcases foldl_max_mem ((List.range rest.length).map
          (fun i => (x :: rest).getD (i + 1) 0 - (x :: rest).getD i 0)) 0 with h | h
      · refine ⟨0, hpos, ?_⟩
        have hle := (le_foldl_max ((List.range rest.length).map
          (fun i => (x :: rest).getD (i + 1) 0 - (x :: rest).getD i 0)) 0).2
          ((x :: rest).getD (0 + 1) 0 - (x :: rest).getD 0 0)
          (List.mem_map.mpr ⟨0, List.mem_range.mpr hpos, rfl⟩)
        unfold max_row_length
        rw [h] at hle ⊢
        omega
      · obtain ⟨i, hi, he⟩ := List.mem_map.mp h
        exact ⟨i, List.mem_range.mp hi, he.symm⟩

theorem compute_max_entries_per_row_is_max_witness :
    [0, 2, 2, 3, 3, 7].length = 5 + 1 ∧
    List.Pairwise (fun a b => a ≤ b) [0, 2, 2, 3, 3, 7] ∧
    ∃ m, compute_max_entries_per_row [0, 2, 2, 3, 3, 7] = some m ∧
      m = max_row_length [0, 2, 2, 3, 3, 7] 5 ∧
      (∀ i, i < 5 → [0, 2, 2, 3, 3, 7].getD (i + 1) 0 - [0, 2, 2, 3, 3, 7].getD i 0 ≤ m) ∧
      (5 = 0 → m = 0) ∧
      (0 < 5 →
        ∃ i, i < 5 ∧ m = [0, 2, 2, 3, 3, 7].getD (i + 1) 0 - [0, 2, 2, 3, 3, 7].getD i 0) :=
  ⟨by decide, by decide,
    compute_max_entries_per_row_is_max [0, 2, 2, 3, 3, 7] 5 (by decide) (by decide)⟩

/-! ## Sorted arrays and scans -/

theorem getD_eq_of_getElem? {α : Type} {xs : List α} {i : Nat} {v : α} (d : α)
    (h : xs[i]? = some v) : xs.getD i d = v := by
  simp [List.getD_eq_getElem?_getD, h]

theorem pairwise_getD_mono {xs : List Nat} (h : List.Pairwise (fun a b => a ≤ b) xs)
    {i j : Nat} (hij : i ≤ j) (hj : j < xs.length) : xs.getD i 0 ≤ xs.getD j 0 := by
  rcases Nat.eq_or_lt_of_le hij with rfl | hlt
  · exact Nat.le_refl _
  · have hi : i < xs.length := by omega
    have := (List.pairwise_iff_getElem.mp h) i j hi hj hlt
    simpa [List.getD_eq_getElem?_getD, List.getElem?_eq_getElem hi,
      List.getElem?_eq_getElem hj] using this

theorem pairwise_of_getD_mono {xs : List Nat}
    (h : ∀ i j, i ≤ j → j < xs.length → xs.getD i 0 ≤ xs.getD j 0) :
    List.Pairwise (fun a b => a ≤ b) xs := by
  rw [List.pairwise_iff_getElem]
  intro i j hi hj hlt
  have := h i j (Nat.le_of_lt hlt) hj
  simpa [List.getD_eq_getElem?_getD, List.getElem?_eq_getElem hi,
    List.getElem?_eq_getElem hj] using this

theorem exists_row_of_position (f : Nat → Nat) (p : Nat) :
    ∀ r, f 0 ≤ p → p < f r → ∃ i, i < r ∧ f i ≤ p ∧ p < f (i + 1) := by
  intro r
  induction r with
  | zero => intro h1 h2; omega
  | succ r ih =>
    intro h1 h2
    by_cases h : p < f r
    · obtain ⟨i, hi, hi1, hi2⟩ := ih h1 h
      exact ⟨i, by omega, hi1, hi2⟩
    · exact ⟨r, Nat.lt_succ_self r, by omega, h2⟩

theorem length_scan_from {α : Type} (op : α → α → α) (acc : α) (xs : List α) :
    (scan_from op acc xs).length = xs.length := by
  induction xs generalizing acc with
  | nil => rfl
  | cons x xs ih => simp [scan_from, ih]

theorem length_inclusive_scan {α : Type} (op : α → α → α) (xs : List α) :
    (inclusive_scan op xs).length = xs.length := by
  cases xs with
  | nil => rfl
  | cons x xs => simp [inclusive_scan, length_scan_from]

theorem scan_from_max_spec (xs : List Nat) :
    ∀ (acc p : Nat), p < xs.length →
      acc ≤ (scan_from max acc xs).getD p 0 ∧
      (∀ q, q ≤ p → xs.getD q 0 ≤ (scan_from max acc xs).getD p 0) ∧
      ((scan_from max acc xs).getD p 0 = acc ∨
        ∃ q, q ≤ p ∧ (scan_from max acc xs).getD p 0 = xs.getD q 0) := by
  induction xs with
  | nil => intro acc p hp; simp at hp
  | cons x xs ih =>
    intro acc p hp
    cases p with
    | zero =>
      simp only [scan_from, List.getD_cons_zero]
      refine ⟨Nat.le_max_left _ _, ?_, ?_⟩
      · intro q hq
        have : q = 0 := by omega
        subst this
        simp only [List.getD_cons_zero]
        exact Nat.le_max_right _ _
      · rcases Nat.le_total acc x with h | h
        · right; exact ⟨0, Nat.le_refl _, by simp [Nat.max_eq_right h]⟩
        · left; exact Nat.max_eq_left h
    | succ p =>
      have hp' : p < xs.length := by simpa using hp
      obtain ⟨h1, h2, h3⟩ := ih (max acc x) p hp'
      simp only [scan_from, List.getD_cons_succ]
      refine ⟨Nat.le_trans (Nat.le_max_left _ _) h1, ?_, ?_⟩
      · intro q hq
        cases q with
        | zero =>
          simp only [List.getD_cons_zero]
          exact Nat.le_trans (Nat.le_max_right _ _) h1
        | succ q =>
          simp only [List.getD_cons_succ]
          exact h2 q (by omega)
      · rcases h3 with h | ⟨q, hq, he⟩
        · rw [h]
          rcases Nat.le_total acc x with hle | hle
          · right; exact ⟨0, Nat.zero_le _, by simp [Nat.max_eq_right hle]⟩
          · left; exact Nat.max_eq_left hle
        · right; exact ⟨q + 1, by omega, by simpa using he⟩

theorem inclusive_scan_max_spec (xs : List Nat) (p : Nat) (hp : p < xs.length) :
    (∀ q, q ≤ p → xs.getD q 0 ≤ (inclusive_scan max xs).getD p 0) ∧
    ∃ q, q ≤ p ∧ (inclusive_scan max xs).getD p 0 = xs.getD q 0 := by
  cases xs with
  | nil => simp at hp
  | cons x xs =>
    cases p with
    | zero =>
      simp only [inclusive_scan, List.getD_cons_zero]
      refine ⟨?_, 0, Nat.le_refl _, rfl⟩
      intro q hq
      have : q = 0 := by omega
      subst this
      simp
    | succ p =>
      have hp' : p < xs.length := by simpa using hp
      obtain ⟨h1, h2, h3⟩ := scan_from_max_spec xs x p hp'
      simp only [inclusive_scan, List.getD_cons_succ]
      refine ⟨?_, ?_⟩
      · intro q hq
        cases q with
        | zero => simpa using h1
        | succ q =>
          simp only [List.getD_cons_succ]
          exact h2 q (by omega)
      · rcases h3 with h | ⟨q, hq, he⟩
        · exact ⟨0, Nat.zero_le _, by simpa using h⟩
        · exact ⟨q + 1, by omega, by simpa using he⟩

/-! ## From offsets to row indices -/

theorem getD_set_self {xs : List Nat} {i : Nat} (h : i < xs.length) (v : Nat) :
    (xs.set i v).getD i 0 = v := by
  simp [List.getD_eq_getElem?_getD, List.getElem?_set_self h]

theorem getD_set_ne {xs : List Nat} {i j : Nat} (h : i ≠ j) (v : Nat) :
    (xs.set i v).getD j 0 = xs.getD j 0 := by
  simp [List.getD_eq_getElem?_getD, List.getElem?_set_ne h]

theorem scatter_offsets (offsets : List Nat) (r n : Nat) (hlen : offsets.length = r + 1)
    (hstart : ∀ i, i < r → offsets.getD i 0 ≠ offsets.getD (i + 1) 0 →
      offsets.getD i 0 < offsets.getD (i + 1) 0 ∧ offsets.getD i 0 < n)
    (hdisj : ∀ i j, i < j → j < r → offsets.getD i 0 < offsets.getD (i + 1) 0 →
      offsets.getD i 0 ≠ offsets.getD j 0) :
    ∃ out, scatter_if r (fun i => some i) (fun i => offsets[i]?)
        (zip_transform not_equal_tuple_functor (fun i => offsets[i]?)
          (fun i => offsets[i + 1]?))
        (List.replicate n 0) = some out ∧
      out.length = n ∧
      (∀ q, q < n → out.getD q 0 = 0 ∨ ∃ i, i < r ∧ out.getD q 0 = i ∧
        offsets.getD i 0 = q ∧ offsets.getD i 0 < offsets.getD (i + 1) 0) ∧
      (∀ i, i < r → offsets.getD i 0 < offsets.getD (i + 1) 0 →
        out.getD (offsets.getD i 0) 0 = i) := by
  obtain ⟨out, hout, hinv⟩ := forLoop_inv
    (scatter_if_step (fun i => some i) (fun i => offsets[i]?)
      (zip_transform not_equal_tuple_functor (fun i => offsets[i]?)
        (fun i => offsets[i + 1]?)))
    (fun k out =>
      out.length = n ∧
      (∀ q, q < n → out.getD q 0 = 0 ∨ ∃ i, i < k ∧ out.getD q 0 = i ∧
        offsets.getD i 0 = q ∧ offsets.getD i 0 < offsets.getD (i + 1) 0) ∧
      (∀ i, i < k → offsets.getD i 0 < offsets.getD (i + 1) 0 →
        out.getD (offsets.getD i 0) 0 = i))
    r 0 (List.replicate n 0)
    (by
      refine ⟨by simp, ?_, ?_⟩
      · intro q hq
        left
        simp [List.getD_eq_getElem?_getD, List.getElem?_replicate, hq]
      · intro i hi
        omega)
    (by
      intro k out _ hk hI
      obtain ⟨g1, g2, g3⟩ := hI
      have hk' : k < r := by omega
      have e1 : offsets[k]? = some (offsets.getD k 0) :=
        getElem?_of_getD _ _ _ (by omega)
      have e2 : offsets[k + 1]? = some (offsets.getD (k + 1) 0) :=
        getElem?_of_getD _ _ _ (by omega)
      by_cases hne : offsets.getD k 0 = offsets.getD (k + 1) 0
      · refine ⟨out, ?_, g1, ?_, ?_⟩
        · simp only [scatter_if_step, zip_transform, e1, e2, not_equal_tuple_functor, hne,
            bne_self_eq_false]
        · intro q hq
          rcases g2 q hq with h | ⟨i, hi, h⟩
          · exact Or.inl h
          · exact Or.inr ⟨i, by omega, h⟩
        · intro i hi hlt
          have : i ≠ k := by
            intro e
            subst e
            omega
          exact g3 i (by omega) hlt
      · obtain ⟨hlt, hn⟩ := hstart k hk' hne
        have hb : (offsets.getD k 0 != offsets.getD (k + 1) 0) = true := by
          simpa using hne
        refine ⟨out.set (offsets.getD k 0) k, ?_, by simp [g1], ?_, ?_⟩
        · simp only [scatter_if_step, zip_transform, e1, e2, not_equal_tuple_functor, hb,
            store, g1, hn, if_true]
        · intro q hq
          by_cases e : offsets.getD k 0 = q
          · right
            refine ⟨k, Nat.lt_succ_self k, ?_, e, hlt⟩
            rw [← e]
            exact getD_set_self (by rw [g1]; exact hn) k
          · rw [getD_set_ne e]
            rcases g2 q hq with h | ⟨i, hi, h⟩
            · exact Or.inl h
            · exact Or.inr ⟨i, by omega, h⟩
        · intro i hi hil
          by_cases e : i = k
          · subst e
            exact getD_set_self (by rw [g1]; exact hn) i
          · have hik : i < k := by omega
            rw [getD_set_ne (fun h => hdisj i k hik hk' hil h.symm)]
            exact g3 i hik hil)
  simp only [Nat.zero_add] at hinv
  exact ⟨out, hout, hinv⟩

theorem offsets_to_indices_get (offsets indices : List Nat) (r : Nat)
    (hlen : offsets.length = r + 1)
    (hsorted : List.Pairwise (fun a b => a ≤ b) offsets)
    (hind : indices.length = offsets.getD r 0) :
    ∃ res, offsets_to_indices offsets indices = some res ∧ res.length = indices.length ∧
      ∀ p i, i < r → offsets.getD i 0 ≤ p → p < offsets.getD (i + 1) 0 →
        res.getD p 0 = i := by
  have hmono : ∀ i j, i ≤ j → j ≤ r → offsets.getD i 0 ≤ offsets.getD j 0 :=
    fun i j hij hj => pairwise_getD_mono hsorted hij (by omega)
  obtain ⟨out, hout, hl, h1, h2⟩ := scatter_offsets offsets r indices.length hlen
    (by
      intro i hi hne
      have a := hmono i (i + 1) (Nat.le_succ i) (by omega)
      have b := hmono (i + 1) r (by omega) (Nat.le_refl r)
      omega)
    (by
      intro i j hij hj hlt
      have a := hmono (i + 1) j (by omega) (by omega)
      omega)
  refine ⟨inclusive_scan max out, ?_, by rw [length_inclusive_scan, hl], ?_⟩
  · cases offsets with
    | nil => simp at hlen
    | cons x rest =>
      have hr : (x :: rest).length - 1 = r := by simp at hlen ⊢; omega
      simp only [offsets_to_indices, hr, fill, hout]
  · intro p i hi hp1 hp2
    have hpn : p < out.length := by
      have b := hmono (i + 1) r (by omega) (Nat.le_refl r)
      omega
    obtain ⟨s1, q, hq, s2⟩ := inclusive_scan_max_spec out p hpn
    have hrow : offsets.getD i 0 < offsets.getD (i + 1) 0 := by omega
    have lower : i ≤ (inclusive_scan max out).getD p 0 := by
      have := s1 (offsets.getD i 0) hp1
      rw [h2 i hi hrow] at this
      exact this
    have upper : (inclusive_scan max out).getD p 0 ≤ i := by
      rw [s2]
      rcases h1 q (by omega) with h | ⟨j, hj, he, hjq, _⟩
      · omega
      · rw [he]
        by_contra hcon
        have a := hmono (i + 1) j (by omega) (by omega)
        omega
    omega

theorem offsets_to_indices_spec (offsets indices : List Nat) (r : Nat)
    (hlen : offsets.length = r + 1)
    (hsorted : List.Pairwise (fun a b => a ≤ b) offsets)
    (hzero : offsets.getD 0 0 = 0)
    (hind : indices.length = offsets.getD r 0) :
    ∃ res, offsets_to_indices offsets indices = some res ∧ res.length = indices.length ∧
      (∀ p, p < res.length →
        res.getD p 0 < r ∧ offsets.getD (res.getD p 0) 0 ≤ p ∧
        p < offsets.getD (res.getD p 0 + 1) 0) ∧
      (∀ p i, i < r → offsets.getD i 0 ≤ p → p < offsets.getD (i + 1) 0 →
        res.getD p 0 = i) ∧
      List.Pairwise (fun a b => a ≤ b) res := by
  have hmono : ∀ i j, i ≤ j → j ≤ r → offsets.getD i 0 ≤ offsets.getD j 0 :=
    fun i j hij hj => pairwise_getD_mono hsorted hij (by omega)
  obtain ⟨res, hres, hl, hget⟩ := offsets_to_indices_get offsets indices r hlen hsorted hind
  have hrows : ∀ p, p < res.length →
      res.getD p 0 < r ∧ offsets.getD (res.getD p 0) 0 ≤ p ∧
      p < offsets.getD (res.getD p 0 + 1) 0 := by
    intro p hp
    obtain ⟨i, hi, hi1, hi2⟩ := exists_row_of_position (fun i => offsets.getD i 0) p r
      (by simp only [hzero]; omega) (by show p < offsets.getD r 0; omega)
    rw [hget p i hi hi1 hi2]
    exact ⟨hi, hi1, hi2⟩
  refine ⟨res, hres, hl, hrows, hget, ?_⟩
  apply pairwise_of_getD_mono
  intro p p' hpp hp'
  obtain ⟨a1, a2, a3⟩ := hrows p (by omega)
  obtain ⟨b1, b2, b3⟩ := hrows p' hp'
  by_contra hcon
  have := hmono (res.getD p' 0 + 1) (res.getD p 0) (by omega) (by omega)
  omega

/-! ## Lower bounds in a sorted array -/

theorem lower_bound_le_length (xs : List Nat) (v : Nat) : lower_bound xs v ≤ xs.length := by
  unfold lower_bound
  exact (List.takeWhile_sublist _).length_le

theorem lower_bound_spec {xs : List Nat} (h : List.Pairwise (fun a b => a ≤ b) xs) (v : Nat) :
    ∀ q, q < xs.length → (xs.getD q 0 < v ↔ q < lower_bound xs v) := by
  induction xs with
  | nil => intro q hq; simp at hq
  | cons x rest ih =>
    have hp := List.pairwise_cons.mp h
    intro q hq
    by_cases hx : x < v
    · have hlb : lower_bound (x :: rest) v = lower_bound rest v + 1 := by
        simp [lower_bound, List.takeWhile_cons, hx]
      rw [hlb]
      cases q with
      | zero => simp [hx]
      | succ q =>
        simp only [List.getD_cons_succ]
        rw [ih hp.2 q (by simpa using hq)]
        omega
    · have hlb : lower_bound (x :: rest) v = 0 := by
        simp [lower_bound, List.takeWhile_cons, hx]
      rw [hlb]
      have hge : v ≤ (x :: rest).getD q 0 := by
        cases q with
        | zero => simp only [List.getD_cons_zero]; omega
        | succ q =>
          simp only [List.getD_cons_succ]
          have hq' : q < rest.length := by simpa using hq
          have hm : rest.getD q 0 ∈ rest := by
            simp only [List.getD_eq_getElem?_getD, List.getElem?_eq_getElem hq',
              Option.getD_some]
            exact List.getElem_mem _
          have := hp.1 _ hm
          omega
      omega

theorem lower_bound_eq {xs : List Nat} (h : List.Pairwise (fun a b => a ≤ b) xs)
    {v k : Nat} (hk : k ≤ xs.length)
    (hiff : ∀ q, q < xs.length → (xs.getD q 0 < v ↔ q < k)) : lower_bound xs v = k := by
  have hle := lower_bound_le_length xs v
  have hs := lower_bound_spec h v
  rcases Nat.lt_trichotomy (lower_bound xs v) k with hlt | heq | hgt
  · have hq : lower_bound xs v < xs.length := by omega
    have := (hs _ hq).mp ((hiff _ hq).mpr hlt)
    omega
  · exact heq
  · have hq : k < xs.length := by omega
    have := (hiff _ hq).mp ((hs _ hq).mpr hgt)
    omega

theorem getD_indices_to_offsets (indices offsets : List Nat) {v : Nat}
    (hv : v < offsets.length) :
    (indices_to_offsets indices offsets).getD v 0 = lower_bound indices v := by
  simp [indices_to_offsets, List.getD_eq_getElem?_getD, List.getElem?_range hv]

theorem length_indices_to_offsets (indices offsets : List Nat) :
    (indices_to_offsets indices offsets).length = offsets.length := by
  simp [indices_to_offsets]

theorem eq_of_getD_eq {xs ys : List Nat} (hl : xs.length = ys.length)
    (h : ∀ p, p < xs.length → xs.getD p 0 = ys.getD p 0) : xs = ys := by
  apply List.ext_getElem hl
  intro p h1 h2
  have := h p h1
  simpa [List.getD_eq_getElem?_getD, List.getElem?_eq_getElem h1,
    List.getElem?_eq_getElem h2] using this

/-! ## Main results on the format utilities -/

/-- C22: for a non-decreasing `offsets` array of length `r + 1` with
`offsets[0] = 0` and an `indices` array of length `offsets[r]`,
`offsets_to_indices` returns, and afterwards `indices[p]` is, for every
position `p`, the row `i < r` with `offsets[i] ≤ p < offsets[i+1]`, which is
the only such row; the result has the length of `indices` and is
non-decreasing. -/
theorem offsets_to_indices_expands (offsets indices : List Nat) (r : Nat)
    (hlen : offsets.length = r + 1)
    (hsorted : List.Pairwise (fun a b => a ≤ b) offsets)
    (hzero : offsets[0]? = some 0)
    (hind : indices.length = offsets.getD r 0) :
    ∃ res, offsets_to_indices offsets indices = some res ∧ res.length = indices.length ∧
      (∀ p, p < res.length → ∃ i, res[p]? = some i ∧ i < r ∧
        offsets.getD i 0 ≤ p ∧ p < offsets.getD (i + 1) 0 ∧
        ∀ j, j < r → offsets.getD j 0 ≤ p → p < offsets.getD (j + 1) 0 → j = i) ∧
      List.Pairwise (fun a b => a ≤ b) res := by
  obtain ⟨res, hres, hl, hrows, hget, hsort⟩ := offsets_to_indices_spec offsets indices r
    hlen hsorted (getD_eq_of_getElem? 0 hzero) hind
  refine ⟨res, hres, hl, ?_, hsort⟩
  intro p hp
  obtain ⟨a1, a2, a3⟩ := hrows p hp
  refine ⟨res.getD p 0, getElem?_of_getD _ _ _ hp, a1, a2, a3, ?_⟩
  intro j hj h1 h2
  exact (hget p j hj h1 h2).symm

theorem offsets_to_indices_expands_witness :
    [0, 2, 2, 3, 3, 5].length = 5 + 1 ∧
    List.Pairwise (fun a b => a ≤ b) [0, 2, 2, 3, 3, 5] ∧
    [0, 2, 2, 3, 3, 5][0]? = some 0 ∧
    [9, 9, 9, 9, 9].length = [0, 2, 2, 3, 3, 5].getD 5 0 ∧
    offsets_to_indices [0, 2, 2, 3, 3, 5] [9, 9, 9, 9, 9] = some [0, 0, 2, 4, 4] ∧
    ∃ res, offsets_to_indices [0, 2, 2, 3, 3, 5] [9, 9, 9, 9, 9] = some res ∧
      res.length = [9, 9, 9, 9, 9].length ∧
      (∀ p, p < res.length → ∃ i, res[p]? = some i ∧ i < 5 ∧
        [0, 2, 2, 3, 3, 5].getD i 0 ≤ p ∧ p < [0, 2, 2, 3, 3, 5].getD (i + 1) 0 ∧
        ∀ j, j < 5 → [0, 2, 2, 3, 3, 5].getD j 0 ≤ p →
          p < [0, 2, 2, 3, 3, 5].getD (j + 1) 0 → j = i) ∧
      List.Pairwise (fun a b => a ≤ b) res :=
  ⟨by decide, by decide, by decide, by decide, by decide,
    offsets_to_indices_expands [0, 2, 2, 3, 3, 5] [9, 9, 9, 9, 9] 5 (by decide) (by decide)
      (by decide) (by decide)⟩

/-- C23: with `offsets` an array of length `r + 1` to write into: for every
non-decreasing array `o` of length `r + 1` with `o[0] = 0`,
`offsets_to_indices` followed by `indices_to_offsets` gives `o` back; and for
every sorted array `idx` of row indices below `r`, `indices_to_offsets`
followed by `offsets_to_indices` gives `idx` back. -/
theorem offsets_indices_round_trip (offsets : List Nat) (r : Nat)
    (hoff : offsets.length = r + 1) :
    (∀ o indices : List Nat, o.length = r + 1 → List.Pairwise (fun a b => a ≤ b) o →
      o[0]? = some 0 → indices.length = o.getD r 0 →
      ∃ idx, offsets_to_indices o indices = some idx ∧ indices_to_offsets idx offsets = o) ∧
    (∀ idx ind : List Nat, List.Pairwise (fun a b => a ≤ b) idx → (∀ x ∈ idx, x < r) →
      ind.length = idx.length →
      offsets_to_indices (indices_to_offsets idx offsets) ind = some idx) := by
  constructor
  · intro o indices hlen hsorted hzero hind
    have hmono : ∀ i j, i ≤ j → j ≤ r → o.getD i 0 ≤ o.getD j 0 :=
      fun i j hij hj => pairwise_getD_mono hsorted hij (by omega)
    obtain ⟨res, hres, hl, hrows, hget, hsort⟩ := offsets_to_indices_spec o indices r
      hlen hsorted (getD_eq_of_getElem? 0 hzero) hind
    refine ⟨res, hres, ?_⟩
    apply eq_of_getD_eq (by rw [length_indices_to_offsets, hoff, hlen])
    intro v hv
    rw [length_indices_to_offsets, hoff] at hv
    rw [getD_indices_to_offsets _ _ (by omega)]
    apply lower_bound_eq hsort
    · rw [hl, hind]
      exact hmono v r (by omega) (Nat.le_refl r)
    · intro q hq
      obtain ⟨a1, a2, a3⟩ := hrows q hq
      constructor
      · intro h
        have := hmono (res.getD q 0 + 1) v (by omega) (by omega)
        omega
      · intro h
        by_contra hcon
        have := hmono v (res.getD q 0) (by omega) (by omega)
        omega
  · intro idx ind hidx hlt hil
    have hspec := fun v => lower_bound_spec hidx v
    have hble := fun v => lower_bound_le_length idx v
    have hg : ∀ v, v ≤ r → (indices_to_offsets idx offsets).getD v 0 = lower_bound idx v :=
      fun v hv => getD_indices_to_offsets _ _ (by omega)
    have hlm : ∀ v w, v ≤ w → lower_bound idx v ≤ lower_bound idx w := by
      intro v w hvw
      by_contra hcon
      have hq : lower_bound idx w < idx.length := by have := hble v; omega
      have h1 := (hspec v _ hq).mpr (by omega)
      have h2 := (hspec w _ hq).mp (by omega)
      omega
    have hl0 : lower_bound idx 0 = 0 := by
      by_contra hcon
      have hq : 0 < idx.length := by have := hble 0; omega
      have := (hspec 0 0 hq).mpr (by omega)
      omega
    have hlr : lower_bound idx r = idx.length := by
      by_contra hcon
      have hq : lower_bound idx r < idx.length := by have := hble r; omega
      have hm : idx.getD (lower_bound idx r) 0 ∈ idx := by
        simp only [List.getD_eq_getElem?_getD, List.getElem?_eq_getElem hq, Option.getD_some]
        exact List.getElem_mem _
      have := (hspec r _ hq).mp (hlt _ hm)
      omega
    obtain ⟨res, hres, hl, _, hget, _⟩ := offsets_to_indices_spec
      (indices_to_offsets idx offsets) ind r
      (by rw [length_indices_to_offsets, hoff])
      (by
        apply pairwise_of_getD_mono
        intro i j hij hj
        rw [length_indices_to_offsets, hoff] at hj
        rw [hg i (by omega), hg j (by omega)]
        exact hlm i j hij)
      (by rw [hg 0 (Nat.zero_le r), hl0])
      (by rw [hg r (Nat.le_refl r), hlr, hil])
    rw [hres]
    congr 1
    apply eq_of_getD_eq (by rw [hl, hil])
    intro p hp
    have hp' : p < idx.length := by rw [← hil, ← hl]; exact hp
    have hm : idx.getD p 0 ∈ idx := by
      simp only [List.getD_eq_getElem?_getD, List.getElem?_eq_getElem hp', Option.getD_some]
      exact List.getElem_mem _
    have hir := hlt _ hm
    apply hget p (idx.getD p 0) hir
    · rw [hg _ (by omega)]
      by_contra hcon
      have := (hspec (idx.getD p 0) p hp').mpr (by omega)
      omega
    · rw [hg _ (by omega)]
      exact (hspec (idx.getD p 0 + 1) p hp').mp (by omega)

theorem offsets_indices_round_trip_witness :
    [7, 7, 7, 7, 7, 7].length = 5 + 1 ∧
    (∃ idx, offsets_to_indices [0, 2, 2, 3, 3, 5] [9, 9, 9, 9, 9] = some idx ∧
      indices_to_offsets idx [7, 7, 7, 7, 7, 7] = [0, 2, 2, 3, 3, 5]) ∧
    offsets_to_indices (indices_to_offsets [0, 0, 2, 4, 4] [7, 7, 7, 7, 7, 7])
      [9, 9, 9, 9, 9] = some [0, 0, 2, 4, 4] :=
  ⟨by decide,
    (offsets_indices_round_trip [7, 7, 7, 7, 7, 7] 5 (by decide)).1
      [0, 2, 2, 3, 3, 5] [9, 9, 9, 9, 9] (by decide) (by decide) (by decide) (by decide),
    (offsets_indices_round_trip [7, 7, 7, 7, 7, 7] 5 (by decide)).2
      [0, 0, 2, 4, 4] [9, 9, 9, 9, 9] (by decide) (by decide) (by decide)⟩

section
variable {R : Type} [Ring R] [DecidableEq R]

/-! ## The diagonal of a CSR matrix -/

theorem getD_set_eq {α : Type} {xs : List α} {i : Nat} (h : i < xs.length) (v d : α) :
    (xs.set i v).getD i d = v := by
  simp [List.getD_eq_getElem?_getD, List.getElem?_set_self h]

theorem getD_set_of_ne {α : Type} {xs : List α} {i j : Nat} (h : i ≠ j) (v d : α) :
    (xs.set i v).getD j d = xs.getD j d := by
  simp [List.getD_eq_getElem?_getD, List.getElem?_set_ne h]

theorem mem_row_iff {M : csr_matrix R} {i : Nat} {e : Nat × R} :
    e ∈ M.row i ↔ ∃ p, M.offset i ≤ p ∧ p < M.offset (i + 1) ∧ M.entry p = e := by
  simp only [csr_matrix.row, List.mem_map, List.mem_range'_1]
  constructor
  · rintro ⟨p, ⟨h1, h2⟩, rfl⟩
    exact ⟨p, h1, by omega, rfl⟩
  · rintro ⟨p, h1, h2, rfl⟩
    exact ⟨p, ⟨h1, by omega⟩, rfl⟩

theorem row_positions_injective {M : csr_matrix R} {i : Nat}
    (hnd : ((M.row i).map Prod.fst).Nodup) {p q : Nat}
    (hp1 : M.offset i ≤ p) (hp2 : p < M.offset (i + 1))
    (hq1 : M.offset i ≤ q) (hq2 : q < M.offset (i + 1))
    (h : (M.entry p).1 = (M.entry q).1) : p = q := by
  simp only [csr_matrix.row, List.map_map] at hnd
  exact List.inj_on_of_nodup_map hnd
    (List.mem_range'_1.mpr ⟨hp1, by omega⟩) (List.mem_range'_1.mpr ⟨hq1, by omega⟩) h

theorem scatter_diagonal {A : csr_matrix R} (hA : WellFormed A) (rows : List Nat)
    (hrl : rows.length = A.num_entries)
    (hrows : ∀ p, p < A.num_entries → rows.getD p 0 < A.num_rows) (n : Nat)
    (hn : n = min A.num_rows A.num_cols) :
    ∃ out, scatter_if A.values.length (fun p => A.values[p]?) (fun p => rows[p]?)
        (zip_transform equal_tuple_functor (fun p => rows[p]?)
          (fun p => A.column_indices[p]?))
        (List.replicate n (0 : R)) = some out ∧
      out.length = n ∧
      ∀ i, i < n →
        (∃ p, p < A.num_entries ∧ rows.getD p 0 = i ∧ (A.entry p).1 = i ∧
          out.getD i 0 = (A.entry p).2) ∨
        ((∀ p, p < A.num_entries → ¬ (rows.getD p 0 = i ∧ (A.entry p).1 = i)) ∧
          out.getD i 0 = 0) := by
  obtain ⟨out, hout, hinv⟩ := forLoop_inv
    (scatter_if_step (fun p => A.values[p]?) (fun p => rows[p]?)
      (zip_transform equal_tuple_functor (fun p => rows[p]?)
        (fun p => A.column_indices[p]?)))
    (fun k out =>
      out.length = n ∧
      ∀ i, i < n →
        (∃ p, p < k ∧ rows.getD p 0 = i ∧ (A.entry p).1 = i ∧
          out.getD i 0 = (A.entry p).2) ∨
        ((∀ p, p < k → ¬ (rows.getD p 0 = i ∧ (A.entry p).1 = i)) ∧ out.getD i 0 = 0))
    A.values.length 0 (List.replicate n (0 : R))
    (by
      refine ⟨by simp, ?_⟩
      intro i hi
      right
      refine ⟨fun p hp => by omega, ?_⟩
      simp [List.getD_eq_getElem?_getD, List.getElem?_replicate, hi])
    (by
      intro k out _ hk hI
      obtain ⟨g1, g2⟩ := hI
      have hk' : k < A.num_entries := by rw [hA.values_length] at hk; omega
      have e1 := hA.value_get hk'
      have e2 : rows[k]? = some (rows.getD k 0) := getElem?_of_getD _ _ _ (by omega)
      have e3 := hA.column_get hk'
      by_cases heq : rows.getD k 0 = (A.entry k).1
      · have hb : (rows.getD k 0 == (A.entry k).1) = true := by simpa using heq
        have hd : rows.getD k 0 < n := by
          have a := hrows k hk'
          have b := hA.column_lt hk'
          rw [hn]
          omega
        refine ⟨out.set (rows.getD k 0) (A.entry k).2, ?_, by simp [g1], ?_⟩
        · simp only [scatter_if_step, zip_transform, e1, e2, e3, equal_tuple_functor, hb,
            store, g1, hd, if_true]
        · intro i hi
          by_cases e : rows.getD k 0 = i
          · left
            refine ⟨k, Nat.lt_succ_self k, e, by rw [← heq, e], ?_⟩
            rw [← e]
            exact getD_set_eq (by rw [g1]; exact hd) _ _
          · rw [getD_set_of_ne e]
            rcases g2 i hi with ⟨p, hp, h⟩ | ⟨h1, h2⟩
            · exact Or.inl ⟨p, by omega, h⟩
            · right
              refine ⟨?_, h2⟩
              intro p hp
              by_cases hpk : p = k
              · subst hpk
                exact fun hc => e hc.1
              · exact h1 p (by omega)
      · have hb : (rows.getD k 0 == (A.entry k).1) = false := by simpa using heq
        refine ⟨out, ?_, g1, ?_⟩
        · simp only [scatter_if_step, zip_transform, e1, e2, e3, equal_tuple_functor, hb]
        · intro i hi
          rcases g2 i hi with ⟨p, hp, h⟩ | ⟨h1, h2⟩
          · exact Or.inl ⟨p, by omega, h⟩
          · right
            refine ⟨?_, h2⟩
            intro p hp
            by_cases hpk : p = k
            · subst hpk
              exact fun hc => heq (hc.1.trans hc.2.symm)
            · exact h1 p (by omega))
  simp only [Nat.zero_add, hA.values_length] at hinv
  exact ⟨out, hout, hinv⟩

/-- C24: for a well-formed CSR matrix `A` that stores no column twice in a
row, `extract_diagonal` returns; `output` then has length
`min(A.num_rows, A.num_cols)` and, for every `i` below that length,
`output[i]` is the value stored at `(i, i)` when row `i` holds an entry with
column `i`, and 0 otherwise.  Returning means that no write fell outside
`output`. -/
theorem extract_diagonal_spec {A : csr_matrix R} (hA : WellFormed A)
    (hnd : ∀ i, i < A.num_rows → ((A.row i).map Prod.fst).Nodup) (output : List R) :
    ∃ out, extract_diagonal A output = some out ∧
      out.length = min A.num_rows A.num_cols ∧
      ∀ i, i < min A.num_rows A.num_cols →
        (∀ v, (i, v) ∈ A.row i → out[i]? = some v) ∧
        ((∀ v, (i, v) ∉ A.row i) → out[i]? = some 0) := by
  obtain ⟨rows, hrows, hrl, hrow, hget, _⟩ := offsets_to_indices_spec A.row_offsets
    (List.replicate A.num_entries 0) A.num_rows hA.offsets_length hA.offsets_sorted
    (getD_eq_of_getElem? 0 hA.offsets_first)
    (by
      have := hA.offset_last
      simp only [csr_matrix.offset] at this
      rw [this]; simp)
  have hrl' : rows.length = A.num_entries := by rw [hrl]; simp
  obtain ⟨out, hout, hl, hinv⟩ := scatter_diagonal hA rows hrl'
    (fun p hp => (hrow p (by omega)).1) (min A.num_rows A.num_cols) rfl
  refine ⟨out, ?_, hl, ?_⟩
  · simp only [extract_diagonal, extract_diagonal_csr, hrows, fill, length_resize_array]
    exact hout
  · intro i hi
    have him : i < A.num_rows := by omega
    have hoi : ∀ x, out.getD i 0 = x → out[i]? = some x := by
      intro x hx
      rw [← hx]
      exact getElem?_of_getD _ _ _ (by omega)
    constructor
    · intro v hv
      obtain ⟨q, hq1, hq2, hqe⟩ := mem_row_iff.mp hv
      have hqn : q < A.num_entries := by
        have := hA.offset_le_entries (show i + 1 ≤ A.num_rows from him)
        omega
      have hrq : rows.getD q 0 = i := hget q i him hq1 hq2
      rcases hinv i hi with ⟨p, hp, h1, h2, h3⟩ | ⟨h1, _⟩
      · obtain ⟨_, a2, a3⟩ := hrow p (by omega)
        rw [h1] at a2 a3
        have hpq : p = q := row_positions_injective (hnd i him) a2 a3 hq1 hq2
          (by rw [h2, hqe])
        apply hoi
        rw [h3, hpq, hqe]
      · exact absurd ⟨hrq, by rw [hqe]⟩ (h1 q hqn)
    · intro hno
      rcases hinv i hi with ⟨p, hp, h1, h2, _⟩ | ⟨_, h2⟩
      · obtain ⟨_, a2, a3⟩ := hrow p (by omega)
        rw [h1] at a2 a3
        exfalso
        apply hno (A.entry p).2
        apply mem_row_iff.mpr
        exact ⟨p, a2, a3, by rw [← h2]⟩
      · exact hoi 0 h2

theorem extract_diagonal_spec_witness :
    WellFormed ex_diag3 ∧ (∀ i, i < ex_diag3.num_rows → ((ex_diag3.row i).map Prod.fst).Nodup) ∧
    extract_diagonal ex_diag3 [1, 1] = some [5, 0, 6] ∧
    ∃ out, extract_diagonal ex_diag3 [1, 1] = some out ∧
      out.length = min ex_diag3.num_rows ex_diag3.num_cols ∧
      ∀ i, i < min ex_diag3.num_rows ex_diag3.num_cols →
        (∀ v, (i, v) ∈ ex_diag3.row i → out[i]? = some v) ∧
        ((∀ v, (i, v) ∉ ex_diag3.row i) → out[i]? = some 0) :=
  ⟨by constructor <;> decide, by decide, by decide,
    extract_diagonal_spec (by constructor <;> decide) (by decide) [1, 1]⟩

end

end Cusp
